import Mathlib

/-!
# RC6 block cipher of `source/ak_rc6.c`: a shallow embedding

Machine words (`ak_uint32`) are natural numbers below `2^32`; every arithmetic
operation of the C source is followed by an explicit reduction modulo `2^32`.
Bytes (`ak_uint8`) are natural numbers below `256`.  Pointers that may be `NULL`
are `Option` values, and a read outside an array yields `none`.
-/

namespace RC6

/-! ## 32-bit machine arithmetic -/

/-- Addition of two `ak_uint32` values (wraps modulo `2^32`). -/
def add32 (a b : Nat) : Nat := (a + b) % 2 ^ 32

/-- Subtraction of two `ak_uint32` values (wraps modulo `2^32`). -/
def sub32 (a b : Nat) : Nat := (a + (2 ^ 32 - b % 2 ^ 32)) % 2 ^ 32

/-- Multiplication of two `ak_uint32` values (wraps modulo `2^32`). -/
def mul32 (a b : Nat) : Nat := (a * b) % 2 ^ 32

/-- The C operator `val << n` on `ak_uint32`.  The source passes counts that are
arbitrary 32-bit words, while C defines the shift only for counts below 32; here
the count is taken modulo 32 (what the shift instruction of the target does),
which is the reading under which the known-answer vectors of
`ak_libakrypt_test_rc6_complete` hold. -/
def shl32 (val n : Nat) : Nat := (val <<< (n % 32)) % 2 ^ 32

/-- The C operator `val >> n` on `ak_uint32`, count taken modulo 32 as in `shl32`. -/
def shr32 (val n : Nat) : Nat := (val % 2 ^ 32) >>> (n % 32)

/-! ## Constants of `ak_rc6.c` -/

def ak_rc6_rounds : Nat := 20
def ak_rc6_key_len : Nat := 256
def ak_rc6_p32 : Nat := 0xB7E15163
def ak_rc6_q32 : Nat := 0x9E3779B9
def ak_rc6_lg_w : Nat := 5

/-- The value of `sizeof( ak_rc6_expanded_keys )`: 44 words of 4 bytes. -/
def sizeof_expanded_keys : Nat := 44 * 4

/-! ## Rotation helpers -/

/-- The expression `(val << bit_count) | (val >> (32 - bit_count))`, in which
`32 - bit_count` is an unsigned 32-bit subtraction. -/
def ak_rc6_left_bit_cicl_shift (val bit_count : Nat) : Nat :=
  shl32 val bit_count ||| shr32 val (sub32 32 bit_count)

/-- The expression `(val >> bit_count) | (val << (32 - bit_count))`. -/
def ak_rc6_right_bit_cicl_shift (val bit_count : Nat) : Nat :=
  shr32 val bit_count ||| shl32 val (sub32 32 bit_count)

/-! ## Memory access -/

/-- Read of `((ak_uint32 *)p)[i]` from a byte buffer: four bytes starting at
offset `4 * i`, least significant byte first.  A read past the end of the
buffer gives `none`. -/
def load32 (p : List Nat) (i : Nat) : Option Nat := do
  let b0 ← p[4 * i]?
  let b1 ← p[4 * i + 1]?
  let b2 ← p[4 * i + 2]?
  let b3 ← p[4 * i + 3]?
  pure (b0 + 256 * b1 + 65536 * b2 + 16777216 * b3)

/-- The four bytes that a store of the word `w` through an `ak_uint32 *` writes,
least significant byte first. -/
def store32 (w : Nat) : List Nat :=
  [w % 256, w / 256 % 256, w / 65536 % 256, w / 16777216 % 256]

/-- The working registers `A`, `B`, `C`, `D` of the block transforms. -/
structure Regs where
  A : Nat
  B : Nat
  C : Nat
  D : Nat
deriving DecidableEq, Repr

/-- The 16 output bytes written through `((ak_uint32 *)out)[0..3]`. -/
def storeRegs (r : Regs) : List Nat :=
  store32 r.A ++ store32 r.B ++ store32 r.C ++ store32 r.D

/-- The four words read through `((ak_uint32 *)in)[0..3]`. -/
def loadRegs (inp : List Nat) : Option Regs := do
  let a ← load32 inp 0
  let b ← load32 inp 1
  let c ← load32 inp 2
  let d ← load32 inp 3
  pure ⟨a, b, c, d⟩

/-! ## Block transforms -/

/-- One pass through the body of the `for` loop of `ak_rc6_encrypt` with loop
index `i` (lines 119-123). -/
def encrypt_round (keys : List Nat) (i : Nat) (r : Regs) : Option Regs := do
  let t := ak_rc6_left_bit_cicl_shift (mul32 r.B (add32 (mul32 2 r.B) 1)) ak_rc6_lg_w
  let u := ak_rc6_left_bit_cicl_shift (mul32 r.D (add32 (mul32 2 r.D) 1)) ak_rc6_lg_w
  let k0 ← keys[2 * i]?
  let a := add32 (ak_rc6_left_bit_cicl_shift (r.A ^^^ t) u) k0
  let k1 ← keys[2 * i + 1]?
  let c := add32 (ak_rc6_left_bit_cicl_shift (r.C ^^^ u) t) k1
  pure ⟨r.B, c, r.D, a⟩

/-- One pass through the body of the `for` loop of `ak_rc6_decrypt` with loop
index `i` (lines 147-151). -/
def decrypt_round (keys : List Nat) (i : Nat) (r : Regs) : Option Regs := do
  let r1 : Regs := ⟨r.D, r.A, r.B, r.C⟩
  let u := ak_rc6_left_bit_cicl_shift (mul32 r1.D (add32 (mul32 2 r1.D) 1)) ak_rc6_lg_w
  let t := ak_rc6_left_bit_cicl_shift (mul32 r1.B (add32 (mul32 2 r1.B) 1)) ak_rc6_lg_w
  let k1 ← keys[2 * i + 1]?
  let c := ak_rc6_right_bit_cicl_shift (sub32 r1.C k1) t ^^^ u
  let k0 ← keys[2 * i]?
  let a := ak_rc6_right_bit_cicl_shift (sub32 r1.A k0) u ^^^ t
  pure ⟨a, r1.B, c, r1.D⟩

/-- Runs a loop body over the successive values of the loop index. -/
def runLoop (body : Nat → Regs → Option Regs) : List Nat → Regs → Option Regs
  | [], r => some r
  | i :: is, r => (body i r).bind (runLoop body is)

/-- The values `1, 2, ..., ak_rc6_rounds` taken by `i` in
`for(i = 1; i <= ak_rc6_rounds; ++i)`. -/
def encrypt_indices : List Nat := List.range' 1 ak_rc6_rounds

/-- The values `ak_rc6_rounds, ..., 2, 1` taken by `i` in
`for (i = ak_rc6_rounds; i >= 1; --i)`. -/
def decrypt_indices : List Nat := (List.range' 1 ak_rc6_rounds).reverse

/-- The transform of `ak_rc6_encrypt` on the round-key array `keys` and the
input buffer `inp`; the result is the 16 bytes written to `out`. -/
def encrypt_block (keys inp : List Nat) : Option (List Nat) := do
  let r ← loadRegs inp
  let k0 ← keys[0]?
  let b := add32 r.B k0
  let k1 ← keys[1]?
  let d := add32 r.D k1
  let r ← runLoop (encrypt_round keys) encrypt_indices ⟨r.A, b, r.C, d⟩
  let k42 ← keys[2 * ak_rc6_rounds + 2]?
  let a := add32 r.A k42
  let k43 ← keys[2 * ak_rc6_rounds + 3]?
  let c := add32 r.C k43
  pure (storeRegs ⟨a, r.B, c, r.D⟩)

/-- The transform of `ak_rc6_decrypt` on the round-key array `keys` and the
input buffer `inp`; the result is the 16 bytes written to `out`. -/
def decrypt_block (keys inp : List Nat) : Option (List Nat) := do
  let r ← loadRegs inp
  let k43 ← keys[2 * ak_rc6_rounds + 3]?
  let c := sub32 r.C k43
  let k42 ← keys[2 * ak_rc6_rounds + 2]?
  let a := sub32 r.A k42
  let r ← runLoop (decrypt_round keys) decrypt_indices ⟨a, r.B, c, r.D⟩
  let k1 ← keys[1]?
  let d := sub32 r.D k1
  let k0 ← keys[0]?
  let b := sub32 r.B k0
  pure (storeRegs ⟨r.A, b, r.C, d⟩)

/-! ## Key expansion -/

/-- A store `buf[i] = v`; a store past the end of the array gives `none`. -/
def write (buf : List Nat) (i v : Nat) : Option (List Nat) :=
  if i < buf.length then some (buf.set i v) else none

/-- The body `result[i] = result[i - 1] + ak_rc6_q32` of the first loop of
`ak_rc6_schedule_keys`. -/
def init_step (result : List Nat) (i : Nat) : Option (List Nat) := do
  let prev ← result[i - 1]?
  write result i (add32 prev ak_rc6_q32)

/-- Runs the initialisation body over the successive values of `i`. -/
def init_loop : List Nat → List Nat → Option (List Nat)
  | [], result => some result
  | i :: is, result => (init_step result i).bind (init_loop is)

/-- The local variables of the mixing loop of `ak_rc6_schedule_keys`, together
with the array `result` it writes. -/
structure MixState where
  result : List Nat
  L : List Nat
  i : Nat
  j : Nat
  A : Nat
  B : Nat
deriving DecidableEq, Repr

/-- The body of the mixing loop of `ak_rc6_schedule_keys` (lines 95-98). -/
def mix_step (s : MixState) : Option MixState := do
  let ri ← s.result[s.i]?
  let a := ak_rc6_left_bit_cicl_shift (add32 (add32 ri s.A) s.B) 3
  let result ← write s.result s.i a
  let lj ← s.L[s.j]?
  let b := ak_rc6_left_bit_cicl_shift (add32 (add32 lj a) s.B) (add32 a s.B)
  let l ← write s.L s.j b
  pure ⟨result, l, (s.i + 1) % (2 * ak_rc6_rounds + 4), (s.j + 1) % 8, a, b⟩

/-- Runs `mix_step` the given number of times. -/
def mix_loop : Nat → MixState → Option MixState
  | 0, s => some s
  | n + 1, s => (mix_step s).bind (mix_loop n)

/-- Lines 85-99 of `ak_rc6_schedule_keys`: the computation on the freshly
allocated array `result`, started from `L[8] = {0}`.  No key byte is an input
of it.  Returns the final `result` and `L`. -/
def expand_keys (result : List Nat) : Option (List Nat × List Nat) := do
  let result ← write result 0 ak_rc6_p32
  let result ← init_loop (List.range' 1 (2 * ak_rc6_rounds + 4 - 1)) result
  let s ← mix_loop (3 * (2 * ak_rc6_rounds + 4)) ⟨result, List.replicate 8 0, 0, 0, 0, 0⟩
  pure (s.result, s.L)

/-! ## Secret-key context -/

/-- Modelled from the spec: the error codes are declared outside these sources.
The first five are the codes that `ak_rc6.c` names;
`ak_error_wrong_key_length` is the code for a key of the wrong length
(`WrongKeyLength`), which `ak_rc6.c` never names; `other n` is any further code
that a collaborator such as `ak_ptr_wipe` may return. -/
inductive ErrorCode where
  | ak_error_ok
  | ak_error_null_pointer
  | ak_error_wrong_key_icode
  | ak_error_out_of_memory
  | ak_error_wrong_option
  | ak_error_wrong_key_length
  | other (n : Nat)
deriving DecidableEq, Repr

/-- Modelled from the spec: `struct skey` is declared outside these sources.
The structure keeps the key buffer the context holds and the fields that
`ak_rc6.c` touches.  `data` is the pointer to the round-key storage (`none` is
`NULL`), seen as an array of `ak_uint32`; `generator` is the state of the
random generator handed to `ak_ptr_wipe`; `oid` is the algorithm identifier
(`none` is `NULL`) and `resource` the usage-resource counter, the number of
block operations the key may still perform. -/
structure Skey where
  key : List Nat
  key_size : Nat
  data : Option (List Nat)
  generator : Nat
  oid : Option String
  resource : Nat
deriving DecidableEq, Repr

/-- What a call leaves observable outside the context: reported errors, and the
wiping, zero-filling, allocation and release of memory, in the order they
happen. -/
inductive Event where
  | message (code : ErrorCode) (func : String) (text : String)
  | wipe (contents : List Nat) (size : Nat) (after : List Nat)
  | memset (contents : List Nat) (size : Nat) (after : List Nat)
  | free (contents : List Nat)
  | malloc (size : Nat) (ok : Bool)
deriving DecidableEq, Repr

/-- The collaborators of `ak_rc6.c` that live outside it.  `check_icode` is the
handler `skey->check_icode`; `ak_ptr_wipe contents size generator` gives the
returned code, the contents of the buffer after the call and the new generator
state; `malloc_ok` tells whether `ak_aligned_malloc` succeeds and `junk` gives
the initial contents of the memory it returns. -/
structure Env where
  check_icode : Skey → Bool
  ak_ptr_wipe : List Nat → Nat → Nat → ErrorCode × List Nat × Nat
  malloc_ok : Bool
  junk : Nat → Nat

/-- The value of an `ak_skey` argument: `NULL`, or the address of the context
held in the state. -/
inductive SkeyPtr where
  | NULL
  | valid
deriving DecidableEq, Repr

/-- The memory the functions work on: the secret-key context and the events
so far. -/
structure State where
  skey : Skey
  trace : List Event
deriving DecidableEq, Repr

/-- Modelled from the spec: `ak_error_message` is declared outside these
sources; it reports the (code, message, origin) triple to the logging
collaborator and hands the code back to its caller. -/
def ak_error_message (code : ErrorCode) (func text : String) (st : State) :
    ErrorCode × State :=
  (code, { st with trace := st.trace ++ [Event.message code func text] })

/-- The effect of `memset( p, 0, size )` on an array of 32-bit words. -/
def memset_zero (contents : List Nat) (size : Nat) : List Nat :=
  List.replicate (min (size / 4) contents.length) 0 ++ contents.drop (size / 4)

/-- The result of `ak_aligned_malloc( size )`: `none` for `NULL`, otherwise the
initial contents of the new block, seen as `size / 4` words. -/
def ak_aligned_malloc (env : Env) (size : Nat) : Option (List Nat) :=
  if env.malloc_ok then some ((List.range (size / 4)).map env.junk) else none

/-- The statement `memset( skey->data, 0, sizeof( ak_rc6_expanded_keys ))`. -/
def zero_fill (st : State) : State :=
  match st.skey.data with
  | none => st
  | some contents =>
    ⟨{ st.skey with data := some (memset_zero contents sizeof_expanded_keys) },
     st.trace ++ [Event.memset contents sizeof_expanded_keys
       (memset_zero contents sizeof_expanded_keys)]⟩

/-- The statements `free( skey->data ); skey->data = NULL;`.  The event records
the contents of the block at the moment it is released. -/
def release (st : State) : State :=
  ⟨{ st.skey with data := none }, st.trace ++ [Event.free (st.skey.data.getD [])]⟩

/-- The call `ak_ptr_wipe( skey->data, sizeof( ak_rc6_expanded_keys ), &skey->generator )`
on the storage `data`: the returned code and the state it leaves. -/
def wipe_data (env : Env) (data : List Nat) (st : State) : ErrorCode × State :=
  let w := env.ak_ptr_wipe data sizeof_expanded_keys st.skey.generator
  (w.1, ⟨{ st.skey with data := some w.2.1, generator := w.2.2 },
    st.trace ++ [Event.wipe data sizeof_expanded_keys w.2.1]⟩)

/-- The function `ak_rc6_delete_keys` (lines 40-58). -/
def ak_rc6_delete_keys (env : Env) (skey : SkeyPtr) (st : State) : ErrorCode × State :=
  match skey with
  | .NULL => ak_error_message .ak_error_null_pointer "ak_rc6_delete_keys"
      "using a null pointer to secret key" st
  | .valid =>
    match st.skey.data with
    | none => (.ak_error_ok, st)
    | some data =>
      let wiped := wipe_data env data st
      let error := wiped.1
      let st1 :=
        if error ≠ .ak_error_ok then
          zero_fill (ak_error_message error "ak_rc6_delete_keys"
            "incorrect wiping an internal data" wiped.2).2
        else wiped.2
      (error, release st1)

/-- The function `ak_rc6_schedule_keys` (lines 67-103).  The result is `none`
when the run reads or writes outside an array. -/
def ak_rc6_schedule_keys (env : Env) (skey : SkeyPtr) (st : State) :
    Option (ErrorCode × State) :=
  match skey with
  | .NULL => some (ak_error_message .ak_error_null_pointer "ak_rc6_schedule_keys"
      "using a null pointer to secret key" st)
  | .valid =>
    if st.skey.key_size ≠ 32 then
      some (ak_error_message .ak_error_null_pointer "ak_rc6_schedule_keys"
        "unsupported length of secret key" st)
    else if env.check_icode st.skey ≠ true then
      some (ak_error_message .ak_error_wrong_key_icode "ak_rc6_schedule_keys"
        "using key with wrong integrity code" st)
    else
      let st1 := if st.skey.data ≠ none then (ak_rc6_delete_keys env skey st).2 else st
      match ak_aligned_malloc env sizeof_expanded_keys with
      | none =>
        some (ak_error_message .ak_error_out_of_memory "ak_rc6_schedule_keys"
          "wrong allocation of internal data"
          ⟨{ st1.skey with data := none },
           st1.trace ++ [Event.malloc sizeof_expanded_keys false]⟩)
      | some fresh =>
        (expand_keys fresh).bind fun rl =>
          let w := env.ak_ptr_wipe rl.2 (8 * 4) st1.skey.generator
          some (.ak_error_ok,
            ⟨{ st1.skey with data := some rl.1, generator := w.2.2 },
             st1.trace ++ [Event.malloc sizeof_expanded_keys true,
               Event.wipe rl.2 (8 * 4) w.2.1]⟩)

/-- The function `ak_rc6_encrypt` on a context: `keys` is `skey->data`; the
result is the 16 bytes written to `out`, or `none` when `skey->data` is `NULL`
or a read falls outside an array. -/
def ak_rc6_encrypt (skey : Skey) (inp : List Nat) : Option (List Nat) :=
  skey.data.bind fun keys => encrypt_block keys inp

/-- The function `ak_rc6_decrypt` on a context, as `ak_rc6_encrypt`. -/
def ak_rc6_decrypt (skey : Skey) (inp : List Nat) : Option (List Nat) :=
  skey.data.bind fun keys => decrypt_block keys inp

/-! ## Auxiliary definitions for the statements -/

/-- All four registers hold 32-bit words. -/
def Regs.WF (r : Regs) : Prop :=
  r.A < 2 ^ 32 ∧ r.B < 2 ^ 32 ∧ r.C < 2 ^ 32 ∧ r.D < 2 ^ 32

/-- The word `(ak_rc6_p32 + i * ak_rc6_q32) mod 2^32`. -/
def init_word (i : Nat) : Nat := (ak_rc6_p32 + i * ak_rc6_q32) % 2 ^ 32

/-- The array `key` of `ak_libakrypt_test_rc6_complete` (lines 220-223). -/
def test_key : List Nat :=
  [0xef, 0xcd, 0xab, 0x89, 0x67, 0x45, 0x23, 0x01, 0x10, 0x32, 0x54, 0x76, 0x98, 0xba, 0xdc, 0xfe,
   0x77, 0x66, 0x55, 0x44, 0x33, 0x22, 0x11, 0x00, 0xff, 0xee, 0xdd, 0xcc, 0xbb, 0xaa, 0x99, 0x88]

/-- The array `in` of `ak_libakrypt_test_rc6_complete` (lines 228-233). -/
def test_in : List Nat :=
  [0x88, 0x99, 0xaa, 0xbb, 0xcc, 0xdd, 0xee, 0xff, 0x00, 0x77, 0x66, 0x55, 0x44, 0x33, 0x22, 0x11,
   0x0a, 0xff, 0xee, 0xcc, 0xbb, 0xaa, 0x99, 0x88, 0x77, 0x66, 0x55, 0x44, 0x33, 0x22, 0x11, 0x00,
   0x00, 0x0a, 0xff, 0xee, 0xcc, 0xbb, 0xaa, 0x99, 0x88, 0x77, 0x66, 0x55, 0x44, 0x33, 0x22, 0x11,
   0x11, 0x00, 0x0a, 0xff, 0xee, 0xcc, 0xbb, 0xaa, 0x99, 0x88, 0x77, 0x66, 0x55, 0x44, 0x33, 0x22]

/-- The array `outecb` of `ak_libakrypt_test_rc6_complete` (lines 237-241). -/
def test_outecb : List Nat :=
  [0x21, 0x9b, 0x58, 0x7d, 0xfb, 0xc5, 0xb4, 0xc4, 0xb2, 0x43, 0xf3, 0x6, 0x19, 0x44, 0x28, 0xe,
   0x2d, 0x29, 0x54, 0xc7, 0x6a, 0xd2, 0x8e, 0xce, 0x7b, 0x54, 0x26, 0x59, 0xb7, 0xfd, 0x17, 0xc1,
   0xb, 0x7a, 0xf4, 0xba, 0xba, 0x68, 0x47, 0xa1, 0xf8, 0xe9, 0x62, 0xde, 0xf3, 0x40, 0x25, 0xe9,
   0x7f, 0xb0, 0x5e, 0xad, 0x4a, 0x6e, 0x7f, 0xe0, 0xf1, 0xde, 0x49, 0x7f, 0xd2, 0x13, 0x13, 0xb3]

/-- The `i`-th 16-byte block of a buffer. -/
def block_at (data : List Nat) (i : Nat) : List Nat := (data.drop (16 * i)).take 16

/-- Block-by-block application of a single-block transform to the first `n`
blocks of `data`, the outputs laid out one after the other
(`out[i] = f(in[i])`). -/
def each_block (f : List Nat → Option (List Nat)) (data : List Nat) : Nat → Option (List Nat)
  | 0 => some []
  | n + 1 => do
      let done ← each_block f data n
      let out ← f (block_at data n)
      pure (done ++ out)

/-- An environment in which the integrity check passes, allocation succeeds and
`ak_ptr_wipe` succeeds, overwriting the buffer and advancing the generator. -/
def test_env : Env :=
  ⟨fun _ => true, fun contents _ g => (.ak_error_ok, contents.map fun x => x ^^^ 0x5a5a5a5a, g + 1),
   true, fun i => i⟩

/-- As `test_env`, except that `ak_ptr_wipe` reports an error and leaves the
buffer as it was. -/
def failing_wipe_env : Env :=
  ⟨fun _ => true, fun contents _ g => (.other 1, contents, g), true, fun i => i⟩

/-- As `test_env`, except that the integrity check fails. -/
def bad_icode_env : Env :=
  ⟨fun _ => false, fun contents _ g => (.ak_error_ok, contents.map fun x => x ^^^ 0x5a5a5a5a, g + 1),
   true, fun i => i⟩

/-- A context holding the test key, before any key expansion. -/
def test_state : State := ⟨⟨test_key, 32, none, 0, none, 0⟩, []⟩

/-- A context holding a 16-byte key. -/
def short_key_state : State := ⟨⟨test_key.take 16, 16, none, 0, none, 0⟩, []⟩

/-- A context that owns round-key storage. -/
def keyed_state : State :=
  ⟨⟨test_key, 32, some ((List.range 44).map init_word), 0, some "rc6", 4096⟩, []⟩

/-! ## RC6 key expansion, as the specification words it -/

/-- Rotation of the 32-bit word `v` to the left by `n mod 32` positions. -/
def rotl32 (v n : Nat) : Nat :=
  (v * 2 ^ (n % 32)) % 2 ^ 32 + (v % 2 ^ 32) / 2 ^ (32 - n % 32)

/-- The bytes of a 32-byte key as eight little-endian 32-bit words. -/
def key_words (K : List Nat) : List Nat :=
  (List.range 8).map fun j =>
    K.getD (4 * j) 0 + 256 * K.getD (4 * j + 1) 0 + 65536 * K.getD (4 * j + 2) 0
      + 16777216 * K.getD (4 * j + 3) 0

/-- One mixing step `A = S[i] = rotl(S[i]+A+B, 3)`, `B = L[j] = rotl(L[j]+A+B, A+B)`,
then `i` and `j` advance cyclically; all arithmetic modulo `2^32`. -/
def rc6_mix_step (s : MixState) : MixState :=
  let a := rotl32 ((s.result.getD s.i 0 + s.A + s.B) % 2 ^ 32) 3
  let b := rotl32 ((s.L.getD s.j 0 + a + s.B) % 2 ^ 32) ((a + s.B) % 2 ^ 32)
  ⟨s.result.set s.i a, s.L.set s.j b, (s.i + 1) % 44, (s.j + 1) % 8, a, b⟩

/-- Runs `rc6_mix_step` the given number of times. -/
def rc6_mix : Nat → MixState → MixState
  | 0, s => s
  | n + 1, s => rc6_mix n (rc6_mix_step s)

/-- The RC6 key expansion of the key `K`: `S[0] = 0xB7E15163`,
`S[i] = S[i-1] + 0x9E3779B9`, `L` the key as little-endian words, then 132
mixing steps over `S` and `L`. -/
def rc6_key_expansion (K : List Nat) : List Nat :=
  (rc6_mix 132 ⟨(List.range 44).map fun i => (0xB7E15163 + i * 0x9E3779B9) % 2 ^ 32,
    key_words K, 0, 0, 0, 0⟩).result

/-! ## Write trace of the mixing loop -/

/-- The pairs `(i, j)` of indices at which the successive passes through the
body of the mixing loop of `ak_rc6_schedule_keys` store into `result` and `L`
(lines 95-96), over the given number of iterations. -/
def mix_writes : Nat → MixState → Option (List (Nat × Nat))
  | 0, _ => some []
  | n + 1, s => (mix_step s).bind fun s1 => (mix_writes n s1).map fun t => (s.i, s.j) :: t

/-- The number of iterations of `for (k = 1; k <= 3 * (2 * ak_rc6_rounds + 4); ++k)`. -/
def mix_iterations : Nat := 3 * (2 * ak_rc6_rounds + 4)

/-! ## RC6 encryption, as the specification words it -/

/-- One RC6 round with index `i` on the state `(A, B, C, D)` under the round keys `S`:
`t = rotl(B*(2B+1), 5)`, `u = rotl(D*(2D+1), 5)`, `A = rotl(A xor t, u) + S[2i]`,
`C = rotl(C xor u, t) + S[2i+1]`, then `(A, B, C, D) := (B, C, D, A)`; all modulo `2^32`. -/
def rc6_round (S : List Nat) (i : Nat) (r : Regs) : Regs :=
  let t := rotl32 (r.B * (2 * r.B + 1) % 2 ^ 32) 5
  let u := rotl32 (r.D * (2 * r.D + 1) % 2 ^ 32) 5
  let a := (rotl32 (r.A ^^^ t) u + S.getD (2 * i) 0) % 2 ^ 32
  let c := (rotl32 (r.C ^^^ u) t + S.getD (2 * i + 1) 0) % 2 ^ 32
  ⟨r.B, c, r.D, a⟩

/-- RC6 encryption with 20 rounds of the state `(A, B, C, D)` under the round keys `S`:
`B += S[0]`, `D += S[1]`, rounds 1 to 20, then `A += S[42]`, `C += S[43]`. -/
def rc6_encrypt (S : List Nat) (r : Regs) : Regs :=
  let r0 : Regs := ⟨r.A, (r.B + S.getD 0 0) % 2 ^ 32, r.C, (r.D + S.getD 1 0) % 2 ^ 32⟩
  let r20 := (List.range' 1 20).foldl (fun x i => rc6_round S i x) r0
  ⟨(r20.A + S.getD 42 0) % 2 ^ 32, r20.B, (r20.C + S.getD 43 0) % 2 ^ 32, r20.D⟩

/-- The indices at which `ak_rc6_encrypt` reads `keys[...]`, in the order of the reads:
`keys[0]` and `keys[1]` (lines 116-117), `keys[2 * i]` and `keys[2 * i + 1]` for each round
(lines 121-122), `keys[2 * ak_rc6_rounds + 2]` and `keys[2 * ak_rc6_rounds + 3]`
(lines 125-126). -/
def encrypt_key_reads : List Nat :=
  [0, 1] ++ encrypt_indices.flatMap (fun i => [2 * i, 2 * i + 1])
    ++ [2 * ak_rc6_rounds + 2, 2 * ak_rc6_rounds + 3]

/-! ## Block-cipher context -/

/-- Modelled from the spec: `struct bckey` is declared outside these sources;
the structure keeps the fields that `ak_rc6.c` names.  `key` is the secret-key
context, `bsize` the block size in bytes, and the four handlers are the function
pointers `schedule_keys`, `delete_keys`, `encrypt` and `decrypt` (`none` for a
pointer that is not set). -/
structure Bckey where
  key : Skey
  bsize : Nat
  schedule_keys : Option (Env → SkeyPtr → State → Option (ErrorCode × State))
  delete_keys : Option (Env → SkeyPtr → State → ErrorCode × State)
  encrypt : Option (Skey → List Nat → Option (List Nat))
  decrypt : Option (Skey → List Nat → Option (List Nat))

/-- The value of an `ak_bckey` argument: `NULL`, or the address of the context
held in the state. -/
inductive BckeyPtr where
  | NULL
  | valid
deriving DecidableEq, Repr

/-- The collaborators of `ak_bckey_create_rc6` that live outside `ak_rc6.c`:
`openssl_compability` is the value of
`(int) ak_libakrypt_get_option_by_name( "openssl_compability" )`;
`bckey_create_code keysize blocksize` is the code that `ak_bckey_create` returns
for these sizes; `oid_rc6` is the result of `ak_oid_find_by_name( "rc6" )`
(`none` for `NULL`); `oid_error` numbers the code that a failed look-up leaves
for `ak_error_get_value()`, a code other than `ak_error_ok`. -/
structure CreateEnv where
  openssl_compability : Int
  bckey_create_code : Nat → Nat → ErrorCode
  oid_rc6 : Option String
  oid_error : Nat

/-- The memory `ak_bckey_create_rc6` works on: the block-cipher context and the
events so far. -/
structure BState where
  bkey : Bckey
  trace : List Event

/-- Modelled from the spec: `ak_bckey_create` is defined outside these sources.
On success it leaves a context with no key, of the given key size and block
size, with no handler set; on failure the context is left as it was. -/
def ak_bckey_create (cenv : CreateEnv) (b : Bckey) (keysize blocksize : Nat) :
    ErrorCode × Bckey :=
  if cenv.bckey_create_code keysize blocksize ≠ .ak_error_ok then
    (cenv.bckey_create_code keysize blocksize, b)
  else
    (.ak_error_ok,
      ⟨⟨[], keysize, none, b.key.generator, none, 0⟩, blocksize, none, none, none, none⟩)

/-- Modelled from the spec: `ak_bckey_destroy` is defined outside these sources.
It leaves a context without key material, sizes, identifier or handlers. -/
def ak_bckey_destroy (b : Bckey) : Bckey :=
  ⟨⟨[], 0, none, b.key.generator, none, 0⟩, 0, none, none, none, none⟩

/-- The function `ak_bckey_create_rc6` (lines 170-206). -/
def ak_bckey_create_rc6 (cenv : CreateEnv) (bkey : BckeyPtr) (st : BState) :
    ErrorCode × BState :=
  let oc := cenv.openssl_compability
  match bkey with
  | .NULL =>
    (.ak_error_null_pointer,
      { st with trace := st.trace ++ [Event.message .ak_error_null_pointer "ak_bckey_create_rc6"
        "using null pointer to block cipher key context"] })
  | .valid =>
    if oc < 0 ∨ oc > 1 then
      (.ak_error_wrong_option,
        { st with trace := st.trace ++ [Event.message .ak_error_wrong_option "ak_bckey_create_rc6"
          "wrong value for \"openssl_compability\" option"] })
    else
      let created := ak_bckey_create cenv st.bkey 32 16
      let error := created.1
      if error ≠ .ak_error_ok then
        (error, ⟨created.2, st.trace ++ [Event.message error "ak_bckey_create_rc6"
          "wrong initalization of block cipher key context"]⟩)
      else
        match cenv.oid_rc6 with
        | none =>
          let error := ErrorCode.other cenv.oid_error
          (error, ⟨ak_bckey_destroy { created.2 with key := { created.2.key with oid := none } },
            st.trace ++ [Event.message error "ak_bckey_create_rc6"
              "wrong search of predefined rc6 block cipher OID"]⟩)
        | some oid =>
          let b1 : Bckey := { created.2 with
            key := { created.2.key with oid := some oid }
            schedule_keys := some ak_rc6_schedule_keys
            delete_keys := some ak_rc6_delete_keys }
          let b2 : Bckey :=
            if oc ≠ 0 then { b1 with encrypt := some ak_rc6_encrypt, decrypt := some ak_rc6_decrypt }
            else { b1 with encrypt := some ak_rc6_encrypt, decrypt := some ak_rc6_decrypt }
          (error, ⟨b2, st.trace⟩)

/-- A block-cipher context before its creation: nothing is set. -/
def blank_bstate : BState := ⟨⟨⟨[], 0, none, 0, none, 0⟩, 0, none, none, none, none⟩, []⟩

/-- An environment of `ak_bckey_create_rc6` with the given option value, in
which `ak_bckey_create` succeeds and the identifier `rc6` is found. -/
def create_env (oc : Int) : CreateEnv := ⟨oc, fun _ _ => .ak_error_ok, some "rc6", 0⟩

/-- An environment of `ak_bckey_create_rc6` in which `ak_bckey_create` fails. -/
def failing_create_env : CreateEnv := ⟨0, fun _ _ => .ak_error_out_of_memory, some "rc6", 0⟩

/-! ## Block transforms as steps on the memory -/

/-- The call `ak_rc6_encrypt( skey, in, out )` as a step on the memory.  The
function is `void` and stores only through `out`: the state after the call is
the state before it, and the second component is the 16 bytes written to `out`.
The result is `none` when the call reads outside an array or through `NULL`. -/
def ak_rc6_encrypt_call (st : State) (inp : List Nat) : Option (State × List Nat) :=
  (ak_rc6_encrypt st.skey inp).map fun out => (st, out)

/-- The call `ak_rc6_decrypt( skey, in, out )` as a step on the memory, as
`ak_rc6_encrypt_call`. -/
def ak_rc6_decrypt_call (st : State) (inp : List Nat) : Option (State × List Nat) :=
  (ak_rc6_decrypt st.skey inp).map fun out => (st, out)

/-- A context that owns round-key storage and whose resource counter is zero. -/
def exhausted_state : State := ⟨{ keyed_state.skey with resource := 0 }, []⟩

/-! ## Vectors of the self-test for the chaining modes -/

/-- The array `ivctr` of `ak_libakrypt_test_rc6_complete` (line 244). -/
def test_ivctr : List Nat :=
  [0xf0, 0xce, 0xab, 0x90, 0x78, 0x56, 0x34, 0x12]

/-- The array `outctr` of `ak_libakrypt_test_rc6_complete` (lines 247-252). -/
def test_outctr : List Nat :=
  [0xa8, 0x12, 0x9f, 0x8a, 0xaf, 0xc0, 0x89, 0x62, 0xa8, 0x95, 0xa1, 0x8e, 0xa7, 0xd5, 0x73, 0x20,
   0xd4, 0x15, 0x4e, 0x59, 0x31, 0x4a, 0x33, 0x64, 0x81, 0x2d, 0x84, 0xca, 0x03, 0x99, 0x33, 0x9b,
   0x90, 0x82, 0x0c, 0x25, 0x67, 0xd6, 0x8a, 0xcf, 0x5e, 0x5a, 0xd8, 0x08, 0x9c, 0xef, 0x58, 0xef,
   0x7e, 0x31, 0xb0, 0x94, 0xf8, 0xc6, 0x2a, 0x00, 0xac, 0x0c, 0xc1, 0xed, 0x4d, 0xcc, 0x29, 0x83]

/-- The array `ivcbc` of `ak_libakrypt_test_rc6_complete` (lines 255-258). -/
def test_ivcbc : List Nat :=
  [0x12, 0x01, 0xf0, 0xe5, 0xd4, 0xc3, 0xb2, 0xa1, 0xf0, 0xce, 0xab, 0x90, 0x78, 0x56, 0x34, 0x12,
   0x19, 0x18, 0x17, 0x16, 0x15, 0x14, 0x13, 0x12, 0x90, 0x89, 0x78, 0x67, 0x56, 0x45, 0x34, 0x23]

/-- The array `outcbc` of `ak_libakrypt_test_rc6_complete` (lines 261-266). -/
def test_outcbc : List Nat :=
  [0xb6, 0x54, 0xca, 0xc5, 0xb3, 0x77, 0x55, 0xeb, 0x32, 0x9f, 0xae, 0xb1, 0x99, 0x58, 0xe3, 0xa4,
   0xf5, 0xad, 0x4d, 0xdc, 0x0d, 0x26, 0xcf, 0xa7, 0x50, 0x7a, 0x00, 0xe3, 0xb9, 0x80, 0x5a, 0x14,
   0x88, 0x99, 0x12, 0xa4, 0xeb, 0xf0, 0xf2, 0xd4, 0xf6, 0x51, 0xfe, 0x08, 0x2d, 0x31, 0x30, 0x29,
   0x99, 0xa5, 0x94, 0x30, 0x2c, 0x07, 0x50, 0x5e, 0x5e, 0x2c, 0x63, 0xeb, 0xf1, 0xee, 0x29, 0xeb]

/-- The array `ivofb` of `ak_libakrypt_test_rc6_complete` (lines 269-272). -/
def test_ivofb : List Nat :=
  [0x12, 0x01, 0xf0, 0xe5, 0xd4, 0xc3, 0xb2, 0xa1, 0xf0, 0xce, 0xab, 0x90, 0x78, 0x56, 0x34, 0x12,
   0x19, 0x18, 0x17, 0x16, 0x15, 0x14, 0x13, 0x12, 0x90, 0x89, 0x78, 0x67, 0x56, 0x45, 0x34, 0x23]

/-- The array `outofb` of `ak_libakrypt_test_rc6_complete` (lines 276-280). -/
def test_outofb : List Nat :=
  [0xee, 0x06, 0x98, 0x2b, 0xa7, 0x2f, 0x6e, 0x23, 0x13, 0xe3, 0x10, 0x9c, 0x3a, 0x4c, 0xef, 0xd0,
   0x38, 0x65, 0xae, 0xf2, 0x82, 0x6c, 0xcf, 0x6f, 0x7f, 0xc7, 0xa8, 0xed, 0xe6, 0xb8, 0x38, 0x76,
   0xe4, 0x4d, 0xcf, 0xbc, 0xb1, 0xe1, 0xd6, 0x8b, 0x8e, 0x21, 0xef, 0x39, 0xeb, 0x8f, 0xfe, 0x81,
   0x1d, 0x6c, 0xfb, 0x95, 0x91, 0x81, 0xef, 0x35, 0xdf, 0xfe, 0xf3, 0x2d, 0xf0, 0xa7, 0xe6, 0xd9]

/-- The array `outcfb` of `ak_libakrypt_test_rc6_complete` (lines 283-287). -/
def test_outcfb : List Nat :=
  [0xee, 0x06, 0x98, 0x2b, 0xa7, 0x2f, 0x6e, 0x23, 0x13, 0xe3, 0x10, 0x9c, 0x3a, 0x4c, 0xef, 0xd0,
   0x38, 0x65, 0xae, 0xf2, 0x82, 0x6c, 0xcf, 0x6f, 0x7f, 0xc7, 0xa8, 0xed, 0xe6, 0xb8, 0x38, 0x76,
   0xfa, 0x44, 0xa3, 0x33, 0x91, 0x94, 0x66, 0x31, 0x31, 0x25, 0xc0, 0x2b, 0xe1, 0xbe, 0xc8, 0x43,
   0xfc, 0x4e, 0x4c, 0x9c, 0x2d, 0x0a, 0x04, 0x64, 0x3e, 0x40, 0xfd, 0xf1, 0x3c, 0x2a, 0x0c, 0x3e]

/-- Modelled from the spec: the failures that the operations on top of the
block primitive report (section 7 and the operations of section 4). -/
inductive Failure where
  | InvalidArgument
  | InvalidIVLength
  | InvalidDataLength
  | InvalidTagLength
  | AssociatedDataTooLarge
  | PlaintextTooLarge
  | AuthenticationFailed
deriving DecidableEq, Repr

deriving instance DecidableEq for Except

/-- Bytewise exclusive or of two buffers, as long as the shorter of them. -/
def xor_bytes (a b : List Nat) : List Nat := List.zipWith (fun x y => x ^^^ y) a b

/-- The part of the keystream block `s` used for a block of `n` bytes: the
whole block for a full block, and the `n` most significant bytes, those at the
end of the buffer, for a final partial block. -/
def keystream_for (s : List Nat) (n : Nat) : List Nat := s.drop (s.length - n)

/-- The number that a buffer holds, least significant byte first. -/
def le_nat : List Nat → Nat
  | [] => 0
  | b :: bs => b + 256 * le_nat bs

/-- The `n` bytes of the number `v`, least significant byte first. -/
def le_bytes : Nat → Nat → List Nat
  | 0, _ => []
  | n + 1, v => v % 256 :: le_bytes n (v / 256)

/-- The successive 16-byte blocks of a buffer (the last one may be shorter). -/
def chunks : Nat → List Nat → List (List Nat)
  | 0, _ => []
  | fuel + 1, l => if l.isEmpty then [] else l.take 16 :: chunks fuel (l.drop 16)

/-- The blocks of an initialisation vector, in the order they are used. -/
def iv_blocks (iv : List Nat) : List (List Nat) := chunks iv.length iv

/-- Runs a mode over a buffer, block after block: `step` takes the chaining
state and the current input block and gives the next state and the output
block; the output blocks are laid out one after the other. -/
def run_mode {σ : Type} (step : σ → List Nat → Option (σ × List Nat)) :
    Nat → σ → List Nat → Option (List Nat)
  | 0, _, _ => some []
  | fuel + 1, s, data =>
    if data.isEmpty then some []
    else (step s (data.take 16)).bind fun so =>
      (run_mode step fuel so.1 (data.drop 16)).map fun rest => so.2 ++ rest

/-- ECB: `out[i] = f(in[i])`, no chaining state. -/
def ecb_step (f : List Nat → Option (List Nat)) (_ : Unit) (b : List Nat) :
    Option (Unit × List Nat) :=
  (f b).map fun o => ((), o)

/-- CBC encryption: `out[i] = encrypt(in[i] XOR prev)`, where `prev` is the
oldest block of the register, which starts as the blocks of the IV and takes
each output block at its end. -/
def cbc_encrypt_step (enc : List Nat → Option (List Nat)) (reg : List (List Nat))
    (b : List Nat) : Option (List (List Nat) × List Nat) :=
  match reg with
  | [] => none
  | r :: rest => (enc (xor_bytes b r)).map fun c => (rest ++ [c], c)

/-- CBC decryption: `in[i] = decrypt(out[i]) XOR prev`. -/
def cbc_decrypt_step (dec : List Nat → Option (List Nat)) (reg : List (List Nat))
    (c : List Nat) : Option (List (List Nat) × List Nat) :=
  match reg with
  | [] => none
  | r :: rest => (dec c).map fun p => (rest ++ [c], xor_bytes p r)

/-- CFB encryption: `s[i] = encrypt(prev)`, `out[i] = in[i] XOR s[i]`, the
output block being fed back into the register. -/
def cfb_encrypt_step (enc : List Nat → Option (List Nat)) (reg : List (List Nat))
    (b : List Nat) : Option (List (List Nat) × List Nat) :=
  match reg with
  | [] => none
  | r :: rest => (enc r).map fun s =>
      (rest ++ [xor_bytes b (keystream_for s b.length)], xor_bytes b (keystream_for s b.length))

/-- CFB decryption: `s[i] = encrypt(prev)`, `out[i] = in[i] XOR s[i]`, the
input (ciphertext) block being fed back into the register. -/
def cfb_decrypt_step (enc : List Nat → Option (List Nat)) (reg : List (List Nat))
    (c : List Nat) : Option (List (List Nat) × List Nat) :=
  match reg with
  | [] => none
  | r :: rest => (enc r).map fun s => (rest ++ [c], xor_bytes c (keystream_for s c.length))

/-- OFB: `s[i] = encrypt(s[i-1])`, `out[i] = in[i] XOR s[i]`, the keystream
block being fed back into the register. -/
def ofb_step (enc : List Nat → Option (List Nat)) (reg : List (List Nat))
    (b : List Nat) : Option (List (List Nat) × List Nat) :=
  match reg with
  | [] => none
  | r :: rest => (enc r).map fun s => (rest ++ [s], xor_bytes b (keystream_for s b.length))

/-- CTR: `s[i] = encrypt(IV + i)`, `out[i] = in[i] XOR s[i]`; the state is the
counter block read as a number, and the addition is modulo `2^128`. -/
def ctr_step (enc : List Nat → Option (List Nat)) (ctr : Nat) (b : List Nat) :
    Option (Nat × List Nat) :=
  (enc (le_bytes 16 ctr)).map fun s =>
    ((ctr + 1) % 2 ^ 128, xor_bytes b (keystream_for s b.length))

/-- The result of a run: the output, or `InvalidArgument` when the block
primitive could not be applied. -/
def finish (r : Option (List Nat)) : Except Failure (List Nat) :=
  match r with
  | some out => .ok out
  | none => .error .InvalidArgument

/-- Modelled from the spec: `ak_bckey_encrypt_ecb` is defined outside these
sources.  ECB encryption of `inp` with the single-block transform `enc`; the
length must be a multiple of the block size. -/
def ak_bckey_encrypt_ecb (enc : List Nat → Option (List Nat)) (inp : List Nat) :
    Except Failure (List Nat) :=
  if inp.length % 16 ≠ 0 then .error .InvalidDataLength
  else finish (run_mode (ecb_step enc) inp.length () inp)

/-- Modelled from the spec: `ak_bckey_decrypt_ecb` is defined outside these
sources.  ECB decryption with the single-block transform `dec`. -/
def ak_bckey_decrypt_ecb (dec : List Nat → Option (List Nat)) (inp : List Nat) :
    Except Failure (List Nat) :=
  if inp.length % 16 ≠ 0 then .error .InvalidDataLength
  else finish (run_mode (ecb_step dec) inp.length () inp)

/-- Modelled from the spec: `ak_bckey_encrypt_cbc` is defined outside these
sources.  The IV is one block or several; the length of the data must be a
multiple of the block size. -/
def ak_bckey_encrypt_cbc (enc : List Nat → Option (List Nat)) (inp iv : List Nat) :
    Except Failure (List Nat) :=
  if iv.length = 0 ∨ iv.length % 16 ≠ 0 then .error .InvalidIVLength
  else if inp.length % 16 ≠ 0 then .error .InvalidDataLength
  else finish (run_mode (cbc_encrypt_step enc) inp.length (iv_blocks iv) inp)

/-- Modelled from the spec: `ak_bckey_decrypt_cbc` is defined outside these
sources. -/
def ak_bckey_decrypt_cbc (dec : List Nat → Option (List Nat)) (inp iv : List Nat) :
    Except Failure (List Nat) :=
  if iv.length = 0 ∨ iv.length % 16 ≠ 0 then .error .InvalidIVLength
  else if inp.length % 16 ≠ 0 then .error .InvalidDataLength
  else finish (run_mode (cbc_decrypt_step dec) inp.length (iv_blocks iv) inp)

/-- Modelled from the spec: `ak_bckey_encrypt_cfb` is defined outside these
sources.  The IV is one block or several; the data may have any length. -/
def ak_bckey_encrypt_cfb (enc : List Nat → Option (List Nat)) (inp iv : List Nat) :
    Except Failure (List Nat) :=
  if iv.length = 0 ∨ iv.length % 16 ≠ 0 then .error .InvalidIVLength
  else finish (run_mode (cfb_encrypt_step enc) inp.length (iv_blocks iv) inp)

/-- Modelled from the spec: `ak_bckey_decrypt_cfb` is defined outside these
sources. -/
def ak_bckey_decrypt_cfb (enc : List Nat → Option (List Nat)) (inp iv : List Nat) :
    Except Failure (List Nat) :=
  if iv.length = 0 ∨ iv.length % 16 ≠ 0 then .error .InvalidIVLength
  else finish (run_mode (cfb_decrypt_step enc) inp.length (iv_blocks iv) inp)

/-- Modelled from the spec: `ak_bckey_ofb` is defined outside these sources.
The same transform encrypts and decrypts. -/
def ak_bckey_ofb (enc : List Nat → Option (List Nat)) (inp iv : List Nat) :
    Except Failure (List Nat) :=
  if iv.length = 0 ∨ iv.length % 16 ≠ 0 then .error .InvalidIVLength
  else finish (run_mode (ofb_step enc) inp.length (iv_blocks iv) inp)

/-- Modelled from the spec: `ak_bckey_ctr` is defined outside these sources.
The IV has half the size of a block; the counter block is the IV, in the most
significant half, joined to a zero counter.  The same transform encrypts and
decrypts. -/
def ak_bckey_ctr (enc : List Nat → Option (List Nat)) (inp iv : List Nat) :
    Except Failure (List Nat) :=
  if iv.length ≠ 8 then .error .InvalidIVLength
  else finish (run_mode (ctr_step enc) inp.length (le_nat (List.replicate 8 0 ++ iv)) inp)

/-- The self-test context after the key schedule: the round keys are the words
that `expand_keys` yields. -/
def scheduled_skey : Skey :=
  { test_state.skey with data := (expand_keys (List.replicate 44 0)).map Prod.fst }

/-! ## Data of the example `examples/test-rc6.c` -/

/-- The array `associated` of `test-rc6.c` (lines 11-14). -/
def example_associated : List Nat :=
  [0x01, 0x01, 0x01, 0x01, 0x01, 0x01, 0x01, 0x01, 0x02, 0x02, 0x02, 0x02, 0x02, 0x02, 0x02, 0x02,
   0x03, 0x03, 0x03, 0x03, 0x03, 0x03, 0x03, 0x03, 0x04, 0x04, 0x04, 0x04, 0x04, 0x04, 0x04, 0x04,
   0x05, 0x05, 0x05, 0x05, 0x05, 0x05, 0x05, 0x05, 0xea]

/-- The array `plain` of `test-rc6.c` (lines 16-21). -/
def example_plain : List Nat :=
  [0x88, 0x99, 0xaa, 0xbb, 0xcc, 0xdd, 0xee, 0xff, 0x00, 0x77, 0x66, 0x55, 0x44, 0x33, 0x22, 0x11,
   0x0a, 0xff, 0xee, 0xcc, 0xbb, 0xaa, 0x99, 0x88, 0x77, 0x66, 0x55, 0x44, 0x33, 0x22, 0x11, 0x00,
   0x00, 0x0a, 0xff, 0xee, 0xcc, 0xbb, 0xaa, 0x99, 0x88, 0x77, 0x66, 0x55, 0x44, 0x33, 0x22, 0x11,
   0x11, 0x00, 0x0a, 0xff, 0xee, 0xcc, 0xbb, 0xaa, 0x99, 0x88, 0x77, 0x66, 0x55, 0x44, 0x33, 0x22,
   0xcc, 0xbb, 0xaa]

/-- The array `iv128` of `test-rc6.c` (lines 23-24). -/
def example_iv128 : List Nat :=
  [0x88, 0x99, 0xaa, 0xbb, 0xcc, 0xdd, 0xee, 0xff, 0x00, 0x77, 0x66, 0x55, 0x44, 0x33, 0x22, 0x11]

/-- The array `icodeOne` of `test-rc6.c` (lines 26-27). -/
def example_icodeOne : List Nat :=
  [0xd5, 0x95, 0xff, 0x38, 0x20, 0x7e, 0xe3, 0x9c, 0x27, 0x67, 0x61, 0xfd, 0xa0, 0xd1, 0xd4, 0xf4]

/-! ## Field arithmetic, CMAC and MGM -/

/-- Doubling in the Galois field of `2^128` elements, on a block read as a
number: left shift by one bit, and exclusive or with the reduction constant
`0x87` if the top bit was set before the shift. -/
def gf128_double_nat (n : Nat) : Nat :=
  if n / 2 ^ 127 % 2 = 1 then (2 * n) % 2 ^ 128 ^^^ 0x87 else (2 * n) % 2 ^ 128

/-- Multiplication in the Galois field by shift and add over the given number
of bits of `y`: `r` collects the multiples of `x`. -/
def gf128_mul_loop : Nat → Nat → Nat → Nat → Nat
  | 0, _, _, r => r
  | n + 1, x, y, r =>
    gf128_mul_loop n (gf128_double_nat x) (y / 2) (if y % 2 = 1 then r ^^^ x else r)

/-- Multiplication of two blocks as elements of the Galois field. -/
def gf128_mul (a b : List Nat) : List Nat :=
  le_bytes 16 (gf128_mul_loop 128 (le_nat a % 2 ^ 128) (le_nat b) 0)

/-- The `size` most significant bytes of a 16-byte block, those at its end. -/
def truncate_tag (tag : List Nat) (size : Nat) : List Nat := tag.drop (16 - size)

/-- The nonce with its top bit, the most significant bit of its last byte,
forced to `bit`. -/
def force_top_bit (nonce : List Nat) (bit : Nat) : List Nat :=
  nonce.take 15 ++ [nonce.getD 15 0 % 128 + 128 * bit]

/-- The padding of a partial block that enters the authentication of MGM: zero
bytes in the least significant positions. -/
def mgm_pad (b : List Nat) : List Nat := List.replicate (16 - b.length) 0 ++ b

/-- One step of the authentication of MGM on the pair of the authentication
counter and the accumulator: the counter is encrypted, the result multiplied by
the block in the field and added to the accumulator, and the counter advances
in its most significant half. -/
def mgm_auth_step (enc : List Nat → Option (List Nat)) (zs : Nat × List Nat)
    (blk : List Nat) : Option (Nat × List Nat) :=
  (enc (le_bytes 16 zs.1)).map fun h =>
    ((zs.1 + 2 ^ 64) % 2 ^ 128, xor_bytes zs.2 (gf128_mul h blk))

/-- The authentication steps over a list of blocks, each padded to a full
block. -/
def mgm_auth_blocks (enc : List Nat → Option (List Nat)) :
    List (List Nat) → Nat × List Nat → Option (Nat × List Nat)
  | [], zs => some zs
  | b :: bs, zs => (mgm_auth_step enc zs (mgm_pad b)).bind (mgm_auth_blocks enc bs)

/-- The full tag of MGM over the associated data `ad` and the ciphertext `ct`:
the authentication counter is derived from the nonce with its top bit forced to
1, the blocks of `ad`, the blocks of `ct` and the block of the two bit lengths
are folded in this order, and the accumulator is encrypted. -/
def mgm_tag (enc : List Nat → Option (List Nat)) (ad ct nonce : List Nat) :
    Option (List Nat) :=
  (enc (force_top_bit nonce 1)).bind fun z0 =>
    (mgm_auth_blocks enc
      (chunks ad.length ad ++ chunks ct.length ct
        ++ [le_bytes 8 (8 * ct.length) ++ le_bytes 8 (8 * ad.length)])
      (le_nat z0, List.replicate 16 0)).bind fun zs => enc zs.2

/-- The encryption transform of MGM: counter mode from the encryption counter,
which is derived from the nonce with its top bit forced to 0. -/
def mgm_crypt (enc : List Nat → Option (List Nat)) (data nonce : List Nat) :
    Option (List Nat) :=
  (enc (force_top_bit nonce 0)).bind fun y0 =>
    run_mode (ctr_step enc) data.length (le_nat y0) data

/-- Modelled from the spec: `ak_bckey_encrypt_mgm` is defined outside these
sources.  `encE` and `encA` are the single-block transforms of the encryption
key and of the authentication key; the result is the ciphertext and the tag of
`size` bytes.  Both counters are the encryption of the nonce with its top bit
forced, which is the derivation under which the tag `icodeOne` of the example
is obtained. -/
def ak_bckey_encrypt_mgm (encE encA : List Nat → Option (List Nat))
    (ad pt nonce : List Nat) (size : Nat) : Except Failure (List Nat × List Nat) :=
  if nonce.length ≠ 16 then .error .InvalidIVLength
  else if size = 0 ∨ size > 16 then .error .InvalidTagLength
  else if 2 ^ 64 ≤ 8 * ad.length then .error .AssociatedDataTooLarge
  else if 2 ^ 64 ≤ 8 * pt.length then .error .PlaintextTooLarge
  else match mgm_crypt encE pt nonce with
    | none => .error .InvalidArgument
    | some ct =>
      match mgm_tag encA ad ct nonce with
      | none => .error .InvalidArgument
      | some tag => .ok (ct, truncate_tag tag size)

/-- Modelled from the spec: `ak_bckey_decrypt_mgm` is defined outside these
sources.  The tag is recomputed over the associated data and the received
ciphertext and compared with the supplied tag before anything is decrypted. -/
def ak_bckey_decrypt_mgm (encE encA : List Nat → Option (List Nat))
    (ad ct nonce tag : List Nat) : Except Failure (List Nat) :=
  if nonce.length ≠ 16 then .error .InvalidIVLength
  else if tag.length = 0 ∨ tag.length > 16 then .error .InvalidTagLength
  else if 2 ^ 64 ≤ 8 * ad.length then .error .AssociatedDataTooLarge
  else if 2 ^ 64 ≤ 8 * ct.length then .error .PlaintextTooLarge
  else match mgm_tag encA ad ct nonce with
    | none => .error .InvalidArgument
    | some t =>
      if truncate_tag t tag.length ≠ tag then .error .AuthenticationFailed
      else match mgm_crypt encE ct nonce with
        | none => .error .InvalidArgument
        | some pt => .ok pt

/-! ## Rotation to the right, as the specification words it -/

/-- Rotation of the 32-bit word `v` to the right by `n mod 32` positions. -/
def rotr32 (v n : Nat) : Nat :=
  (v % 2 ^ 32) / 2 ^ (n % 32) + (v * 2 ^ (32 - n % 32)) % 2 ^ 32

/-! ## Shift counts of the rotation helpers -/

/-- The counts of the two shifts that a rotation helper evaluates for the
argument `bit_count` (lines 24 and 28): `bit_count` itself and the `ak_uint32`
value of `32 - bit_count`. -/
def shift_counts (bit_count : Nat) : List Nat := [bit_count, sub32 32 bit_count]

/-- The values of `bit_count` in the two calls of `ak_rc6_left_bit_cicl_shift`
made by one pass through the body of the mixing loop of `ak_rc6_schedule_keys`
(lines 95-96): the constant `3` and `A + B`. -/
def mix_step_bit_counts (s : MixState) : Option (List Nat) := do
  let ri ← s.result[s.i]?
  let a := ak_rc6_left_bit_cicl_shift (add32 (add32 ri s.A) s.B) 3
  pure [3, add32 a s.B]

/-- The values of `bit_count` in the four calls of `ak_rc6_left_bit_cicl_shift`
made by one pass through the body of the loop of `ak_rc6_encrypt`
(lines 119-122): `ak_rc6_lg_w` twice, then `u` and `t`. -/
def encrypt_round_bit_counts (r : Regs) : List Nat :=
  let t := ak_rc6_left_bit_cicl_shift (mul32 r.B (add32 (mul32 2 r.B) 1)) ak_rc6_lg_w
  let u := ak_rc6_left_bit_cicl_shift (mul32 r.D (add32 (mul32 2 r.D) 1)) ak_rc6_lg_w
  [ak_rc6_lg_w, ak_rc6_lg_w, u, t]

/-- The values of `bit_count` in the four calls of the rotation helpers made by
one pass through the body of the loop of `ak_rc6_decrypt` (lines 148-151):
`ak_rc6_lg_w` twice, then `t` and `u`. -/
def decrypt_round_bit_counts (r : Regs) : List Nat :=
  let r1 : Regs := ⟨r.D, r.A, r.B, r.C⟩
  let u := ak_rc6_left_bit_cicl_shift (mul32 r1.D (add32 (mul32 2 r1.D) 1)) ak_rc6_lg_w
  let t := ak_rc6_left_bit_cicl_shift (mul32 r1.B (add32 (mul32 2 r1.B) 1)) ak_rc6_lg_w
  [ak_rc6_lg_w, ak_rc6_lg_w, t, u]

/-! ## Indices into the round-key array -/

/-- The indices at which `ak_rc6_decrypt` reads `keys[...]`, in the order of the reads:
`keys[2 * ak_rc6_rounds + 3]` and `keys[2 * ak_rc6_rounds + 2]` (lines 144-145),
`keys[2 * i + 1]` and `keys[2 * i]` for each round (lines 150-151), `keys[1]` and
`keys[0]` (lines 153-154). -/
def decrypt_key_reads : List Nat :=
  [2 * ak_rc6_rounds + 3, 2 * ak_rc6_rounds + 2]
    ++ decrypt_indices.flatMap (fun i => [2 * i + 1, 2 * i]) ++ [1, 0]

/-- The indices at which the initialisation of `ak_rc6_schedule_keys` accesses
`result[...]`: `result[0]` (line 89), then `result[i - 1]` and `result[i]` for each
`i` of the loop (line 91). -/
def init_key_accesses : List Nat :=
  [0] ++ (List.range' 1 (2 * ak_rc6_rounds + 4 - 1)).flatMap (fun i => [i - 1, i])

/-! ## Further environments -/

/-- An environment in which the integrity check passes and `ak_aligned_malloc`
returns `NULL`. -/
def no_memory_env : Env := { test_env with malloc_ok := false }

/-! ## The magic constants and the quadratic map -/

/-- The integer `n` is the odd integer nearest to the real number `x`: `n` is odd and
every other odd integer lies farther from `x` than `n` does. -/
def nearest_odd (x : ℝ) (n : ℤ) : Prop :=
  n % 2 = 1 ∧ ∀ m : ℤ, m % 2 = 1 → m ≠ n → |x - n| < |x - m|

/-- The expression `B * (2 * B + 1)` of lines 119 and 149 (`D * (2 * D + 1)` in lines 120
and 148) on `ak_uint32`. -/
def quadratic (x : Nat) : Nat := mul32 x (add32 (mul32 2 x) 1)

/-! ## Lemmas: 32-bit arithmetic and rotations -/

set_option maxRecDepth 1000000

theorem add32_lt (a b : Nat) : add32 a b < 2 ^ 32 := Nat.mod_lt _ (by decide)

theorem sub32_lt (a b : Nat) : sub32 a b < 2 ^ 32 := Nat.mod_lt _ (by decide)

theorem sub32_add32 (a k : Nat) (ha : a < 2 ^ 32) : sub32 (add32 a k) k = a := by
  simp only [add32, sub32] at *
  omega

theorem add32_sub32 (a k : Nat) (ha : a < 2 ^ 32) : add32 (sub32 a k) k = a := by
  simp only [add32, sub32] at *
  omega

theorem testBit_eq_false_of_word {v : Nat} (hv : v < 2 ^ 32) {i : Nat} (hi : 32 ≤ i) :
    v.testBit i = false :=
  Nat.testBit_lt_two_pow (Nat.lt_of_lt_of_le hv (Nat.pow_le_pow_right (by decide) hi))

theorem testBit_left_shift (v n i : Nat) (hv : v < 2 ^ 32) :
    (ak_rc6_left_bit_cicl_shift v n).testBit i
      = (decide (i < 32) && v.testBit ((i + (32 - n % 32)) % 32)) := by
  have hk : n % 32 < 32 := Nat.mod_lt _ (by decide)
  have hs : sub32 32 n % 32 = (32 - n % 32) % 32 := by
    simp only [sub32]; omega
  simp only [ak_rc6_left_bit_cicl_shift, shl32, shr32, Nat.testBit_or, Nat.testBit_mod_two_pow,
    Nat.testBit_shiftLeft, Nat.testBit_shiftRight, hs, Nat.mod_eq_of_lt hv]
  by_cases h32 : i < 32
  · by_cases hki : n % 32 ≤ i
    · by_cases hk0 : n % 32 = 0
      · have e1 : (i + (32 - n % 32)) % 32 = i := by omega
        have e2 : (32 - n % 32) % 32 + i = i := by omega
        have e3 : i - n % 32 = i := by omega
        simp [h32, hki, e1, e2, e3]
      · have e1 : (i + (32 - n % 32)) % 32 = i - n % 32 := by omega
        have e2 : 32 ≤ (32 - n % 32) % 32 + i := by omega
        simp [h32, hki, e1, testBit_eq_false_of_word hv e2]
    · have e1 : (i + (32 - n % 32)) % 32 = (32 - n % 32) % 32 + i := by omega
      simp [h32, hki, e1]
  · have e2 : 32 ≤ (32 - n % 32) % 32 + i := by omega
    simp [h32, testBit_eq_false_of_word hv e2]

theorem testBit_right_shift (v n i : Nat) (hv : v < 2 ^ 32) :
    (ak_rc6_right_bit_cicl_shift v n).testBit i
      = (decide (i < 32) && v.testBit ((i + n % 32) % 32)) := by
  have hk : n % 32 < 32 := Nat.mod_lt _ (by decide)
  have hs : sub32 32 n % 32 = (32 - n % 32) % 32 := by
    simp only [sub32]; omega
  simp only [ak_rc6_right_bit_cicl_shift, shl32, shr32, Nat.testBit_or, Nat.testBit_mod_two_pow,
    Nat.testBit_shiftLeft, Nat.testBit_shiftRight, hs, Nat.mod_eq_of_lt hv]
  by_cases h32 : i < 32
  · by_cases hki : (32 - n % 32) % 32 ≤ i
    · by_cases hk0 : n % 32 = 0
      · have e1 : (i + n % 32) % 32 = i := by omega
        have e2 : n % 32 + i = i := by omega
        have e3 : i - (32 - n % 32) % 32 = i := by omega
        simp [h32, hki, e1, e2, e3]
      · have e1 : (i + n % 32) % 32 = i - (32 - n % 32) % 32 := by omega
        have e2 : 32 ≤ n % 32 + i := by omega
        simp [h32, hki, e1, testBit_eq_false_of_word hv e2]
    · have e1 : (i + n % 32) % 32 = n % 32 + i := by omega
      simp [h32, hki, e1]
  · have e2 : 32 ≤ n % 32 + i := by omega
    simp [h32, testBit_eq_false_of_word hv e2]

theorem left_shift_lt (v n : Nat) (hv : v < 2 ^ 32) : ak_rc6_left_bit_cicl_shift v n < 2 ^ 32 := by
  apply Nat.lt_pow_two_of_testBit
  intro i hi
  have : ¬ i < 32 := by omega
  simp [testBit_left_shift v n i hv, this]

theorem right_shift_lt (v n : Nat) (hv : v < 2 ^ 32) : ak_rc6_right_bit_cicl_shift v n < 2 ^ 32 := by
  apply Nat.lt_pow_two_of_testBit
  intro i hi
  have : ¬ i < 32 := by omega
  simp [testBit_right_shift v n i hv, this]

theorem right_left_shift (v n : Nat) (hv : v < 2 ^ 32) :
    ak_rc6_right_bit_cicl_shift (ak_rc6_left_bit_cicl_shift v n) n = v := by
  apply Nat.eq_of_testBit_eq
  intro i
  rw [testBit_right_shift _ n i (left_shift_lt v n hv), testBit_left_shift v n _ hv]
  by_cases h32 : i < 32
  · have hk : n % 32 < 32 := Nat.mod_lt _ (by decide)
    have e1 : ((i + n % 32) % 32 + (32 - n % 32)) % 32 = i := by omega
    have e2 : (i + n % 32) % 32 < 32 := Nat.mod_lt _ (by decide)
    rw [decide_eq_true e2, decide_eq_true h32, e1]
    rfl
  · simp [h32, testBit_eq_false_of_word hv (Nat.le_of_not_lt h32)]

theorem left_right_shift (v n : Nat) (hv : v < 2 ^ 32) :
    ak_rc6_left_bit_cicl_shift (ak_rc6_right_bit_cicl_shift v n) n = v := by
  apply Nat.eq_of_testBit_eq
  intro i
  rw [testBit_left_shift _ n i (right_shift_lt v n hv), testBit_right_shift v n _ hv]
  by_cases h32 : i < 32
  · have hk : n % 32 < 32 := Nat.mod_lt _ (by decide)
    have e1 : ((i + (32 - n % 32)) % 32 + n % 32) % 32 = i := by omega
    have e2 : (i + (32 - n % 32)) % 32 < 32 := Nat.mod_lt _ (by decide)
    rw [decide_eq_true e2, decide_eq_true h32, e1]
    rfl
  · simp [h32, testBit_eq_false_of_word hv (Nat.le_of_not_lt h32)]

/-! ## Lemmas: rounds and loops -/

theorem xor_word_lt {a b : Nat} (ha : a < 2 ^ 32) (hb : b < 2 ^ 32) : a ^^^ b < 2 ^ 32 :=
  Nat.xor_lt_two_pow ha hb

theorem xor_cancel_right (a b : Nat) : (a ^^^ b) ^^^ b = a := by
  rw [Nat.xor_assoc, Nat.xor_self, Nat.xor_zero]

theorem mul32_lt (a b : Nat) : mul32 a b < 2 ^ 32 := Nat.mod_lt _ (by decide)

theorem getElem?_of_lt (keys : List Nat) (i : Nat) (h : i < keys.length) :
    ∃ k, keys[i]? = some k := ⟨keys[i], List.getElem?_eq_getElem h⟩

theorem decrypt_encrypt_round (keys : List Nat) (i : Nat) (r : Regs) (hi : 2 * i + 1 < keys.length)
    (hr : r.WF) :
    ∃ r1, encrypt_round keys i r = some r1 ∧ r1.WF ∧ decrypt_round keys i r1 = some r := by
  obtain ⟨k0, hk0⟩ := getElem?_of_lt keys (2 * i) (by omega)
  obtain ⟨k1, hk1⟩ := getElem?_of_lt keys (2 * i + 1) hi
  obtain ⟨hA, hB, hC, hD⟩ := hr
  have ht := left_shift_lt (mul32 r.B (add32 (mul32 2 r.B) 1)) ak_rc6_lg_w (mul32_lt _ _)
  have hu := left_shift_lt (mul32 r.D (add32 (mul32 2 r.D) 1)) ak_rc6_lg_w (mul32_lt _ _)
  refine ⟨_, by simp [encrypt_round, hk0, hk1]; rfl, ⟨hB, add32_lt _ _, hD, add32_lt _ _⟩, ?_⟩
  simp only [decrypt_round, hk0, hk1, Option.bind_eq_bind, Option.some_bind, Option.pure_def]
  rw [sub32_add32 _ _ (left_shift_lt _ _ (xor_word_lt hA ht)),
    sub32_add32 _ _ (left_shift_lt _ _ (xor_word_lt hC hu)),
    right_left_shift _ _ (xor_word_lt hA ht), right_left_shift _ _ (xor_word_lt hC hu),
    xor_cancel_right, xor_cancel_right]

theorem encrypt_decrypt_round (keys : List Nat) (i : Nat) (r : Regs) (hi : 2 * i + 1 < keys.length)
    (hr : r.WF) :
    ∃ r1, decrypt_round keys i r = some r1 ∧ r1.WF ∧ encrypt_round keys i r1 = some r := by
  obtain ⟨k0, hk0⟩ := getElem?_of_lt keys (2 * i) (by omega)
  obtain ⟨k1, hk1⟩ := getElem?_of_lt keys (2 * i + 1) hi
  obtain ⟨hA, hB, hC, hD⟩ := hr
  have ht := left_shift_lt (mul32 r.A (add32 (mul32 2 r.A) 1)) ak_rc6_lg_w (mul32_lt _ _)
  have hu := left_shift_lt (mul32 r.C (add32 (mul32 2 r.C) 1)) ak_rc6_lg_w (mul32_lt _ _)
  refine ⟨_, by simp [decrypt_round, hk0, hk1]; rfl,
    ⟨xor_word_lt (right_shift_lt _ _ (sub32_lt _ _)) ht, hA,
     xor_word_lt (right_shift_lt _ _ (sub32_lt _ _)) hu, hC⟩, ?_⟩
  simp only [encrypt_round, hk0, hk1, Option.bind_eq_bind, Option.some_bind, Option.pure_def]
  rw [xor_cancel_right, xor_cancel_right, left_right_shift _ _ (sub32_lt _ _),
    left_right_shift _ _ (sub32_lt _ _), add32_sub32 _ _ hD, add32_sub32 _ _ hB]

theorem runLoop_append (body : Nat → Regs → Option Regs) (xs ys : List Nat) (r : Regs) :
    runLoop body (xs ++ ys) r = (runLoop body xs r).bind (runLoop body ys) := by
  induction xs generalizing r with
  | nil => simp [runLoop]
  | cons x xs ih =>
    simp only [List.cons_append, runLoop]
    cases body x r with
    | none => simp
    | some r1 => simp [ih]

/-- Two loop bodies that undo each other index by index give loops that undo each other when
the indices are visited in opposite orders. -/
theorem runLoop_inverse (f g : Nat → Regs → Option Regs) (P : Nat → Prop)
    (hfg : ∀ i r, P i → r.WF → ∃ r1, f i r = some r1 ∧ r1.WF ∧ g i r1 = some r)
    (is : List Nat) (his : ∀ i ∈ is, P i) (r : Regs) (hr : r.WF) :
    ∃ r1, runLoop f is r = some r1 ∧ r1.WF ∧ runLoop g is.reverse r1 = some r := by
  induction is generalizing r with
  | nil => exact ⟨r, rfl, hr, rfl⟩
  | cons i is ih =>
    obtain ⟨r1, h1, hw1, hg1⟩ := hfg i r (his i (List.mem_cons_self _ _)) hr
    obtain ⟨r2, h2, hw2, hg2⟩ := ih (fun j hj => his j (List.mem_cons_of_mem _ hj)) r1 hw1
    refine ⟨r2, by simp [runLoop, h1, h2], hw2, ?_⟩
    rw [List.reverse_cons, runLoop_append, hg2]
    simp [runLoop, hg1]

/-! ## Lemmas: bytes and blocks -/

theorem load_store (b : List Nat) (hb : b.length = 16) (hbytes : ∀ x ∈ b, x < 256) :
    ∃ r, loadRegs b = some r ∧ r.WF ∧ storeRegs r = b := by
  match b, hb with
  | [b0, b1, b2, b3, b4, b5, b6, b7, b8, b9, b10, b11, b12, b13, b14, b15], _ =>
    simp only [List.mem_cons, List.mem_singleton, forall_eq_or_imp, forall_eq,
      List.not_mem_nil, false_implies, implies_true, and_true] at hbytes
    refine ⟨⟨b0 + 256 * b1 + 65536 * b2 + 16777216 * b3,
      b4 + 256 * b5 + 65536 * b6 + 16777216 * b7,
      b8 + 256 * b9 + 65536 * b10 + 16777216 * b11,
      b12 + 256 * b13 + 65536 * b14 + 16777216 * b15⟩, rfl, ?_, ?_⟩
    · simp only [Regs.WF]
      omega
    · simp only [storeRegs, store32, List.cons_append, List.nil_append, List.cons.injEq, and_true]
      omega

theorem store_load (r : Regs) (hr : r.WF) : loadRegs (storeRegs r) = some r := by
  obtain ⟨A, B, C, D⟩ := r
  simp only [Regs.WF] at hr
  have e : ∀ w, w < 2 ^ 32 →
      w % 256 + 256 * (w / 256 % 256) + 65536 * (w / 65536 % 256)
        + 16777216 * (w / 16777216 % 256) = w := by
    intro w hw; omega
  show some (Regs.mk
    (A % 256 + 256 * (A / 256 % 256) + 65536 * (A / 65536 % 256) + 16777216 * (A / 16777216 % 256))
    (B % 256 + 256 * (B / 256 % 256) + 65536 * (B / 65536 % 256) + 16777216 * (B / 16777216 % 256))
    (C % 256 + 256 * (C / 256 % 256) + 65536 * (C / 65536 % 256) + 16777216 * (C / 16777216 % 256))
    (D % 256 + 256 * (D / 256 % 256) + 65536 * (D / 65536 % 256) + 16777216 * (D / 16777216 % 256)))
    = _
  rw [e A hr.1, e B hr.2.1, e C hr.2.2.1, e D hr.2.2.2]

theorem getElem?_of_length_44 (keys : List Nat) (h : keys.length = 44) (i : Nat) (hi : i < 44) :
    ∃ k, keys[i]? = some k := getElem?_of_lt keys i (by omega)

theorem encrypt_indices_valid (keys : List Nat) (h : keys.length = 44) :
    ∀ i ∈ encrypt_indices, 2 * i + 1 < keys.length := by
  intro i hi
  simp only [encrypt_indices, ak_rc6_rounds, List.mem_range'_1] at hi
  omega

theorem decrypt_indices_valid (keys : List Nat) (h : keys.length = 44) :
    ∀ i ∈ decrypt_indices, 2 * i + 1 < keys.length := by
  intro i hi
  simp only [decrypt_indices, ak_rc6_rounds, List.mem_reverse, List.mem_range'_1] at hi
  omega

theorem decrypt_encrypt_block (keys b : List Nat) (hlen : keys.length = 44)
    (hb : b.length = 16) (hbytes : ∀ x ∈ b, x < 256) :
    ∃ c, encrypt_block keys b = some c ∧ decrypt_block keys c = some b := by
  obtain ⟨r, hload, hr, hstore⟩ := load_store b hb hbytes
  obtain ⟨k0, hk0⟩ := getElem?_of_length_44 keys hlen 0 (by decide)
  obtain ⟨k1, hk1⟩ := getElem?_of_length_44 keys hlen 1 (by decide)
  obtain ⟨k42, hk42⟩ := getElem?_of_length_44 keys hlen (2 * ak_rc6_rounds + 2) (by decide)
  obtain ⟨k43, hk43⟩ := getElem?_of_length_44 keys hlen (2 * ak_rc6_rounds + 3) (by decide)
  obtain ⟨hA, hB, hC, hD⟩ := hr
  obtain ⟨r1, hloop, hr1, hback⟩ := runLoop_inverse (encrypt_round keys) (decrypt_round keys)
    (fun i => 2 * i + 1 < keys.length) (fun i r hi hr => decrypt_encrypt_round keys i r hi hr)
    encrypt_indices (encrypt_indices_valid keys hlen) ⟨r.A, add32 r.B k0, r.C, add32 r.D k1⟩
    ⟨hA, add32_lt _ _, hC, add32_lt _ _⟩
  obtain ⟨hA1, hB1, hC1, hD1⟩ := hr1
  refine ⟨storeRegs ⟨add32 r1.A k42, r1.B, add32 r1.C k43, r1.D⟩, ?_, ?_⟩
  · simp [encrypt_block, hload, hk0, hk1, hloop, hk42, hk43]
  · have hl := store_load ⟨add32 r1.A k42, r1.B, add32 r1.C k43, r1.D⟩
      ⟨add32_lt _ _, hB1, add32_lt _ _, hD1⟩
    have hback1 : runLoop (decrypt_round keys) decrypt_indices r1
        = some ⟨r.A, add32 r.B k0, r.C, add32 r.D k1⟩ := hback
    simp only [decrypt_block, hl, hk0, hk1, hk42, hk43, Option.bind_eq_bind, Option.some_bind,
      Option.pure_def, sub32_add32 _ _ hA1, sub32_add32 _ _ hC1, hback1,
      sub32_add32 _ _ hB, sub32_add32 _ _ hD]
    exact congrArg some hstore

theorem encrypt_decrypt_block (keys c : List Nat) (hlen : keys.length = 44)
    (hc : c.length = 16) (hbytes : ∀ x ∈ c, x < 256) :
    ∃ b, decrypt_block keys c = some b ∧ encrypt_block keys b = some c := by
  obtain ⟨r, hload, hr, hstore⟩ := load_store c hc hbytes
  obtain ⟨k0, hk0⟩ := getElem?_of_length_44 keys hlen 0 (by decide)
  obtain ⟨k1, hk1⟩ := getElem?_of_length_44 keys hlen 1 (by decide)
  obtain ⟨k42, hk42⟩ := getElem?_of_length_44 keys hlen (2 * ak_rc6_rounds + 2) (by decide)
  obtain ⟨k43, hk43⟩ := getElem?_of_length_44 keys hlen (2 * ak_rc6_rounds + 3) (by decide)
  obtain ⟨hA, hB, hC, hD⟩ := hr
  obtain ⟨r1, hloop, hr1, hback⟩ := runLoop_inverse (decrypt_round keys) (encrypt_round keys)
    (fun i => 2 * i + 1 < keys.length) (fun i r hi hr => encrypt_decrypt_round keys i r hi hr)
    decrypt_indices (decrypt_indices_valid keys hlen) ⟨sub32 r.A k42, r.B, sub32 r.C k43, r.D⟩
    ⟨sub32_lt _ _, hB, sub32_lt _ _, hD⟩
  obtain ⟨hA1, hB1, hC1, hD1⟩ := hr1
  refine ⟨storeRegs ⟨r1.A, sub32 r1.B k0, r1.C, sub32 r1.D k1⟩, ?_, ?_⟩
  · simp [decrypt_block, hload, hk0, hk1, hloop, hk42, hk43]
  · have hl := store_load ⟨r1.A, sub32 r1.B k0, r1.C, sub32 r1.D k1⟩
      ⟨hA1, sub32_lt _ _, hC1, sub32_lt _ _⟩
    have hback1 : runLoop (encrypt_round keys) encrypt_indices r1
        = some ⟨sub32 r.A k42, r.B, sub32 r.C k43, r.D⟩ := by
      have e : decrypt_indices.reverse = encrypt_indices := by
        simp [decrypt_indices, encrypt_indices]
      rw [← e]; exact hback
    simp only [encrypt_block, hl, hk0, hk1, hk42, hk43, Option.bind_eq_bind, Option.some_bind,
      Option.pure_def, add32_sub32 _ _ hB1, add32_sub32 _ _ hD1, hback1,
      add32_sub32 _ _ hA, add32_sub32 _ _ hC]
    exact congrArg some hstore

/-! ## Lemmas: the initialisation loop of the key schedule -/

theorem init_loop_spec (k : Nat) : ∀ (m : Nat) (buf : List Nat), 1 ≤ m → m + k ≤ buf.length →
    (∀ i, i < m → buf[i]? = some (init_word i)) →
    ∃ r, init_loop (List.range' m k) buf = some r ∧ r.length = buf.length ∧
      ∀ i, i < m + k → r[i]? = some (init_word i) := by
  induction k with
  | zero =>
    intro m buf _ _ h
    exact ⟨buf, rfl, rfl, fun i hi => h i (by omega)⟩
  | succ k ih =>
    intro m buf hm hlen h
    have hprev : buf[m - 1]? = some (init_word (m - 1)) := h (m - 1) (by omega)
    have hstep : init_step buf m = some (buf.set m (init_word m)) := by
      have e : add32 (init_word (m - 1)) ak_rc6_q32 = init_word m := by
        simp only [add32, init_word, ak_rc6_p32, ak_rc6_q32]
        omega
      have hlt : m < buf.length := by omega
      simp [init_step, hprev, write, hlt, e]
    obtain ⟨r, hr, hrl, hri⟩ := ih (m + 1) (buf.set m (init_word m)) (by omega)
      (by rw [List.length_set]; omega)
      (by
        intro i hi
        rw [List.getElem?_set]
        by_cases e : m = i
        · subst e
          have hlt : m < buf.length := by omega
          simp [hlt]
        · simp only [e, if_false]
          exact h i (by omega))
    refine ⟨r, ?_, by rw [hrl, List.length_set], fun i hi => hri i (by omega)⟩
    simp [List.range', init_loop, hstep, hr]

theorem init_phase (buf : List Nat) (h : buf.length = 44) :
    (write buf 0 ak_rc6_p32).bind (init_loop (List.range' 1 (2 * ak_rc6_rounds + 4 - 1)))
      = some ((List.range 44).map init_word) := by
  have hpos : 0 < buf.length := by omega
  have hw : write buf 0 ak_rc6_p32 = some (buf.set 0 ak_rc6_p32) := by
    unfold write
    rw [if_pos hpos]
  have h0 : ∀ i, i < 1 → (buf.set 0 ak_rc6_p32)[i]? = some (init_word i) := by
    intro i hi
    have e : i = 0 := by omega
    subst e
    rw [List.getElem?_set]
    simp only [hpos, if_true]
    rfl
  obtain ⟨r, hr, hrl, hri⟩ := init_loop_spec 43 1 (buf.set 0 ak_rc6_p32) (le_refl 1)
    (by rw [List.length_set]; omega) h0
  have e : List.range' 1 (2 * ak_rc6_rounds + 4 - 1) = List.range' 1 43 := by
    simp only [ak_rc6_rounds]
  rw [hw, Option.some_bind, e, hr]
  congr 1
  apply List.ext_getElem?
  intro i
  by_cases hi : i < 44
  · rw [hri i (by omega), List.getElem?_map, List.getElem?_range hi]
    rfl
  · rw [List.length_set] at hrl
    have h1 : r.length ≤ i := by omega
    have h2 : ((List.range 44).map init_word).length ≤ i := by
      rw [List.length_map, List.length_range]; omega
    rw [List.getElem?_eq_none h1, List.getElem?_eq_none h2]

theorem expand_keys_eq (buf : List Nat) (h : buf.length = 44) :
    expand_keys buf
      = (mix_loop (3 * (2 * ak_rc6_rounds + 4))
          ⟨(List.range 44).map init_word, List.replicate 8 0, 0, 0, 0, 0⟩).bind
          fun s => some (s.result, s.L) := by
  have h1 := init_phase buf h
  unfold expand_keys
  simp only [Option.bind_eq_bind] at *
  rw [← Option.bind_assoc, h1, Option.some_bind]
  rfl

theorem expand_keys_of_length (buf : List Nat) (h : buf.length = 44) :
    expand_keys buf = expand_keys (List.replicate 44 0) := by
  rw [expand_keys_eq buf h, expand_keys_eq (List.replicate 44 0) (List.length_replicate _ _)]

/-! ## Running the key schedule -/

theorem expand_keys_zero_isSome : (expand_keys (List.replicate 44 0)).isSome = true := by
  decide

theorem aligned_malloc_length (env : Env) (fresh : List Nat)
    (h : ak_aligned_malloc env sizeof_expanded_keys = some fresh) : fresh.length = 44 := by
  unfold ak_aligned_malloc at h
  by_cases hm : env.malloc_ok = true
  · rw [if_pos hm] at h
    cases h
    rw [List.length_map, List.length_range]
    rfl
  · rw [if_neg hm] at h
    cases h

theorem aligned_malloc_ok (env : Env) (hm : env.malloc_ok = true) :
    ∃ fresh, ak_aligned_malloc env sizeof_expanded_keys = some fresh := by
  unfold ak_aligned_malloc
  rw [if_pos hm]
  exact ⟨_, rfl⟩

theorem delete_keys_no_data (env : Env) (st : State) (h : st.skey.data = none) :
    ak_rc6_delete_keys env .valid st = (.ak_error_ok, st) := by
  simp only [ak_rc6_delete_keys, h]

theorem delete_keys_wipe_ok (env : Env) (st : State) (data : List Nat)
    (h : st.skey.data = some data)
    (hw : (env.ak_ptr_wipe data sizeof_expanded_keys st.skey.generator).1 = .ak_error_ok) :
    ak_rc6_delete_keys env .valid st = (.ak_error_ok, release (wipe_data env data st).2) := by
  simp only [ak_rc6_delete_keys, h, wipe_data, hw, ne_eq, not_true_eq_false, if_false]

theorem delete_keys_wipe_error (env : Env) (st : State) (data : List Nat)
    (h : st.skey.data = some data)
    (hw : (env.ak_ptr_wipe data sizeof_expanded_keys st.skey.generator).1 ≠ .ak_error_ok) :
    ak_rc6_delete_keys env .valid st
      = ((env.ak_ptr_wipe data sizeof_expanded_keys st.skey.generator).1,
          release (zero_fill (ak_error_message
            (env.ak_ptr_wipe data sizeof_expanded_keys st.skey.generator).1
            "ak_rc6_delete_keys" "incorrect wiping an internal data" (wipe_data env data st).2).2)) := by
  simp only [ak_rc6_delete_keys, h, wipe_data, hw, ne_eq, not_false_eq_true, if_true]

theorem delete_keys_key (env : Env) (st : State) :
    (ak_rc6_delete_keys env .valid st).2.skey.key = st.skey.key ∧
    (ak_rc6_delete_keys env .valid st).2.skey.data = none := by
  cases hd : st.skey.data with
  | none => rw [delete_keys_no_data env st hd]; exact ⟨rfl, hd⟩
  | some data =>
    by_cases hw : (env.ak_ptr_wipe data sizeof_expanded_keys st.skey.generator).1 = .ak_error_ok
    · rw [delete_keys_wipe_ok env st data hd hw]; exact ⟨rfl, rfl⟩
    · rw [delete_keys_wipe_error env st data hd hw]; exact ⟨rfl, rfl⟩

/-- With a key size of 32, a passing integrity check and a successful allocation, the key
schedule succeeds and installs the words that the expansion yields on any 44-word array. -/
theorem schedule_keys_ok (env : Env) (st : State) (hsz : st.skey.key_size = 32)
    (hic : env.check_icode st.skey = true) (hm : env.malloc_ok = true) :
    ∃ st1 rl, ak_rc6_schedule_keys env .valid st = some (.ak_error_ok, st1) ∧
      expand_keys (List.replicate 44 0) = some rl ∧ st1.skey.data = some rl.1 ∧
      st1.skey.key = st.skey.key := by
  obtain ⟨fresh, hfresh⟩ := aligned_malloc_ok env hm
  have hlen := aligned_malloc_length env fresh hfresh
  obtain ⟨rl, hrl⟩ := Option.isSome_iff_exists.mp expand_keys_zero_isSome
  have hexp : expand_keys fresh = some rl := by rw [expand_keys_of_length fresh hlen, hrl]
  have hkey : (if st.skey.data ≠ none then (ak_rc6_delete_keys env .valid st).2 else st).skey.key
      = st.skey.key := by
    by_cases hd : st.skey.data = none
    · simp [hd]
    · simp only [ne_eq, hd, not_false_eq_true, if_true]
      exact (delete_keys_key env st).1
  refine ⟨⟨{ (if st.skey.data ≠ none then (ak_rc6_delete_keys env .valid st).2 else st).skey with
      data := some rl.1
      generator := (env.ak_ptr_wipe rl.2 (8 * 4)
        (if st.skey.data ≠ none then (ak_rc6_delete_keys env .valid st).2
          else st).skey.generator).2.2 },
    (if st.skey.data ≠ none then (ak_rc6_delete_keys env .valid st).2 else st).trace ++
      [Event.malloc sizeof_expanded_keys true,
       Event.wipe rl.2 (8 * 4) (env.ak_ptr_wipe rl.2 (8 * 4)
        (if st.skey.data ≠ none then (ak_rc6_delete_keys env .valid st).2
          else st).skey.generator).2.1]⟩, rl, ?_, hrl, rfl, hkey⟩
  unfold ak_rc6_schedule_keys
  simp only [hsz, hic, ne_eq, not_true_eq_false, if_false, hfresh, hexp, Option.some_bind]

/-! ## Known-answer evaluations -/


theorem encrypt_eq_of_data (skey : Skey) (keys : List Nat) (h : skey.data = some keys) :
    ak_rc6_encrypt skey = encrypt_block keys := by
  funext inp
  unfold ak_rc6_encrypt
  rw [h, Option.some_bind]

theorem decrypt_eq_of_data (skey : Skey) (keys : List Nat) (h : skey.data = some keys) :
    ak_rc6_decrypt skey = decrypt_block keys := by
  funext inp
  unfold ak_rc6_decrypt
  rw [h, Option.some_bind]

theorem kat_first_block :
    (expand_keys (List.replicate 44 0)).bind (fun rl => encrypt_block rl.1
      [0x88, 0x99, 0xaa, 0xbb, 0xcc, 0xdd, 0xee, 0xff, 0x00, 0x77, 0x66, 0x55, 0x44, 0x33, 0x22, 0x11])
      = some [0x21, 0x9b, 0x58, 0x7d, 0xfb, 0xc5, 0xb4, 0xc4, 0xb2, 0x43, 0xf3, 0x06, 0x19, 0x44,
          0x28, 0x0e] := by
  decide

theorem kat_ecb_encrypt :
    (expand_keys (List.replicate 44 0)).bind
      (fun rl => each_block (encrypt_block rl.1) test_in 4) = some test_outecb := by
  decide

theorem kat_ecb_decrypt :
    (expand_keys (List.replicate 44 0)).bind
      (fun rl => each_block (decrypt_block rl.1) test_outecb 4) = some test_in := by
  decide

theorem kat_first_block_decrypt :
    (expand_keys (List.replicate 44 0)).bind (fun rl => decrypt_block rl.1
      [0x21, 0x9b, 0x58, 0x7d, 0xfb, 0xc5, 0xb4, 0xc4, 0xb2, 0x43, 0xf3, 0x06, 0x19, 0x44,
          0x28, 0x0e])
      = some [0x88, 0x99, 0xaa, 0xbb, 0xcc, 0xdd, 0xee, 0xff, 0x00, 0x77, 0x66, 0x55, 0x44, 0x33,
          0x22, 0x11] := by
  decide

theorem storeRegs_block (r : Regs) : (storeRegs r).length = 16 ∧ ∀ x ∈ storeRegs r, x < 256 := by
  refine ⟨rfl, ?_⟩
  intro x hx
  simp only [storeRegs, store32, List.cons_append, List.nil_append, List.mem_cons,
    List.mem_singleton, List.not_mem_nil, or_false] at hx
  omega

theorem decrypt_block_output (keys c b : List Nat) (h : decrypt_block keys c = some b) :
    b.length = 16 ∧ ∀ x ∈ b, x < 256 := by
  unfold decrypt_block at h
  simp only [Option.bind_eq_bind, Option.bind_eq_some, Option.pure_def, Option.some.injEq] at h
  obtain ⟨_, _, _, _, _, _, _, _, _, _, _, _, h⟩ := h
  rw [← h]
  exact storeRegs_block _

/-! ## The claims -/

/-- C1: for every array of 44 round-key words held by the context and every 16-byte block `b`,
`ak_rc6_encrypt` returns a block `c`, and `ak_rc6_decrypt` on `c` under the same round keys
returns `b`. -/
theorem decrypt_after_encrypt (skey : Skey) (keys b : List Nat)
    (hdata : skey.data = some keys) (hlen : keys.length = 44)
    (hb : b.length = 16) (hbytes : ∀ x ∈ b, x < 256) :
    ∃ c, ak_rc6_encrypt skey b = some c ∧ ak_rc6_decrypt skey c = some b := by
  rw [encrypt_eq_of_data skey keys hdata, decrypt_eq_of_data skey keys hdata]
  exact decrypt_encrypt_block keys b hlen hb hbytes

/-- Witness of C1 on the first block of the self-test plaintext. -/
theorem decrypt_after_encrypt_witness :
    ∃ c, ak_rc6_encrypt keyed_state.skey (block_at test_in 0) = some c ∧
      ak_rc6_decrypt keyed_state.skey c = some (block_at test_in 0) :=
  decrypt_after_encrypt keyed_state.skey ((List.range 44).map init_word) (block_at test_in 0)
    rfl (by decide) (by decide) (by decide)

/-- C2: on a context that holds the self-test key (size 32, integrity check passing, allocation
succeeding), `ak_rc6_schedule_keys` succeeds and `ak_rc6_encrypt` under the resulting round keys
maps the block `88 99 aa bb cc dd ee ff 00 77 66 55 44 33 22 11` to
`21 9b 58 7d fb c5 b4 c4 b2 43 f3 06 19 44 28 0e`. -/
theorem schedule_then_encrypt_first_block (env : Env) (st : State)
    (hkey : st.skey.key = test_key) (hsz : st.skey.key_size = 32)
    (hic : env.check_icode st.skey = true) (hm : env.malloc_ok = true) :
    ∃ st1, ak_rc6_schedule_keys env .valid st = some (.ak_error_ok, st1) ∧
      st1.skey.key = test_key ∧
      ak_rc6_encrypt st1.skey
        [0x88, 0x99, 0xaa, 0xbb, 0xcc, 0xdd, 0xee, 0xff, 0x00, 0x77, 0x66, 0x55, 0x44, 0x33, 0x22,
          0x11]
        = some [0x21, 0x9b, 0x58, 0x7d, 0xfb, 0xc5, 0xb4, 0xc4, 0xb2, 0x43, 0xf3, 0x06, 0x19, 0x44,
          0x28, 0x0e] := by
  obtain ⟨st1, rl, hrun, hrl, hdata, hk⟩ := schedule_keys_ok env st hsz hic hm
  refine ⟨st1, hrun, hk.trans hkey, ?_⟩
  have h := kat_first_block
  rw [hrl, Option.some_bind] at h
  rw [encrypt_eq_of_data st1.skey rl.1 hdata]
  exact h

/-- Witness of C2 on the self-test context. -/
theorem schedule_then_encrypt_first_block_witness :
    ∃ st1, ak_rc6_schedule_keys test_env .valid test_state = some (.ak_error_ok, st1) ∧
      st1.skey.key = test_key ∧
      ak_rc6_encrypt st1.skey
        [0x88, 0x99, 0xaa, 0xbb, 0xcc, 0xdd, 0xee, 0xff, 0x00, 0x77, 0x66, 0x55, 0x44, 0x33, 0x22,
          0x11]
        = some [0x21, 0x9b, 0x58, 0x7d, 0xfb, 0xc5, 0xb4, 0xc4, 0xb2, 0x43, 0xf3, 0x06, 0x19, 0x44,
          0x28, 0x0e] :=
  schedule_then_encrypt_first_block test_env test_state rfl rfl rfl rfl

/-- C3: with the self-test key scheduled by `ak_rc6_schedule_keys`, encrypting each of the four
16-byte blocks of `in` on its own with `ak_rc6_encrypt` and laying the outputs one after the
other yields exactly the 64 bytes of `outecb`. -/
theorem ecb_encrypt_test_vector (env : Env) (st : State)
    (hkey : st.skey.key = test_key) (hsz : st.skey.key_size = 32)
    (hic : env.check_icode st.skey = true) (hm : env.malloc_ok = true) :
    ∃ st1, ak_rc6_schedule_keys env .valid st = some (.ak_error_ok, st1) ∧
      st1.skey.key = test_key ∧
      each_block (ak_rc6_encrypt st1.skey) test_in 4 = some test_outecb := by
  obtain ⟨st1, rl, hrun, hrl, hdata, hk⟩ := schedule_keys_ok env st hsz hic hm
  refine ⟨st1, hrun, hk.trans hkey, ?_⟩
  have h := kat_ecb_encrypt
  rw [hrl, Option.some_bind] at h
  rw [encrypt_eq_of_data st1.skey rl.1 hdata]
  exact h

/-- Witness of C3 on the self-test context. -/
theorem ecb_encrypt_test_vector_witness :
    ∃ st1, ak_rc6_schedule_keys test_env .valid test_state = some (.ak_error_ok, st1) ∧
      st1.skey.key = test_key ∧
      each_block (ak_rc6_encrypt st1.skey) test_in 4 = some test_outecb :=
  ecb_encrypt_test_vector test_env test_state rfl rfl rfl rfl

/-- C4: with the self-test key scheduled by `ak_rc6_schedule_keys`, `ak_rc6_decrypt` applied to
each of the four 16-byte blocks of `outecb` returns the corresponding block of `in`; in
particular `21 9b 58 7d fb c5 b4 c4 b2 43 f3 06 19 44 28 0e` decrypts to
`88 99 aa bb cc dd ee ff 00 77 66 55 44 33 22 11`. -/
theorem ecb_decrypt_test_vector (env : Env) (st : State)
    (hkey : st.skey.key = test_key) (hsz : st.skey.key_size = 32)
    (hic : env.check_icode st.skey = true) (hm : env.malloc_ok = true) :
    ∃ st1, ak_rc6_schedule_keys env .valid st = some (.ak_error_ok, st1) ∧
      st1.skey.key = test_key ∧
      each_block (ak_rc6_decrypt st1.skey) test_outecb 4 = some test_in ∧
      ak_rc6_decrypt st1.skey
        [0x21, 0x9b, 0x58, 0x7d, 0xfb, 0xc5, 0xb4, 0xc4, 0xb2, 0x43, 0xf3, 0x06, 0x19, 0x44, 0x28,
          0x0e]
        = some [0x88, 0x99, 0xaa, 0xbb, 0xcc, 0xdd, 0xee, 0xff, 0x00, 0x77, 0x66, 0x55, 0x44, 0x33,
          0x22, 0x11] := by
  obtain ⟨st1, rl, hrun, hrl, hdata, hk⟩ := schedule_keys_ok env st hsz hic hm
  refine ⟨st1, hrun, hk.trans hkey, ?_, ?_⟩
  · have h := kat_ecb_decrypt
    rw [hrl, Option.some_bind] at h
    rw [decrypt_eq_of_data st1.skey rl.1 hdata]
    exact h
  · have h := kat_first_block_decrypt
    rw [hrl, Option.some_bind] at h
    rw [decrypt_eq_of_data st1.skey rl.1 hdata]
    exact h

/-- Witness of C4 on the self-test context. -/
theorem ecb_decrypt_test_vector_witness :
    ∃ st1, ak_rc6_schedule_keys test_env .valid test_state = some (.ak_error_ok, st1) ∧
      each_block (ak_rc6_decrypt st1.skey) test_outecb 4 = some test_in :=
  (ecb_decrypt_test_vector test_env test_state rfl rfl rfl rfl).imp
    fun _ h => ⟨h.1, h.2.2.1⟩

/-- C5: for every array of 44 round-key words held by the context and every 16-byte block `c`,
`ak_rc6_decrypt` returns a 16-byte block `b` on which `ak_rc6_encrypt` under the same round keys
returns `c`; and `ak_rc6_encrypt` sends distinct blocks to distinct blocks.  Encryption is thus
onto and one-to-one on 16-byte blocks, with decryption as its inverse. -/
theorem encrypt_after_decrypt (skey : Skey) (keys c : List Nat)
    (hdata : skey.data = some keys) (hlen : keys.length = 44)
    (hc : c.length = 16) (hbytes : ∀ x ∈ c, x < 256) :
    (∃ b, ak_rc6_decrypt skey c = some b ∧ b.length = 16 ∧ (∀ x ∈ b, x < 256) ∧
      ak_rc6_encrypt skey b = some c) ∧
    (∀ b1 b2 : List Nat, b1.length = 16 → (∀ x ∈ b1, x < 256) → b2.length = 16 →
      (∀ x ∈ b2, x < 256) → ak_rc6_encrypt skey b1 = ak_rc6_encrypt skey b2 → b1 = b2) := by
  rw [encrypt_eq_of_data skey keys hdata, decrypt_eq_of_data skey keys hdata]
  constructor
  · obtain ⟨b, hdec, henc⟩ := encrypt_decrypt_block keys c hlen hc hbytes
    obtain ⟨hbl, hbb⟩ := decrypt_block_output keys c b hdec
    exact ⟨b, hdec, hbl, hbb, henc⟩
  · intro b1 b2 h1 hb1 h2 hb2 heq
    obtain ⟨c1, he1, hd1⟩ := decrypt_encrypt_block keys b1 hlen h1 hb1
    obtain ⟨c2, he2, hd2⟩ := decrypt_encrypt_block keys b2 hlen h2 hb2
    rw [he1, he2, Option.some.injEq] at heq
    rw [heq, hd2, Option.some.injEq] at hd1
    exact hd1.symm

/-- Witness of C5 on the first block of the self-test ciphertext. -/
theorem encrypt_after_decrypt_witness :
    ∃ b, ak_rc6_decrypt keyed_state.skey (block_at test_outecb 0) = some b ∧ b.length = 16 ∧
      (∀ x ∈ b, x < 256) ∧ ak_rc6_encrypt keyed_state.skey b = some (block_at test_outecb 0) :=
  (encrypt_after_decrypt keyed_state.skey ((List.range 44).map init_word) (block_at test_outecb 0)
    rfl (by decide) (by decide) (by decide)).1

/-- C6 (divergence of the code): on the context holding the self-test key, the round words that
`ak_rc6_schedule_keys` installs are the RC6 key expansion of the all-zero 32-byte key, and differ
from the RC6 key expansion of the key the context holds. -/
theorem schedule_keys_expands_zero_key :
    (ak_rc6_schedule_keys test_env .valid test_state).map (fun r => (r.1, r.2.skey.data))
        = some (.ak_error_ok, some (rc6_key_expansion (List.replicate 32 0))) ∧
      rc6_key_expansion (List.replicate 32 0) ≠ rc6_key_expansion test_key := by
  decide

/-- C7 (divergence of the code): on a context whose key size is 16, `ak_rc6_schedule_keys`
reports and returns `ak_error_null_pointer`, which is not the wrong-key-length code; the
context, round-key storage included, is left as it was. -/
theorem schedule_keys_short_key :
    ak_rc6_schedule_keys test_env .valid short_key_state
        = some (.ak_error_null_pointer,
            ⟨short_key_state.skey, [Event.message .ak_error_null_pointer "ak_rc6_schedule_keys"
              "unsupported length of secret key"]⟩) ∧
      ErrorCode.ak_error_null_pointer ≠ ErrorCode.ak_error_wrong_key_length := by
  decide

/-- C8 (counterexample): it is not the case that every context whose integrity check does not
return true makes `ak_rc6_schedule_keys` fail with the wrong-integrity-code error: on a context
of key size 16 the key-size test comes first and another code is returned. -/
theorem schedule_keys_icode_counterexample :
    ¬ (∀ (env : Env) (st : State), env.check_icode st.skey ≠ true →
        ∃ st1, ak_rc6_schedule_keys env .valid st = some (.ak_error_wrong_key_icode, st1) ∧
          st1.skey = st.skey) := by
  intro h
  obtain ⟨st1, h1, _⟩ := h bad_icode_env short_key_state (by decide)
  have h2 : ak_rc6_schedule_keys bad_icode_env .valid short_key_state
      = some (.ak_error_null_pointer,
          ⟨short_key_state.skey, [Event.message .ak_error_null_pointer "ak_rc6_schedule_keys"
            "unsupported length of secret key"]⟩) := by decide
  rw [h2] at h1
  cases h1

/-- C8 (amended): if the context has key size 32 and its integrity check does not return true,
`ak_rc6_schedule_keys` fails with the wrong-integrity-code error and leaves the context unchanged:
the only effect is the error report, so round-key storage is neither wiped, released, allocated
nor written. -/
theorem schedule_keys_wrong_icode (env : Env) (st : State) (hsz : st.skey.key_size = 32)
    (hic : env.check_icode st.skey ≠ true) :
    ak_rc6_schedule_keys env .valid st
      = some (.ak_error_wrong_key_icode,
          ⟨st.skey, st.trace ++ [Event.message .ak_error_wrong_key_icode "ak_rc6_schedule_keys"
            "using key with wrong integrity code"]⟩) := by
  unfold ak_rc6_schedule_keys
  simp only [hsz, ne_eq, not_true_eq_false, if_false, hic, not_false_eq_true, if_true]
  rfl

/-- Witness of the amended C8: a context of key size 32 that owns round keys and fails the
integrity check. -/
theorem schedule_keys_wrong_icode_witness :
    ak_rc6_schedule_keys bad_icode_env .valid keyed_state
      = some (.ak_error_wrong_key_icode,
          ⟨keyed_state.skey, [Event.message .ak_error_wrong_key_icode "ak_rc6_schedule_keys"
            "using key with wrong integrity code"]⟩) :=
  schedule_keys_wrong_icode bad_icode_env keyed_state rfl (by decide)

/-- C9: for every context, a second call of `ak_rc6_delete_keys` returns `ak_error_ok` and
leaves the state reached by the first call exactly as it is (no event: nothing is wiped or
released), and in that state the round-key storage is absent. -/
theorem delete_keys_idempotent (env : Env) (st : State) :
    ak_rc6_delete_keys env .valid (ak_rc6_delete_keys env .valid st).2
        = (.ak_error_ok, (ak_rc6_delete_keys env .valid st).2) ∧
      (ak_rc6_delete_keys env .valid st).2.skey.data = none := by
  have h := (delete_keys_key env st).2
  exact ⟨delete_keys_no_data env _ h, h⟩

/-! ## Lemmas: the zero-fill -/

theorem memset_zero_length (w : List Nat) : (memset_zero w 176).length = w.length := by
  unfold memset_zero
  rw [List.length_append, List.length_replicate, List.length_drop]
  have e : 176 / 4 = 44 := rfl
  rw [e]
  omega

theorem memset_zero_low (w : List Nat) (i : Nat) (hi : i < 44) (hw : i < w.length) :
    (memset_zero w 176)[i]? = some 0 := by
  unfold memset_zero
  have e : 176 / 4 = 44 := rfl
  rw [e]
  have hlt : i < (List.replicate (min 44 w.length) 0).length := by
    rw [List.length_replicate]
    omega
  rw [List.getElem?_append_left hlt, List.getElem?_eq_getElem hlt, List.getElem_replicate]

theorem memset_zero_high (w : List Nat) (i : Nat) (hi : 44 ≤ i) :
    (memset_zero w 176)[i]? = w[i]? := by
  unfold memset_zero
  have e : 176 / 4 = 44 := rfl
  rw [e]
  have hge : (List.replicate (min 44 w.length) 0).length ≤ i := by
    rw [List.length_replicate]
    omega
  rw [List.getElem?_append_right hge, List.length_replicate, List.getElem?_drop]
  by_cases hw : 44 ≤ w.length
  · have e2 : 44 + (i - min 44 w.length) = i := by omega
    rw [e2]
  · have h1 : w.length ≤ 44 + (i - min 44 w.length) := by omega
    have h2 : w.length ≤ i := by omega
    rw [List.getElem?_eq_none h1, List.getElem?_eq_none h2]

theorem memset_zero_full (w : List Nat) (hw : w.length = 44) :
    memset_zero w 176 = List.replicate 44 0 := by
  unfold memset_zero
  have e : 176 / 4 = 44 := rfl
  rw [e, hw, List.drop_of_length_le (by omega), List.append_nil]
  rfl

theorem memset_zero_take (w : List Nat) : ∀ x ∈ (memset_zero w 176).take 44, x = 0 := by
  intro x hx
  unfold memset_zero at hx
  have e : 176 / 4 = 44 := rfl
  rw [e, List.take_append_eq_append_take, List.take_replicate, List.length_replicate] at hx
  rcases List.mem_append.mp hx with hx | hx
  · exact (List.mem_replicate.mp hx).2
  · have hlen : (List.take (44 - min 44 w.length) (List.drop 44 w)).length = 0 := by
      rw [List.length_take, List.length_drop]
      omega
    rw [List.length_eq_zero.mp hlen] at hx
    cases hx

/-- C10: when `ak_rc6_delete_keys` runs on a context that owns round-key storage `data`, the wipe
routine is applied to that storage with size 176 = 44 * 4; the code it reports is the code
returned; the block is released after that and the pointer cleared.  If the wipe routine
succeeds, the released block holds what the wipe routine left; if it reports an error, the error
is reported, the block is zero-filled over 176 bytes and only then released: the zero-fill keeps
the size of the block, sets each of its first 44 words to zero and leaves any word beyond them,
so that a block of 44 words is released as 44 zero words. -/
theorem delete_keys_overwrites_then_releases (env : Env) (st : State) (data : List Nat)
    (h : st.skey.data = some data) :
    sizeof_expanded_keys = 176 ∧
    (ak_rc6_delete_keys env .valid st).1
      = (env.ak_ptr_wipe data 176 st.skey.generator).1 ∧
    (ak_rc6_delete_keys env .valid st).2.skey.data = none ∧
    ((env.ak_ptr_wipe data 176 st.skey.generator).1 = .ak_error_ok →
      (ak_rc6_delete_keys env .valid st).2.trace
        = st.trace ++ [Event.wipe data 176 (env.ak_ptr_wipe data 176 st.skey.generator).2.1,
            Event.free (env.ak_ptr_wipe data 176 st.skey.generator).2.1]) ∧
    ((env.ak_ptr_wipe data 176 st.skey.generator).1 ≠ .ak_error_ok →
      (ak_rc6_delete_keys env .valid st).2.trace
        = st.trace ++ [Event.wipe data 176 (env.ak_ptr_wipe data 176 st.skey.generator).2.1,
            Event.message (env.ak_ptr_wipe data 176 st.skey.generator).1 "ak_rc6_delete_keys"
              "incorrect wiping an internal data",
            Event.memset (env.ak_ptr_wipe data 176 st.skey.generator).2.1 176
              (memset_zero (env.ak_ptr_wipe data 176 st.skey.generator).2.1 176),
            Event.free (memset_zero (env.ak_ptr_wipe data 176 st.skey.generator).2.1 176)] ∧
      (∀ x ∈ (memset_zero (env.ak_ptr_wipe data 176 st.skey.generator).2.1 176).take 44,
        x = 0) ∧
      (memset_zero (env.ak_ptr_wipe data 176 st.skey.generator).2.1 176).length
        = (env.ak_ptr_wipe data 176 st.skey.generator).2.1.length ∧
      (∀ i, i < 44 → i < (env.ak_ptr_wipe data 176 st.skey.generator).2.1.length →
        (memset_zero (env.ak_ptr_wipe data 176 st.skey.generator).2.1 176)[i]? = some 0) ∧
      (∀ i, 44 ≤ i →
        (memset_zero (env.ak_ptr_wipe data 176 st.skey.generator).2.1 176)[i]?
          = (env.ak_ptr_wipe data 176 st.skey.generator).2.1[i]?) ∧
      ((env.ak_ptr_wipe data 176 st.skey.generator).2.1.length = 44 →
        memset_zero (env.ak_ptr_wipe data 176 st.skey.generator).2.1 176
          = List.replicate 44 0)) := by
  have hs : sizeof_expanded_keys = 176 := rfl
  refine ⟨hs, ?_, (delete_keys_key env st).2, ?_, ?_⟩
  · by_cases hw : (env.ak_ptr_wipe data sizeof_expanded_keys st.skey.generator).1 = .ak_error_ok
    · rw [delete_keys_wipe_ok env st data h hw, ← hs, hw]
    · rw [delete_keys_wipe_error env st data h hw, ← hs]
  · intro hw
    rw [← hs] at hw ⊢
    rw [delete_keys_wipe_ok env st data h hw]
    simp [release, wipe_data]
  · intro hw
    refine ⟨?_, memset_zero_take _, memset_zero_length _, memset_zero_low _, memset_zero_high _,
      memset_zero_full _⟩
    rw [← hs] at hw ⊢
    rw [delete_keys_wipe_error env st data h hw]
    simp [release, wipe_data, zero_fill, ak_error_message]

/-- Witness of C10: a context that owns the 44 round words `init_word i`, first in an
environment whose wipe routine reports an error and leaves the words as they are, so that it
is the zero-fill that overwrites them, then in an environment whose wipe routine succeeds. -/
theorem delete_keys_overwrites_then_releases_witness :
    (ak_rc6_delete_keys failing_wipe_env .valid keyed_state).1 = .other 1 ∧
    (ak_rc6_delete_keys failing_wipe_env .valid keyed_state).2.skey.data = none ∧
    (ak_rc6_delete_keys failing_wipe_env .valid keyed_state).2.trace
      = [Event.wipe ((List.range 44).map init_word) 176 ((List.range 44).map init_word),
         Event.message (.other 1) "ak_rc6_delete_keys" "incorrect wiping an internal data",
         Event.memset ((List.range 44).map init_word) 176 (List.replicate 44 0),
         Event.free (List.replicate 44 0)] ∧
    (ak_rc6_delete_keys test_env .valid keyed_state).1 = .ak_error_ok ∧
    (ak_rc6_delete_keys test_env .valid keyed_state).2.trace
      = [Event.wipe ((List.range 44).map init_word) 176
           (((List.range 44).map init_word).map fun x => x ^^^ 0x5a5a5a5a),
         Event.free (((List.range 44).map init_word).map fun x => x ^^^ 0x5a5a5a5a)] :=
  ⟨(delete_keys_overwrites_then_releases failing_wipe_env keyed_state
      ((List.range 44).map init_word) rfl).2.1,
   (delete_keys_overwrites_then_releases failing_wipe_env keyed_state
      ((List.range 44).map init_word) rfl).2.2.1,
   ((((delete_keys_overwrites_then_releases failing_wipe_env keyed_state
      ((List.range 44).map init_word) rfl).2.2.2.2 (by decide)).1).trans
     (congrArg (fun z => keyed_state.trace ++
        [Event.wipe ((List.range 44).map init_word) 176 ((List.range 44).map init_word),
         Event.message (.other 1) "ak_rc6_delete_keys" "incorrect wiping an internal data",
         Event.memset ((List.range 44).map init_word) 176 z, Event.free z])
       (((delete_keys_overwrites_then_releases failing_wipe_env keyed_state
          ((List.range 44).map init_word) rfl).2.2.2.2 (by decide)).2.2.2.2.2
            (by show ((List.range 44).map init_word).length = 44
                rw [List.length_map, List.length_range])))),
   (delete_keys_overwrites_then_releases test_env keyed_state
      ((List.range 44).map init_word) rfl).2.1,
   (delete_keys_overwrites_then_releases test_env keyed_state
      ((List.range 44).map init_word) rfl).2.2.2.1 rfl⟩

/-! ## Further facts on the key schedule -/

theorem expand_keys_zero_length :
    (expand_keys (List.replicate 44 0)).map (fun rl => rl.1.length) = some 44 := by
  decide

/-- A successful run of the key schedule installs the words that the expansion yields on any
44-word array. -/
theorem schedule_keys_ok_data (env : Env) (p : SkeyPtr) (st st1 : State)
    (h : ak_rc6_schedule_keys env p st = some (.ak_error_ok, st1)) :
    ∃ rl, expand_keys (List.replicate 44 0) = some rl ∧ st1.skey.data = some rl.1 := by
  unfold ak_rc6_schedule_keys at h
  cases p with
  | NULL =>
    simp only [ak_error_message, Option.some.injEq, Prod.mk.injEq] at h
    exact absurd h.1 (by decide)
  | valid =>
    simp only at h
    by_cases hsz : st.skey.key_size = 32
    · cases hic : env.check_icode st.skey with
      | true =>
        simp only [hsz, hic, ne_eq, not_true_eq_false, if_false] at h
        cases hm : ak_aligned_malloc env sizeof_expanded_keys with
        | none =>
          simp only [hm, ak_error_message, Option.some.injEq, Prod.mk.injEq] at h
          exact absurd h.1 (by decide)
        | some fresh =>
          have hlen := aligned_malloc_length env fresh hm
          simp only [hm, expand_keys_of_length fresh hlen] at h
          cases hx : expand_keys (List.replicate 44 0) with
          | none => simp only [hx, Option.none_bind] at h; cases h
          | some rl =>
            simp only [hx, Option.some_bind, Option.some.injEq, Prod.mk.injEq, true_and] at h
            exact ⟨rl, rfl, by rw [← h]⟩
      | false =>
        simp only [hsz, hic, ne_eq, not_true_eq_false, if_false, Bool.false_eq_true,
          not_false_eq_true, if_true, ak_error_message, Option.some.injEq, Prod.mk.injEq] at h
        exact absurd h.1 (by decide)
    · simp only [hsz, ne_eq, not_false_eq_true, if_true, ak_error_message, Option.some.injEq,
        Prod.mk.injEq] at h
      exact absurd h.1 (by decide)

/-! ## Lemmas: the mixing loop -/

theorem mix_step_shape (s : MixState) (hi : s.i < s.result.length) (hj : s.j < s.L.length) :
    ∃ s1, mix_step s = some s1 ∧ s1.i = (s.i + 1) % 44 ∧ s1.j = (s.j + 1) % 8 ∧
      s1.result = s.result.set s.i s1.A ∧ s1.L = s.L.set s.j s1.B := by
  obtain ⟨ri, hri⟩ := getElem?_of_lt s.result s.i hi
  obtain ⟨lj, hlj⟩ := getElem?_of_lt s.L s.j hj
  refine ⟨⟨s.result.set s.i (ak_rc6_left_bit_cicl_shift (add32 (add32 ri s.A) s.B) 3),
    s.L.set s.j (ak_rc6_left_bit_cicl_shift
      (add32 (add32 lj (ak_rc6_left_bit_cicl_shift (add32 (add32 ri s.A) s.B) 3)) s.B)
      (add32 (ak_rc6_left_bit_cicl_shift (add32 (add32 ri s.A) s.B) 3) s.B)),
    (s.i + 1) % (2 * ak_rc6_rounds + 4), (s.j + 1) % 8,
    ak_rc6_left_bit_cicl_shift (add32 (add32 ri s.A) s.B) 3,
    ak_rc6_left_bit_cicl_shift
      (add32 (add32 lj (ak_rc6_left_bit_cicl_shift (add32 (add32 ri s.A) s.B) 3)) s.B)
      (add32 (ak_rc6_left_bit_cicl_shift (add32 (add32 ri s.A) s.B) 3) s.B)⟩, ?_, rfl, rfl, rfl, rfl⟩
  unfold mix_step write
  simp only [hri, hlj, hi, hj, if_true, Option.bind_eq_bind, Option.some_bind, Option.pure_def,
    List.length_set]

theorem mix_writes_spec (n : Nat) : ∀ s : MixState, s.result.length = 44 → s.L.length = 8 →
    s.i < 44 → s.j < 8 →
    mix_writes n s = some ((List.range n).map fun k => ((s.i + k) % 44, (s.j + k) % 8)) := by
  induction n with
  | zero => intro s _ _ _ _; rfl
  | succ n ih =>
    intro s hr hl hi hj
    obtain ⟨s1, h1, hi1, hj1, hr1, hl1⟩ := mix_step_shape s (by omega) (by omega)
    have e := ih s1 (by rw [hr1, List.length_set]; exact hr) (by rw [hl1, List.length_set]; exact hl)
      (by rw [hi1]; omega) (by rw [hj1]; omega)
    unfold mix_writes
    rw [h1, Option.some_bind, e, Option.map_some']
    congr 1
    rw [List.range_succ_eq_map, List.map_cons, List.map_map]
    congr 1
    · simp only [Nat.add_zero, Prod.mk.injEq]
      constructor <;> omega
    · apply List.map_congr_left
      intro k _
      simp only [Function.comp, hi1, hj1, Prod.mk.injEq]
      constructor <;> omega

/-- C17: whenever `ak_rc6_schedule_keys` succeeds on two contexts, whatever key bytes they
hold, both end with the same 44 round-key words: the words that the expansion yields from its
all-zero array `L`, in which no key byte takes part. -/
theorem schedule_keys_same_round_keys (env1 env2 : Env) (p1 p2 : SkeyPtr)
    (st1 st2 r1 r2 : State)
    (h1 : ak_rc6_schedule_keys env1 p1 st1 = some (.ak_error_ok, r1))
    (h2 : ak_rc6_schedule_keys env2 p2 st2 = some (.ak_error_ok, r2)) :
    r1.skey.data = r2.skey.data ∧
      ∃ ks, r1.skey.data = some ks ∧ ks.length = 44 ∧
        (expand_keys (List.replicate 44 0)).map Prod.fst = some ks := by
  obtain ⟨rl1, hx1, hd1⟩ := schedule_keys_ok_data env1 p1 st1 r1 h1
  obtain ⟨rl2, hx2, hd2⟩ := schedule_keys_ok_data env2 p2 st2 r2 h2
  have e : rl1 = rl2 := Option.some.inj (hx1.symm.trans hx2)
  have hl := expand_keys_zero_length
  rw [hx1, Option.map_some', Option.some.injEq] at hl
  refine ⟨by rw [hd1, hd2, e], rl1.1, hd1, hl, ?_⟩
  rw [hx1, Option.map_some']

/-- Witness of C17: the self-test context and a context holding its key reversed. -/
theorem schedule_keys_same_round_keys_witness :
    ∃ r1 r2 : State,
      ak_rc6_schedule_keys test_env .valid test_state = some (.ak_error_ok, r1) ∧
      ak_rc6_schedule_keys test_env .valid
        ⟨{ test_state.skey with key := test_key.reverse }, []⟩ = some (.ak_error_ok, r2) ∧
      r1.skey.key ≠ r2.skey.key ∧ r1.skey.data = r2.skey.data := by
  obtain ⟨r1, _, h1, _, _, k1⟩ := schedule_keys_ok test_env test_state rfl rfl rfl
  obtain ⟨r2, _, h2, _, _, k2⟩ := schedule_keys_ok test_env
    ⟨{ test_state.skey with key := test_key.reverse }, []⟩ rfl rfl rfl
  refine ⟨r1, r2, h1, h2, ?_, (schedule_keys_same_round_keys test_env test_env .valid .valid
    test_state ⟨{ test_state.skey with key := test_key.reverse }, []⟩ r1 r2 h1 h2).1⟩
  rw [k1, k2]
  decide

/-- C19: for every round index `i` in 1..20, every array of 44 round-key words and every state
`(A, B, C, D)` of 32-bit words, the body of the loop of `ak_rc6_encrypt` for index `i` yields a
state on which the body of the loop of `ak_rc6_decrypt` for the same index yields `(A, B, C, D)`
again. -/
theorem decrypt_round_inverts_encrypt_round (keys : List Nat) (i : Nat) (r : Regs)
    (hlen : keys.length = 44) (hi : 1 ≤ i ∧ i ≤ ak_rc6_rounds) (hr : r.WF) :
    ∃ r1, encrypt_round keys i r = some r1 ∧ decrypt_round keys i r1 = some r := by
  have h20 : ak_rc6_rounds = 20 := rfl
  obtain ⟨r1, h1, _, h2⟩ := decrypt_encrypt_round keys i r (by omega) hr
  exact ⟨r1, h1, h2⟩

/-- Witness of C19: round 20 on the first block of the self-test plaintext. -/
theorem decrypt_round_inverts_encrypt_round_witness :
    ∃ r1, encrypt_round ((List.range 44).map init_word) 20
        ⟨0xbbaa9988, 0xffeeddcc, 0x55667700, 0x11223344⟩ = some r1 ∧
      decrypt_round ((List.range 44).map init_word) 20 r1
        = some ⟨0xbbaa9988, 0xffeeddcc, 0x55667700, 0x11223344⟩ :=
  decrypt_round_inverts_encrypt_round ((List.range 44).map init_word) 20
    ⟨0xbbaa9988, 0xffeeddcc, 0x55667700, 0x11223344⟩ (by decide) (by decide)
    ⟨by decide, by decide, by decide, by decide⟩

theorem left_shift_eq_rotl32 (v n : Nat) (hv : v < 2 ^ 32) :
    ak_rc6_left_bit_cicl_shift v n = rotl32 v n := by
  have hk : n % 32 < 32 := Nat.mod_lt _ (by decide)
  have hs : sub32 32 n % 32 = (32 - n % 32) % 32 := by
    simp only [sub32]; omega
  unfold ak_rc6_left_bit_cicl_shift shl32 shr32 rotl32
  rw [hs, Nat.mod_eq_of_lt hv, Nat.shiftLeft_eq, Nat.shiftRight_eq_div_pow]
  by_cases hk0 : n % 32 = 0
  · rw [hk0]
    have e1 : (32 - 0) % 32 = 0 := rfl
    rw [e1, Nat.pow_zero, Nat.mul_one, Nat.div_one, Nat.mod_eq_of_lt hv, Nat.or_self,
      Nat.sub_zero, Nat.div_eq_of_lt hv, Nat.add_zero]
  · have e1 : (32 - n % 32) % 32 = 32 - n % 32 := Nat.mod_eq_of_lt (by omega)
    have e2 : (2 : Nat) ^ 32 = 2 ^ (32 - n % 32) * 2 ^ (n % 32) := by
      rw [← Nat.pow_add]; congr 1; omega
    have hlt : v / 2 ^ (32 - n % 32) < 2 ^ (n % 32) := by
      rw [Nat.div_lt_iff_lt_mul (Nat.two_pow_pos _), Nat.mul_comm, ← e2]
      exact hv
    rw [e1]
    have e3 : v * 2 ^ (n % 32) % 2 ^ 32 = 2 ^ (n % 32) * (v % 2 ^ (32 - n % 32)) := by
      rw [e2, Nat.mul_mod_mul_right, Nat.mul_comm]
    rw [e3, Nat.mul_add_lt_is_or hlt]

theorem mul32_quadratic (a : Nat) :
    mul32 a (add32 (mul32 2 a) 1) = (a * (2 * a + 1)) % 2 ^ 32 := by
  unfold mul32 add32
  rw [Nat.mod_add_mod, Nat.mul_mod_mod]

/-! ## Lemmas: the encryption as RC6 -/

theorem getElem?_eq_some_getD (l : List Nat) (i : Nat) (h : i < l.length) :
    l[i]? = some (l.getD i 0) := by
  rw [List.getD_eq_getElem?_getD, List.getElem?_eq_getElem h]
  rfl

theorem rotl32_lt (v n : Nat) (hv : v < 2 ^ 32) : rotl32 v n < 2 ^ 32 := by
  rw [← left_shift_eq_rotl32 v n hv]
  exact left_shift_lt v n hv

theorem encrypt_round_eq_rc6_round (keys : List Nat) (i : Nat) (r : Regs)
    (hi : 2 * i + 1 < keys.length) (hr : r.WF) :
    encrypt_round keys i r = some (rc6_round keys i r) ∧ (rc6_round keys i r).WF := by
  obtain ⟨hA, hB, hC, hD⟩ := hr
  have hk0 := getElem?_eq_some_getD keys (2 * i) (by omega)
  have hk1 := getElem?_eq_some_getD keys (2 * i + 1) hi
  have hq : ∀ x : Nat, x * (2 * x + 1) % 2 ^ 32 < 2 ^ 32 := fun x => Nat.mod_lt _ (by decide)
  have ht := rotl32_lt _ 5 (hq r.B)
  have hu := rotl32_lt _ 5 (hq r.D)
  constructor
  · unfold encrypt_round
    simp only [hk0, hk1, Option.bind_eq_bind, Option.some_bind, Option.pure_def, mul32_quadratic,
      ak_rc6_lg_w]
    rw [left_shift_eq_rotl32 _ 5 (hq r.B), left_shift_eq_rotl32 _ 5 (hq r.D),
      left_shift_eq_rotl32 _ _ (xor_word_lt hA ht), left_shift_eq_rotl32 _ _ (xor_word_lt hC hu)]
    rfl
  · exact ⟨hB, Nat.mod_lt _ (by decide), hD, Nat.mod_lt _ (by decide)⟩

theorem runLoop_encrypt_eq_foldl (keys : List Nat) (is : List Nat) :
    ∀ r : Regs, (∀ i ∈ is, 2 * i + 1 < keys.length) → r.WF →
      runLoop (encrypt_round keys) is r = some (is.foldl (fun x i => rc6_round keys i x) r) ∧
        (is.foldl (fun x i => rc6_round keys i x) r).WF := by
  induction is with
  | nil => intro r _ hr; exact ⟨rfl, hr⟩
  | cons i is ih =>
    intro r his hr
    obtain ⟨h1, hw1⟩ := encrypt_round_eq_rc6_round keys i r (his i (List.mem_cons_self _ _)) hr
    obtain ⟨h2, hw2⟩ := ih (rc6_round keys i r) (fun j hj => his j (List.mem_cons_of_mem _ hj)) hw1
    refine ⟨?_, hw2⟩
    unfold runLoop
    rw [h1, Option.some_bind, h2]
    rfl

theorem encrypt_block_eq_rc6 (keys b : List Nat) (hlen : keys.length = 44)
    (hb : b.length = 16) (hbytes : ∀ x ∈ b, x < 256) :
    ∃ r, loadRegs b = some r ∧ r.WF ∧ storeRegs r = b ∧
      encrypt_block keys b = some (storeRegs (rc6_encrypt keys r)) := by
  obtain ⟨r, hload, hr, hstore⟩ := load_store b hb hbytes
  refine ⟨r, hload, hr, hstore, ?_⟩
  obtain ⟨hA, hB, hC, hD⟩ := hr
  have hk0 := getElem?_eq_some_getD keys 0 (by omega)
  have hk1 := getElem?_eq_some_getD keys 1 (by omega)
  have hk42 := getElem?_eq_some_getD keys (2 * ak_rc6_rounds + 2) (by rw [hlen]; decide)
  have hk43 := getElem?_eq_some_getD keys (2 * ak_rc6_rounds + 3) (by rw [hlen]; decide)
  obtain ⟨hloop, _⟩ := runLoop_encrypt_eq_foldl keys encrypt_indices
    ⟨r.A, add32 r.B (keys.getD 0 0), r.C, add32 r.D (keys.getD 1 0)⟩
    (encrypt_indices_valid keys hlen) ⟨hA, add32_lt _ _, hC, add32_lt _ _⟩
  unfold encrypt_block
  simp only [hload, hk0, hk1, hk42, hk43, hloop, Option.bind_eq_bind, Option.some_bind,
    Option.pure_def]
  rfl

/-- C18: on a context holding 44 round words `S`, `ak_rc6_encrypt` of a 16-byte block is RC6
with 20 rounds on the block's four little-endian words `(A, B, C, D)`: `B += S[0]`,
`D += S[1]`, twenty rounds `t = rotl(B*(2B+1), 5)`, `u = rotl(D*(2D+1), 5)`,
`A = rotl(A xor t, u) + S[2i]`, `C = rotl(C xor u, t) + S[2i+1]`,
`(A, B, C, D) := (B, C, D, A)`, then `A += S[42]`, `C += S[43]`, all modulo `2^32`; the
indices of the round words read are 0, 1, ..., 43, each once. -/
theorem encrypt_is_rc6_twenty_rounds (skey : Skey) (keys b : List Nat)
    (hdata : skey.data = some keys) (hlen : keys.length = 44)
    (hb : b.length = 16) (hbytes : ∀ x ∈ b, x < 256) :
    ak_rc6_rounds = 20 ∧
    (∃ r, loadRegs b = some r ∧
      ak_rc6_encrypt skey b = some (storeRegs (rc6_encrypt keys r))) ∧
    encrypt_key_reads = List.range 44 := by
  obtain ⟨r, hload, _, _, henc⟩ := encrypt_block_eq_rc6 keys b hlen hb hbytes
  refine ⟨rfl, ⟨r, hload, ?_⟩, by decide⟩
  rw [encrypt_eq_of_data skey keys hdata]
  exact henc

/-- Witness of C18 on the first block of the self-test plaintext. -/
theorem encrypt_is_rc6_twenty_rounds_witness :
    ∃ r, loadRegs (block_at test_in 0) = some r ∧
      ak_rc6_encrypt keyed_state.skey (block_at test_in 0)
        = some (storeRegs (rc6_encrypt ((List.range 44).map init_word) r)) :=
  (encrypt_is_rc6_twenty_rounds keyed_state.skey ((List.range 44).map init_word)
    (block_at test_in 0) rfl (by decide) (by decide) (by decide)).2.1

/-! ## The claims C11, C12 -/

/-- C11 (counterexample): a non-null context and a valid option value do not suffice for
`ak_bckey_create_rc6` to succeed with key size 32 and block size 16: when `ak_bckey_create`
fails, its error code is returned. -/
theorem create_rc6_counterexample :
    ¬ (∀ (cenv : CreateEnv) (st : BState),
        0 ≤ cenv.openssl_compability ∧ cenv.openssl_compability ≤ 1 →
        (ak_bckey_create_rc6 cenv .valid st).1 = .ak_error_ok ∧
        (ak_bckey_create_rc6 cenv .valid st).2.bkey.key.key_size = 32 ∧
        (ak_bckey_create_rc6 cenv .valid st).2.bkey.bsize = 16) := by
  intro h
  have h1 := (h failing_create_env blank_bstate (by decide)).1
  revert h1
  decide

/-- C11 (amended): given a non-null context and an option value in {0, 1},
`ak_bckey_create_rc6` asks `ak_bckey_create` for key size 32 and block size 16, and when that
call succeeds and the identifier `rc6` is found it returns `ak_error_ok` with a context of key
size exactly 32 and block size exactly 16. -/
theorem create_rc6_sizes (cenv : CreateEnv) (st : BState) (oid : String)
    (hoc : 0 ≤ cenv.openssl_compability ∧ cenv.openssl_compability ≤ 1)
    (hcreate : cenv.bckey_create_code 32 16 = .ak_error_ok)
    (hoid : cenv.oid_rc6 = some oid) :
    (ak_bckey_create_rc6 cenv .valid st).1 = .ak_error_ok ∧
    (ak_bckey_create_rc6 cenv .valid st).2.bkey.key.key_size = 32 ∧
    (ak_bckey_create_rc6 cenv .valid st).2.bkey.bsize = 16 := by
  have hn : ¬ (cenv.openssl_compability < 0 ∨ cenv.openssl_compability > 1) := by omega
  unfold ak_bckey_create_rc6 ak_bckey_create
  simp only [hn, hcreate, hoid, ne_eq, not_true_eq_false, if_false]
  by_cases h0 : cenv.openssl_compability = 0
  · simp only [h0, not_true_eq_false, if_false, and_self]
  · simp only [h0, not_false_eq_true, if_true, and_self]

/-- Witness of the amended C11: creation with the option value 0. -/
theorem create_rc6_sizes_witness :
    (ak_bckey_create_rc6 (create_env 0) .valid blank_bstate).1 = .ak_error_ok ∧
    (ak_bckey_create_rc6 (create_env 0) .valid blank_bstate).2.bkey.key.key_size = 32 ∧
    (ak_bckey_create_rc6 (create_env 0) .valid blank_bstate).2.bkey.bsize = 16 :=
  create_rc6_sizes (create_env 0) blank_bstate "rc6" (by decide) rfl rfl

theorem create_rc6_handlers (cenv : CreateEnv) (p : BckeyPtr) (st r : BState)
    (h : ak_bckey_create_rc6 cenv p st = (.ak_error_ok, r)) :
    r.bkey.schedule_keys = some ak_rc6_schedule_keys ∧
    r.bkey.delete_keys = some ak_rc6_delete_keys ∧
    r.bkey.encrypt = some ak_rc6_encrypt ∧ r.bkey.decrypt = some ak_rc6_decrypt := by
  unfold ak_bckey_create_rc6 at h
  cases p with
  | NULL =>
    simp only [Prod.mk.injEq] at h
    exact absurd h.1 (by decide)
  | valid =>
    simp only at h
    by_cases hoc : cenv.openssl_compability < 0 ∨ cenv.openssl_compability > 1
    · simp only [hoc, if_true, Prod.mk.injEq] at h
      exact absurd h.1 (by decide)
    · simp only [hoc, if_false] at h
      by_cases hc : (ak_bckey_create cenv st.bkey 32 16).1 = .ak_error_ok
      · simp only [hc, ne_eq, not_true_eq_false, if_false] at h
        cases ho : cenv.oid_rc6 with
        | none =>
          simp only [ho, Prod.mk.injEq] at h
          exact absurd h.1 (by simp)
        | some oid =>
          simp only [ho, Prod.mk.injEq, true_and] at h
          rw [← h]
          by_cases h0 : cenv.openssl_compability = 0
          · simp only [h0, not_true_eq_false, if_false, and_self]
          · simp only [h0, not_false_eq_true, if_true, and_self]
      · simp only [hc, ne_eq, not_false_eq_true, if_true, Prod.mk.injEq, false_and] at h

/-- C12: whatever the environment and the context, `ak_bckey_create_rc6` run with option value
0 and run with option value 1 return the same code and leave the same context; a successful
run, with either value, leaves the handlers `ak_rc6_schedule_keys`, `ak_rc6_delete_keys`,
`ak_rc6_encrypt` and `ak_rc6_decrypt` installed; and the contexts created in the two modes
apply the same block transforms to every key context and block. -/
theorem create_rc6_option_has_no_effect (cenv : CreateEnv) (p : BckeyPtr) (st : BState) :
    ak_bckey_create_rc6 { cenv with openssl_compability := 0 } p st
      = ak_bckey_create_rc6 { cenv with openssl_compability := 1 } p st ∧
    (∀ r, ak_bckey_create_rc6 { cenv with openssl_compability := 0 } p st = (.ak_error_ok, r) →
      r.bkey.schedule_keys = some ak_rc6_schedule_keys ∧
      r.bkey.delete_keys = some ak_rc6_delete_keys ∧
      r.bkey.encrypt = some ak_rc6_encrypt ∧ r.bkey.decrypt = some ak_rc6_decrypt) ∧
    (∀ r, ak_bckey_create_rc6 { cenv with openssl_compability := 1 } p st = (.ak_error_ok, r) →
      r.bkey.schedule_keys = some ak_rc6_schedule_keys ∧
      r.bkey.delete_keys = some ak_rc6_delete_keys ∧
      r.bkey.encrypt = some ak_rc6_encrypt ∧ r.bkey.decrypt = some ak_rc6_decrypt) ∧
    (∀ r0 r1,
      ak_bckey_create_rc6 { cenv with openssl_compability := 0 } p st = (.ak_error_ok, r0) →
      ak_bckey_create_rc6 { cenv with openssl_compability := 1 } p st = (.ak_error_ok, r1) →
      ∀ (skey : Skey) (blk : List Nat),
        (r0.bkey.encrypt.map fun f => f skey blk) = (r1.bkey.encrypt.map fun f => f skey blk) ∧
        (r0.bkey.decrypt.map fun f => f skey blk) = (r1.bkey.decrypt.map fun f => f skey blk)) := by
  refine ⟨?_, fun r h => create_rc6_handlers _ p st r h, fun r h => create_rc6_handlers _ p st r h,
    ?_⟩
  · cases p with
    | NULL => rfl
    | valid =>
      unfold ak_bckey_create_rc6 ak_bckey_create
      have h0 : ¬ ((0 : Int) < 0 ∨ (0 : Int) > 1) := by decide
      have h1 : ¬ ((1 : Int) < 0 ∨ (1 : Int) > 1) := by decide
      simp only [h0, h1, if_false, ne_eq, not_true_eq_false, one_ne_zero, not_false_eq_true,
        if_true]
  · intro r0 r1 h0 h1 skey blk
    obtain ⟨_, _, e0, d0⟩ := create_rc6_handlers _ p st r0 h0
    obtain ⟨_, _, e1, d1⟩ := create_rc6_handlers _ p st r1 h1
    rw [e0, e1, d0, d1]
    exact ⟨rfl, rfl⟩

/-- Witness of C12: in an environment where the creation succeeds, the runs with option values
0 and 1 both return `ak_error_ok` and leave the same context. -/
theorem create_rc6_option_has_no_effect_witness :
    (ak_bckey_create_rc6 (create_env 0) .valid blank_bstate).1 = .ak_error_ok ∧
    (ak_bckey_create_rc6 (create_env 1) .valid blank_bstate).1 = .ak_error_ok ∧
    ak_bckey_create_rc6 (create_env 0) .valid blank_bstate
      = ak_bckey_create_rc6 (create_env 1) .valid blank_bstate :=
  ⟨rfl, rfl, (create_rc6_option_has_no_effect (create_env 0) .valid blank_bstate).1⟩

/-! ## Lemmas: the block transforms are total on 16-byte buffers -/

theorem load32_total (p : List Nat) (i : Nat) (h : 4 * i + 3 < p.length) :
    ∃ w, load32 p i = some w := by
  obtain ⟨b0, h0⟩ := getElem?_of_lt p (4 * i) (by omega)
  obtain ⟨b1, h1⟩ := getElem?_of_lt p (4 * i + 1) (by omega)
  obtain ⟨b2, h2⟩ := getElem?_of_lt p (4 * i + 2) (by omega)
  obtain ⟨b3, h3⟩ := getElem?_of_lt p (4 * i + 3) h
  simp only [load32, h0, h1, h2, h3, Option.bind_eq_bind, Option.some_bind,
    Option.pure_def]
  exact ⟨_, rfl⟩

theorem loadRegs_total (b : List Nat) (hb : b.length = 16) : ∃ r, loadRegs b = some r := by
  obtain ⟨a, ha⟩ := load32_total b 0 (by omega)
  obtain ⟨b', hb'⟩ := load32_total b 1 (by omega)
  obtain ⟨c, hc⟩ := load32_total b 2 (by omega)
  obtain ⟨d, hd⟩ := load32_total b 3 (by omega)
  simp only [loadRegs, ha, hb', hc, hd, Option.bind_eq_bind, Option.some_bind,
    Option.pure_def]
  exact ⟨_, rfl⟩

theorem encrypt_round_total (keys : List Nat) (i : Nat) (r : Regs) (hi : 2 * i + 1 < keys.length) :
    ∃ r1, encrypt_round keys i r = some r1 := by
  obtain ⟨k0, hk0⟩ := getElem?_of_lt keys (2 * i) (by omega)
  obtain ⟨k1, hk1⟩ := getElem?_of_lt keys (2 * i + 1) hi
  simp only [encrypt_round, hk0, hk1, Option.bind_eq_bind, Option.some_bind,
    Option.pure_def]
  exact ⟨_, rfl⟩

theorem decrypt_round_total (keys : List Nat) (i : Nat) (r : Regs) (hi : 2 * i + 1 < keys.length) :
    ∃ r1, decrypt_round keys i r = some r1 := by
  obtain ⟨k0, hk0⟩ := getElem?_of_lt keys (2 * i) (by omega)
  obtain ⟨k1, hk1⟩ := getElem?_of_lt keys (2 * i + 1) hi
  simp only [decrypt_round, hk0, hk1, Option.bind_eq_bind, Option.some_bind,
    Option.pure_def]
  exact ⟨_, rfl⟩

theorem runLoop_total (body : Nat → Regs → Option Regs) (is : List Nat)
    (h : ∀ i ∈ is, ∀ r, ∃ r1, body i r = some r1) : ∀ r, ∃ r1, runLoop body is r = some r1 := by
  induction is with
  | nil => intro r; exact ⟨r, rfl⟩
  | cons i is ih =>
    intro r
    obtain ⟨r1, h1⟩ := h i (List.mem_cons_self _ _) r
    obtain ⟨r2, h2⟩ := ih (fun j hj => h j (List.mem_cons_of_mem _ hj)) r1
    exact ⟨r2, by unfold runLoop; rw [h1, Option.some_bind, h2]⟩

theorem encrypt_block_total (keys b : List Nat) (hlen : keys.length = 44) (hb : b.length = 16) :
    ∃ c, encrypt_block keys b = some c ∧ c.length = 16 ∧ ∀ x ∈ c, x < 256 := by
  obtain ⟨r, hload⟩ := loadRegs_total b hb
  obtain ⟨k0, hk0⟩ := getElem?_of_length_44 keys hlen 0 (by decide)
  obtain ⟨k1, hk1⟩ := getElem?_of_length_44 keys hlen 1 (by decide)
  obtain ⟨k42, hk42⟩ := getElem?_of_length_44 keys hlen (2 * ak_rc6_rounds + 2) (by decide)
  obtain ⟨k43, hk43⟩ := getElem?_of_length_44 keys hlen (2 * ak_rc6_rounds + 3) (by decide)
  obtain ⟨r1, hloop⟩ := runLoop_total (encrypt_round keys) encrypt_indices
    (fun i hi r => encrypt_round_total keys i r (encrypt_indices_valid keys hlen i hi))
    ⟨r.A, add32 r.B k0, r.C, add32 r.D k1⟩
  refine ⟨storeRegs ⟨add32 r1.A k42, r1.B, add32 r1.C k43, r1.D⟩, ?_, (storeRegs_block _).1,
    (storeRegs_block _).2⟩
  simp only [encrypt_block, hload, hk0, hk1, hloop, hk42, hk43, Option.bind_eq_bind,
    Option.some_bind, Option.pure_def]

theorem decrypt_block_total (keys b : List Nat) (hlen : keys.length = 44) (hb : b.length = 16) :
    ∃ c, decrypt_block keys b = some c ∧ c.length = 16 ∧ ∀ x ∈ c, x < 256 := by
  obtain ⟨r, hload⟩ := loadRegs_total b hb
  obtain ⟨k0, hk0⟩ := getElem?_of_length_44 keys hlen 0 (by decide)
  obtain ⟨k1, hk1⟩ := getElem?_of_length_44 keys hlen 1 (by decide)
  obtain ⟨k42, hk42⟩ := getElem?_of_length_44 keys hlen (2 * ak_rc6_rounds + 2) (by decide)
  obtain ⟨k43, hk43⟩ := getElem?_of_length_44 keys hlen (2 * ak_rc6_rounds + 3) (by decide)
  obtain ⟨r1, hloop⟩ := runLoop_total (decrypt_round keys) decrypt_indices
    (fun i hi r => decrypt_round_total keys i r (decrypt_indices_valid keys hlen i hi))
    ⟨sub32 r.A k42, r.B, sub32 r.C k43, r.D⟩
  refine ⟨storeRegs ⟨r1.A, sub32 r1.B k0, r1.C, sub32 r1.D k1⟩, ?_, (storeRegs_block _).1,
    (storeRegs_block _).2⟩
  simp only [decrypt_block, hload, hk0, hk1, hloop, hk42, hk43, Option.bind_eq_bind,
    Option.some_bind, Option.pure_def]

/-! ## The claim C16 -/

/-- C16 (counterexample): it is not the case that a block encryption by `ak_rc6_encrypt` on a
context whose resource counter is zero yields no transformed block, nor that a block
encryption lowers the counter by 1: on a context with round keys and counter zero the block is
transformed. -/
theorem block_call_counterexample :
    ¬ (∀ (st : State) (inp : List Nat),
        (st.skey.resource = 0 → ak_rc6_encrypt_call st inp = none) ∧
        (∀ st1 out, ak_rc6_encrypt_call st inp = some (st1, out) →
          st1.skey.resource + 1 = st.skey.resource)) := by
  intro h
  have h1 := (h exhausted_state (block_at test_in 0)).1 rfl
  revert h1
  decide

/-- C16 (amended): on a context that holds 44 round words, `ak_rc6_encrypt` and
`ak_rc6_decrypt` transform any 16-byte block whatever the value of the resource counter, zero
included, and leave the whole context, the counter with it, as it was. -/
theorem block_calls_leave_resource (st : State) (keys inp : List Nat)
    (hdata : st.skey.data = some keys) (hlen : keys.length = 44) (hb : inp.length = 16) :
    (∃ out, ak_rc6_encrypt_call st inp = some (st, out)) ∧
    (∃ out, ak_rc6_decrypt_call st inp = some (st, out)) := by
  obtain ⟨c, hc, _⟩ := encrypt_block_total keys inp hlen hb
  obtain ⟨d, hd, _⟩ := decrypt_block_total keys inp hlen hb
  refine ⟨⟨c, ?_⟩, ⟨d, ?_⟩⟩
  · unfold ak_rc6_encrypt_call
    rw [encrypt_eq_of_data st.skey keys hdata, hc, Option.map_some']
  · unfold ak_rc6_decrypt_call
    rw [decrypt_eq_of_data st.skey keys hdata, hd, Option.map_some']

/-- Witness of the amended C16: the context whose resource counter is zero. -/
theorem block_calls_leave_resource_witness :
    exhausted_state.skey.resource = 0 ∧
    (∃ out, ak_rc6_encrypt_call exhausted_state (block_at test_in 0)
      = some (exhausted_state, out)) ∧
    (∃ out, ak_rc6_decrypt_call exhausted_state (block_at test_in 0)
      = some (exhausted_state, out)) :=
  ⟨rfl, block_calls_leave_resource exhausted_state ((List.range 44).map init_word)
    (block_at test_in 0) rfl (by decide) (by decide)⟩

/-! ## Lemmas: chaining modes -/

theorem xor_bytes_length (a b : List Nat) : (xor_bytes a b).length = min a.length b.length := by
  unfold xor_bytes
  rw [List.length_zipWith]

theorem xor_bytes_cancel (a : List Nat) : ∀ k : List Nat, a.length ≤ k.length →
    xor_bytes (xor_bytes a k) k = a := by
  induction a with
  | nil => intro k _; cases k <;> rfl
  | cons x xs ih =>
    intro k hk
    cases k with
    | nil => simp at hk
    | cons y ys =>
      have h := ih ys (by simpa using hk)
      unfold xor_bytes at h ⊢
      rw [List.zipWith_cons_cons, List.zipWith_cons_cons, h, xor_cancel_right]

theorem xor_bytes_lt (a : List Nat) : ∀ b : List Nat, (∀ x ∈ a, x < 256) → (∀ x ∈ b, x < 256) →
    ∀ x ∈ xor_bytes a b, x < 256 := by
  induction a with
  | nil => intro b _ _ x hx; cases b <;> cases hx
  | cons y ys ih =>
    intro b ha hb x hx
    cases b with
    | nil => cases hx
    | cons z zs =>
      unfold xor_bytes at hx
      rw [List.zipWith_cons_cons, List.mem_cons] at hx
      rcases hx with hx | hx
      · rw [hx]
        exact Nat.xor_lt_two_pow (n := 8) (ha y (List.mem_cons_self _ _))
          (hb z (List.mem_cons_self _ _))
      · exact ih zs (fun w hw => ha w (List.mem_cons_of_mem _ hw))
          (fun w hw => hb w (List.mem_cons_of_mem _ hw)) x hx

theorem keystream_for_length (s : List Nat) (n : Nat) (h : n ≤ s.length) :
    (keystream_for s n).length = n := by
  unfold keystream_for
  rw [List.length_drop]
  omega

theorem run_mode_nil {σ : Type} (step : σ → List Nat → Option (σ × List Nat)) (fuel : Nat)
    (s : σ) : run_mode step fuel s [] = some [] := by
  cases fuel <;> rfl

theorem run_mode_cons {σ : Type} (step : σ → List Nat → Option (σ × List Nat)) (fuel : Nat)
    (s : σ) (data : List Nat) (h : data ≠ []) :
    run_mode step (fuel + 1) s data
      = (step s (data.take 16)).bind fun so =>
          (run_mode step fuel so.1 (data.drop 16)).map fun rest => so.2 ++ rest := by
  have e : data.isEmpty = false := by
    cases data with
    | nil => exact absurd rfl h
    | cons _ _ => rfl
  show (if data.isEmpty then some [] else _) = _
  rw [e]
  rfl

theorem take_drop_append (o rest : List Nat)
    (h : o.length = 16 ∨ (rest = [] ∧ o.length ≤ 16)) :
    (o ++ rest).take 16 = o ∧ (o ++ rest).drop 16 = rest := by
  rcases h with h | ⟨h1, h2⟩
  · constructor
    · rw [← h, List.take_left']
      rfl
    · rw [← h, List.drop_left']
      rfl
  · subst h1
    rw [List.append_nil]
    exact ⟨List.take_of_length_le h2, List.drop_of_length_le h2⟩

/-- Two modes whose steps undo each other block by block, leaving the same chaining state,
undo each other on whole buffers. -/
theorem run_mode_inverse {σ : Type} (stepE stepD : σ → List Nat → Option (σ × List Nat))
    (Inv : σ → Prop) (P : List Nat → Prop)
    (hstep : ∀ s data, Inv s → P data → data ≠ [] →
      ∃ s1 o, stepE s (data.take 16) = some (s1, o) ∧ o.length = (data.take 16).length ∧
        stepD s o = some (s1, data.take 16) ∧ (data.drop 16 ≠ [] → Inv s1) ∧ P (data.drop 16)) :
    ∀ (fuel : Nat) (s : σ) (data : List Nat), data.length ≤ fuel → Inv s → P data →
      ∃ out, run_mode stepE fuel s data = some out ∧ out.length = data.length ∧
        run_mode stepD fuel s out = some data := by
  intro fuel
  induction fuel with
  | zero =>
    intro s data hl _ _
    have e : data = [] := List.length_eq_zero.mp (Nat.le_zero.mp hl)
    subst e
    exact ⟨[], rfl, rfl, rfl⟩
  | succ fuel ih =>
    intro s data hl hI hP
    by_cases hd : data = []
    · subst hd
      exact ⟨[], run_mode_nil _ _ _, rfl, run_mode_nil _ _ _⟩
    · obtain ⟨s1, o, hE, hlen, hD, hInv, hP1⟩ := hstep s data hI hP hd
      have hpos : 0 < data.length := List.length_pos.mpr hd
      have htake : (data.take 16).length = min 16 data.length := List.length_take _ _
      have hrest : ∃ rest, run_mode stepE fuel s1 (data.drop 16) = some rest ∧
          rest.length = (data.drop 16).length ∧
          run_mode stepD fuel s1 rest = some (data.drop 16) := by
        by_cases hr : data.drop 16 = []
        · rw [hr]
          exact ⟨[], run_mode_nil _ _ _, rfl, run_mode_nil _ _ _⟩
        · exact ih s1 (data.drop 16) (by rw [List.length_drop]; omega) (hInv hr) hP1
      obtain ⟨rest, hR, hRl, hRd⟩ := hrest
      have hdl : (data.drop 16).length = data.length - 16 := List.length_drop _ _
      have hcase : o.length = 16 ∨ (rest = [] ∧ o.length ≤ 16) := by
        by_cases h16 : 16 ≤ data.length
        · left; omega
        · right
          exact ⟨List.length_eq_zero.mp (by omega), by omega⟩
      obtain ⟨ht, hdr⟩ := take_drop_append o rest hcase
      have hone : o ++ rest ≠ [] := by
        intro h
        have := congrArg List.length h
        rw [List.length_append] at this
        simp only [List.length_nil] at this
        omega
      refine ⟨o ++ rest, ?_, ?_, ?_⟩
      · rw [run_mode_cons stepE fuel s data hd, hE, Option.some_bind, hR, Option.map_some']
      · rw [List.length_append, hRl, hlen, htake, hdl]
        omega
      · rw [run_mode_cons stepD fuel s (o ++ rest) hone, ht, hdr, hD, Option.some_bind, hRd,
          Option.map_some', List.take_append_drop]

theorem take16_full (data : List Nat) (hd : data ≠ []) (h : data.length % 16 = 0) :
    (data.take 16).length = 16 := by
  have hpos : 0 < data.length := List.length_pos.mpr hd
  rw [List.length_take]
  omega

theorem drop16_multiple (data : List Nat) (h : data.length % 16 = 0) :
    (data.drop 16).length % 16 = 0 := by
  rw [List.length_drop]
  omega

theorem le_bytes_length (n : Nat) : ∀ v : Nat, (le_bytes n v).length = n := by
  induction n with
  | zero => intro v; rfl
  | succ n ih => intro v; unfold le_bytes; rw [List.length_cons, ih]

theorem chunks_valid (fuel : Nat) : ∀ l : List Nat, l.length ≤ fuel → l.length % 16 = 0 →
    (∀ r ∈ chunks fuel l, r.length = 16 ∧ ((∀ x ∈ l, x < 256) → ∀ x ∈ r, x < 256)) ∧
    (l ≠ [] → chunks fuel l ≠ []) := by
  induction fuel with
  | zero =>
    intro l hl _
    have e : l = [] := List.length_eq_zero.mp (Nat.le_zero.mp hl)
    subst e
    exact ⟨fun r hr => (by cases hr), fun h => absurd rfl h⟩
  | succ fuel ih =>
    intro l hl h16
    cases l with
    | nil => exact ⟨fun r hr => (by cases hr), fun h => absurd rfl h⟩
    | cons a as =>
      have hne : (a :: as) ≠ [] := List.cons_ne_nil _ _
      have hdl : ((a :: as).drop 16).length = (a :: as).length - 16 := List.length_drop _ _
      have hpos : 0 < (a :: as).length := List.length_pos.mpr hne
      obtain ⟨ih1, _⟩ := ih ((a :: as).drop 16) (by omega) (drop16_multiple _ h16)
      have e : chunks (fuel + 1) (a :: as)
          = (a :: as).take 16 :: chunks fuel ((a :: as).drop 16) := rfl
      rw [e]
      refine ⟨?_, fun _ => List.cons_ne_nil _ _⟩
      intro r hr
      rcases List.mem_cons.mp hr with hr | hr
      · rw [hr]
        exact ⟨take16_full _ hne h16, fun hb x hx => hb x (List.mem_of_mem_take hx)⟩
      · exact ⟨(ih1 r hr).1, fun hb x hx =>
          (ih1 r hr).2 (fun y hy => hb y (List.mem_of_mem_drop hy)) x hx⟩

theorem iv_blocks_valid (iv : List Nat) (hne : iv.length ≠ 0) (h16 : iv.length % 16 = 0) :
    iv_blocks iv ≠ [] ∧ (∀ r ∈ iv_blocks iv, r.length = 16) ∧
      ((∀ x ∈ iv, x < 256) → ∀ r ∈ iv_blocks iv, ∀ x ∈ r, x < 256) := by
  obtain ⟨h1, h2⟩ := chunks_valid iv.length iv (le_refl _) h16
  refine ⟨h2 (fun h => hne (by rw [h]; rfl)), fun r hr => (h1 r hr).1,
    fun hb r hr => (h1 r hr).2 hb⟩

theorem ecb_round_trip (keys : List Nat) (hlen : keys.length = 44) (msg : List Nat)
    (hmsg : ∀ x ∈ msg, x < 256) (h16 : msg.length % 16 = 0) :
    ∃ c, run_mode (ecb_step (encrypt_block keys)) msg.length () msg = some c ∧
      c.length = msg.length ∧
      run_mode (ecb_step (decrypt_block keys)) msg.length () c = some msg := by
  apply run_mode_inverse (ecb_step (encrypt_block keys)) (ecb_step (decrypt_block keys))
    (fun _ => True) (fun d => d.length % 16 = 0 ∧ ∀ x ∈ d, x < 256) _ msg.length () msg
    (le_refl _) trivial ⟨h16, hmsg⟩
  intro s data _ hP hd
  have hl := take16_full data hd hP.1
  have hb : ∀ x ∈ data.take 16, x < 256 := fun x hx => hP.2 x (List.mem_of_mem_take hx)
  obtain ⟨c, hE, hD⟩ := decrypt_encrypt_block keys (data.take 16) hlen hl hb
  obtain ⟨c1, hE1, hc1, _⟩ := encrypt_block_total keys (data.take 16) hlen hl
  have e : c = c1 := Option.some.inj (hE.symm.trans hE1)
  refine ⟨(), c, ?_, by rw [e, hc1, hl], ?_, fun _ => trivial, drop16_multiple data hP.1,
    fun x hx => hP.2 x (List.mem_of_mem_drop hx)⟩
  · unfold ecb_step
    rw [hE, Option.map_some']
  · unfold ecb_step
    rw [hD, Option.map_some']

theorem cbc_round_trip (keys : List Nat) (hlen : keys.length = 44) (msg : List Nat)
    (reg : List (List Nat)) (hmsg : ∀ x ∈ msg, x < 256) (h16 : msg.length % 16 = 0)
    (hreg : reg ≠ [] ∧ ∀ r ∈ reg, r.length = 16 ∧ ∀ x ∈ r, x < 256) :
    ∃ c, run_mode (cbc_encrypt_step (encrypt_block keys)) msg.length reg msg = some c ∧
      c.length = msg.length ∧
      run_mode (cbc_decrypt_step (decrypt_block keys)) msg.length reg c = some msg := by
  apply run_mode_inverse (cbc_encrypt_step (encrypt_block keys))
    (cbc_decrypt_step (decrypt_block keys))
    (fun reg => reg ≠ [] ∧ ∀ r ∈ reg, r.length = 16 ∧ ∀ x ∈ r, x < 256)
    (fun d => d.length % 16 = 0 ∧ ∀ x ∈ d, x < 256) _ msg.length reg msg
    (le_refl _) hreg ⟨h16, hmsg⟩
  intro s data hI hP hd
  cases s with
  | nil => exact absurd rfl hI.1
  | cons r rest =>
    have hr := hI.2 r (List.mem_cons_self _ _)
    have hl := take16_full data hd hP.1
    have hb : ∀ x ∈ data.take 16, x < 256 := fun x hx => hP.2 x (List.mem_of_mem_take hx)
    have hxl : (xor_bytes (data.take 16) r).length = 16 := by
      rw [xor_bytes_length, hl, hr.1]; rfl
    have hxb := xor_bytes_lt (data.take 16) r hb hr.2
    obtain ⟨c, hE, hD⟩ := decrypt_encrypt_block keys _ hlen hxl hxb
    obtain ⟨c1, hE1, hc1, hcb⟩ := encrypt_block_total keys _ hlen hxl
    have e : c = c1 := Option.some.inj (hE.symm.trans hE1)
    subst e
    refine ⟨rest ++ [c], c, ?_, by rw [hc1, hl], ?_, fun _ => ⟨?_, ?_⟩, drop16_multiple data hP.1,
      fun x hx => hP.2 x (List.mem_of_mem_drop hx)⟩
    · unfold cbc_encrypt_step
      simp only [hE, Option.map_some']
    · unfold cbc_decrypt_step
      simp only [hD, Option.map_some']
      rw [xor_bytes_cancel _ r (by rw [hl, hr.1])]
    · intro h
      have := congrArg List.length h
      rw [List.length_append] at this
      simp at this
    · intro q hq
      rcases List.mem_append.mp hq with hq | hq
      · exact hI.2 q (List.mem_cons_of_mem _ hq)
      · rw [List.mem_singleton.mp hq]
        exact ⟨hc1, hcb⟩

theorem cfb_round_trip (keys : List Nat) (hlen : keys.length = 44) (msg : List Nat)
    (reg : List (List Nat)) (hreg : reg ≠ [] ∧ ∀ r ∈ reg, r.length = 16) :
    ∃ c, run_mode (cfb_encrypt_step (encrypt_block keys)) msg.length reg msg = some c ∧
      c.length = msg.length ∧
      run_mode (cfb_decrypt_step (encrypt_block keys)) msg.length reg c = some msg := by
  apply run_mode_inverse (cfb_encrypt_step (encrypt_block keys))
    (cfb_decrypt_step (encrypt_block keys))
    (fun reg => reg ≠ [] ∧ ∀ r ∈ reg, r.length = 16) (fun _ => True) _ msg.length reg msg
    (le_refl _) hreg trivial
  intro s data hI _ hd
  cases s with
  | nil => exact absurd rfl hI.1
  | cons r rest =>
    have hr := hI.2 r (List.mem_cons_self _ _)
    obtain ⟨ks, hE, hks, _⟩ := encrypt_block_total keys r hlen hr
    have htl : (data.take 16).length ≤ 16 := by rw [List.length_take]; omega
    have hkl := keystream_for_length ks (data.take 16).length (by rw [hks]; exact htl)
    have hol : (xor_bytes (data.take 16) (keystream_for ks (data.take 16).length)).length
        = (data.take 16).length := by
      rw [xor_bytes_length, hkl, Nat.min_self]
    refine ⟨rest ++ [xor_bytes (data.take 16) (keystream_for ks (data.take 16).length)],
      xor_bytes (data.take 16) (keystream_for ks (data.take 16).length), ?_, hol, ?_,
      fun hrest => ⟨?_, ?_⟩, trivial⟩
    · unfold cfb_encrypt_step
      simp only [hE, Option.map_some']
    · unfold cfb_decrypt_step
      simp only [hE, Option.map_some', hol]
      rw [xor_bytes_cancel _ _ (by rw [hkl])]
    · intro h
      have := congrArg List.length h
      rw [List.length_append] at this
      simp at this
    · intro q hq
      rcases List.mem_append.mp hq with hq | hq
      · exact hI.2 q (List.mem_cons_of_mem _ hq)
      · rw [List.mem_singleton.mp hq, hol, List.length_take]
        have : 16 < data.length := by
          have hdl : (data.drop 16).length = data.length - 16 := List.length_drop _ _
          have := List.length_pos.mpr hrest
          omega
        omega

theorem ofb_round_trip (keys : List Nat) (hlen : keys.length = 44) (msg : List Nat)
    (reg : List (List Nat)) (hreg : reg ≠ [] ∧ ∀ r ∈ reg, r.length = 16) :
    ∃ c, run_mode (ofb_step (encrypt_block keys)) msg.length reg msg = some c ∧
      c.length = msg.length ∧
      run_mode (ofb_step (encrypt_block keys)) msg.length reg c = some msg := by
  apply run_mode_inverse (ofb_step (encrypt_block keys)) (ofb_step (encrypt_block keys))
    (fun reg => reg ≠ [] ∧ ∀ r ∈ reg, r.length = 16) (fun _ => True) _ msg.length reg msg
    (le_refl _) hreg trivial
  intro s data hI _ _
  cases s with
  | nil => exact absurd rfl hI.1
  | cons r rest =>
    have hr := hI.2 r (List.mem_cons_self _ _)
    obtain ⟨ks, hE, hks, _⟩ := encrypt_block_total keys r hlen hr
    have htl : (data.take 16).length ≤ 16 := by rw [List.length_take]; omega
    have hkl := keystream_for_length ks (data.take 16).length (by rw [hks]; exact htl)
    have hol : (xor_bytes (data.take 16) (keystream_for ks (data.take 16).length)).length
        = (data.take 16).length := by
      rw [xor_bytes_length, hkl, Nat.min_self]
    refine ⟨rest ++ [ks],
      xor_bytes (data.take 16) (keystream_for ks (data.take 16).length), ?_, hol, ?_,
      fun _ => ⟨?_, ?_⟩, trivial⟩
    · unfold ofb_step
      simp only [hE, Option.map_some']
    · unfold ofb_step
      simp only [hE, Option.map_some', hol]
      rw [xor_bytes_cancel _ _ (by rw [hkl])]
    · intro h
      have := congrArg List.length h
      rw [List.length_append] at this
      simp at this
    · intro q hq
      rcases List.mem_append.mp hq with hq | hq
      · exact hI.2 q (List.mem_cons_of_mem _ hq)
      · rw [List.mem_singleton.mp hq]
        exact hks

theorem ctr_round_trip (keys : List Nat) (hlen : keys.length = 44) (msg : List Nat) (ctr : Nat) :
    ∃ c, run_mode (ctr_step (encrypt_block keys)) msg.length ctr msg = some c ∧
      c.length = msg.length ∧
      run_mode (ctr_step (encrypt_block keys)) msg.length ctr c = some msg := by
  apply run_mode_inverse (ctr_step (encrypt_block keys)) (ctr_step (encrypt_block keys))
    (fun _ => True) (fun _ => True) _ msg.length ctr msg (le_refl _) trivial trivial
  intro s data _ _ _
  obtain ⟨ks, hE, hks, _⟩ := encrypt_block_total keys (le_bytes 16 s) hlen (le_bytes_length 16 s)
  have htl : (data.take 16).length ≤ 16 := by rw [List.length_take]; omega
  have hkl := keystream_for_length ks (data.take 16).length (by rw [hks]; exact htl)
  have hol : (xor_bytes (data.take 16) (keystream_for ks (data.take 16).length)).length
      = (data.take 16).length := by
    rw [xor_bytes_length, hkl, Nat.min_self]
  refine ⟨(s + 1) % 2 ^ 128,
    xor_bytes (data.take 16) (keystream_for ks (data.take 16).length), ?_, hol, ?_,
    fun _ => trivial, trivial⟩
  · unfold ctr_step
    simp only [hE, Option.map_some']
  · unfold ctr_step
    simp only [hE, Option.map_some', hol]
    rw [xor_bytes_cancel _ _ (by rw [hkl])]

/-! ## The claim C13 -/

/-- C13: on a context holding 44 round words, for every message and IV (buffers of
bytes) whose lengths are valid for the mode, encryption succeeds and decryption of its output
under the same IV returns the message: in ECB and CBC for messages of a whole number of
blocks, in CFB for messages of any length, and in OFB and CTR, where the same transform is
applied twice, for messages of any length.  The IV is a positive whole number of blocks for
CBC, CFB and OFB, and 8 bytes for CTR. -/
theorem modes_round_trip (skey : Skey) (keys msg iv : List Nat)
    (hdata : skey.data = some keys) (hlen : keys.length = 44)
    (hmsg : ∀ x ∈ msg, x < 256) (hiv : ∀ x ∈ iv, x < 256) :
    (msg.length % 16 = 0 →
      ∃ c, ak_bckey_encrypt_ecb (ak_rc6_encrypt skey) msg = .ok c ∧
        ak_bckey_decrypt_ecb (ak_rc6_decrypt skey) c = .ok msg) ∧
    (msg.length % 16 = 0 → 0 < iv.length → iv.length % 16 = 0 →
      ∃ c, ak_bckey_encrypt_cbc (ak_rc6_encrypt skey) msg iv = .ok c ∧
        ak_bckey_decrypt_cbc (ak_rc6_decrypt skey) c iv = .ok msg) ∧
    (0 < iv.length → iv.length % 16 = 0 →
      ∃ c, ak_bckey_encrypt_cfb (ak_rc6_encrypt skey) msg iv = .ok c ∧
        ak_bckey_decrypt_cfb (ak_rc6_encrypt skey) c iv = .ok msg) ∧
    (0 < iv.length → iv.length % 16 = 0 →
      ∃ c, ak_bckey_ofb (ak_rc6_encrypt skey) msg iv = .ok c ∧
        ak_bckey_ofb (ak_rc6_encrypt skey) c iv = .ok msg) ∧
    (iv.length = 8 →
      ∃ c, ak_bckey_ctr (ak_rc6_encrypt skey) msg iv = .ok c ∧
        ak_bckey_ctr (ak_rc6_encrypt skey) c iv = .ok msg) := by
  rw [encrypt_eq_of_data skey keys hdata, decrypt_eq_of_data skey keys hdata]
  refine ⟨?_, ?_, ?_, ?_, ?_⟩
  · intro h16
    obtain ⟨c, hE, hcl, hD⟩ := ecb_round_trip keys hlen msg hmsg h16
    refine ⟨c, ?_, ?_⟩
    · unfold ak_bckey_encrypt_ecb
      rw [if_neg (not_not.mpr h16), hE]
      rfl
    · unfold ak_bckey_decrypt_ecb
      rw [hcl, if_neg (not_not.mpr h16), hD]
      rfl
  · intro h16 hpos hiv16
    have hc : ¬ (iv.length = 0 ∨ iv.length % 16 ≠ 0) := by omega
    obtain ⟨hr1, hr2, hr3⟩ := iv_blocks_valid iv (by omega) hiv16
    obtain ⟨c, hE, hcl, hD⟩ := cbc_round_trip keys hlen msg (iv_blocks iv) hmsg h16
      ⟨hr1, fun r hr => ⟨hr2 r hr, hr3 hiv r hr⟩⟩
    refine ⟨c, ?_, ?_⟩
    · unfold ak_bckey_encrypt_cbc
      rw [if_neg hc, if_neg (not_not.mpr h16), hE]
      rfl
    · unfold ak_bckey_decrypt_cbc
      rw [hcl, if_neg hc, if_neg (not_not.mpr h16), hD]
      rfl
  · intro hpos hiv16
    have hc : ¬ (iv.length = 0 ∨ iv.length % 16 ≠ 0) := by omega
    obtain ⟨hr1, hr2, _⟩ := iv_blocks_valid iv (by omega) hiv16
    obtain ⟨c, hE, hcl, hD⟩ := cfb_round_trip keys hlen msg (iv_blocks iv) ⟨hr1, hr2⟩
    refine ⟨c, ?_, ?_⟩
    · unfold ak_bckey_encrypt_cfb
      rw [if_neg hc, hE]
      rfl
    · unfold ak_bckey_decrypt_cfb
      rw [hcl, if_neg hc, hD]
      rfl
  · intro hpos hiv16
    have hc : ¬ (iv.length = 0 ∨ iv.length % 16 ≠ 0) := by omega
    obtain ⟨hr1, hr2, _⟩ := iv_blocks_valid iv (by omega) hiv16
    obtain ⟨c, hE, hcl, hD⟩ := ofb_round_trip keys hlen msg (iv_blocks iv) ⟨hr1, hr2⟩
    refine ⟨c, ?_, ?_⟩
    · unfold ak_bckey_ofb
      rw [if_neg hc, hE]
      rfl
    · unfold ak_bckey_ofb
      rw [hcl, if_neg hc, hD]
      rfl
  · intro h8
    obtain ⟨c, hE, hcl, hD⟩ := ctr_round_trip keys hlen msg
      (le_nat (List.replicate 8 0 ++ iv))
    refine ⟨c, ?_, ?_⟩
    · unfold ak_bckey_ctr
      rw [if_neg (not_not.mpr h8), hE]
      rfl
    · unfold ak_bckey_ctr
      rw [hcl, if_neg (not_not.mpr h8), hD]
      rfl

/-! The model of the modes reproduces the ciphertexts that the self-test expects. -/

theorem kat_ctr : ak_bckey_ctr (ak_rc6_encrypt scheduled_skey) test_in test_ivctr
    = .ok test_outctr := by decide

theorem kat_cbc : ak_bckey_encrypt_cbc (ak_rc6_encrypt scheduled_skey) test_in test_ivcbc
    = .ok test_outcbc := by decide

theorem kat_ofb : ak_bckey_ofb (ak_rc6_encrypt scheduled_skey) test_in test_ivofb
    = .ok test_outofb := by decide

theorem kat_cfb : ak_bckey_encrypt_cfb (ak_rc6_encrypt scheduled_skey) test_in test_ivofb
    = .ok test_outcfb := by decide

theorem scheduled_skey_data :
    ∃ keys, scheduled_skey.data = some keys ∧ keys.length = 44 := by
  obtain ⟨rl, hrl⟩ := Option.isSome_iff_exists.mp expand_keys_zero_isSome
  have hl := expand_keys_zero_length
  rw [hrl, Option.map_some', Option.some.injEq] at hl
  refine ⟨rl.1, ?_, hl⟩
  show (expand_keys (List.replicate 44 0)).map Prod.fst = some rl.1
  rw [hrl, Option.map_some']

/-- Witness of C13: the 64-byte message of the self-test under the scheduled test key, with
the 8-byte IV of the CTR test and the 32-byte IVs of the CBC, OFB and CFB tests; the
ciphertexts are the ones the self-test expects. -/
theorem modes_round_trip_witness :
    (ak_bckey_ctr (ak_rc6_encrypt scheduled_skey) test_in test_ivctr = .ok test_outctr ∧
      ak_bckey_ctr (ak_rc6_encrypt scheduled_skey) test_outctr test_ivctr = .ok test_in) ∧
    (ak_bckey_encrypt_cbc (ak_rc6_encrypt scheduled_skey) test_in test_ivcbc = .ok test_outcbc ∧
      ak_bckey_decrypt_cbc (ak_rc6_decrypt scheduled_skey) test_outcbc test_ivcbc
        = .ok test_in) ∧
    (ak_bckey_ofb (ak_rc6_encrypt scheduled_skey) test_in test_ivofb = .ok test_outofb ∧
      ak_bckey_ofb (ak_rc6_encrypt scheduled_skey) test_outofb test_ivofb = .ok test_in) ∧
    (ak_bckey_encrypt_cfb (ak_rc6_encrypt scheduled_skey) test_in test_ivofb = .ok test_outcfb ∧
      ak_bckey_decrypt_cfb (ak_rc6_encrypt scheduled_skey) test_outcfb test_ivofb
        = .ok test_in) := by
  obtain ⟨keys, hdata, hlen⟩ := scheduled_skey_data
  have hctr := (modes_round_trip scheduled_skey keys test_in test_ivctr hdata hlen
    (by decide) (by decide)).2.2.2.2 (by decide)
  have hcbc := (modes_round_trip scheduled_skey keys test_in test_ivcbc hdata hlen
    (by decide) (by decide)).2.1 (by decide) (by decide) (by decide)
  have hofb := (modes_round_trip scheduled_skey keys test_in test_ivofb hdata hlen
    (by decide) (by decide)).2.2.2.1 (by decide) (by decide)
  have hcfb := (modes_round_trip scheduled_skey keys test_in test_ivofb hdata hlen
    (by decide) (by decide)).2.2.1 (by decide) (by decide)
  rw [kat_ctr] at hctr
  rw [kat_cbc] at hcbc
  rw [kat_ofb] at hofb
  rw [kat_cfb] at hcfb
  obtain ⟨c1, h1, h1'⟩ := hctr
  obtain ⟨c2, h2, h2'⟩ := hcbc
  obtain ⟨c3, h3, h3'⟩ := hofb
  obtain ⟨c4, h4, h4'⟩ := hcfb
  cases h1; cases h2; cases h3; cases h4
  exact ⟨⟨kat_ctr, h1'⟩, ⟨kat_cbc, h2'⟩, ⟨kat_ofb, h3'⟩, ⟨kat_cfb, h4'⟩⟩

/-! ## Lemmas: CMAC and MGM -/

theorem encrypt_block_output (keys x t : List Nat) (h : encrypt_block keys x = some t) :
    t.length = 16 := by
  unfold encrypt_block at h
  simp only [Option.bind_eq_bind, Option.bind_eq_some, Option.pure_def, Option.some.injEq] at h
  obtain ⟨_, _, _, _, _, _, _, _, _, _, _, _, h⟩ := h
  rw [← h]
  exact (storeRegs_block _).1

theorem force_top_bit_length (nonce : List Nat) (bit : Nat) (h : nonce.length = 16) :
    (force_top_bit nonce bit).length = 16 := by
  unfold force_top_bit
  rw [List.length_append, List.length_take, List.length_singleton, h]
  rfl

theorem gf128_mul_length (a b : List Nat) : (gf128_mul a b).length = 16 := by
  unfold gf128_mul
  exact le_bytes_length 16 _

theorem mgm_auth_blocks_total (keys : List Nat) (hlen : keys.length = 44)
    (blocks : List (List Nat)) : ∀ zs : Nat × List Nat, zs.2.length = 16 →
      ∃ zs1, mgm_auth_blocks (encrypt_block keys) blocks zs = some zs1 ∧ zs1.2.length = 16 := by
  induction blocks with
  | nil => intro zs hz; exact ⟨zs, rfl, hz⟩
  | cons b bs ih =>
    intro zs hz
    obtain ⟨h, hh, _⟩ := encrypt_block_total keys (le_bytes 16 zs.1) hlen (le_bytes_length 16 _)
    have hstep : mgm_auth_step (encrypt_block keys) zs (mgm_pad b)
        = some ((zs.1 + 2 ^ 64) % 2 ^ 128, xor_bytes zs.2 (gf128_mul h (mgm_pad b))) := by
      unfold mgm_auth_step
      rw [hh, Option.map_some']
    obtain ⟨zs1, h1, h2⟩ := ih ((zs.1 + 2 ^ 64) % 2 ^ 128, xor_bytes zs.2 (gf128_mul h (mgm_pad b)))
      (by
        show (xor_bytes zs.2 (gf128_mul h (mgm_pad b))).length = 16
        rw [xor_bytes_length, hz, gf128_mul_length]
        rfl)
    refine ⟨zs1, ?_, h2⟩
    unfold mgm_auth_blocks
    rw [hstep, Option.some_bind, h1]

theorem mgm_tag_total (keys : List Nat) (hlen : keys.length = 44) (ad ct nonce : List Nat)
    (hn : nonce.length = 16) :
    ∃ t, mgm_tag (encrypt_block keys) ad ct nonce = some t ∧ t.length = 16 := by
  obtain ⟨z0, hz0, _⟩ := encrypt_block_total keys (force_top_bit nonce 1) hlen
    (force_top_bit_length nonce 1 hn)
  obtain ⟨zs, hzs, hzl⟩ := mgm_auth_blocks_total keys hlen
    (chunks ad.length ad ++ chunks ct.length ct
      ++ [le_bytes 8 (8 * ct.length) ++ le_bytes 8 (8 * ad.length)])
    (le_nat z0, List.replicate 16 0) (List.length_replicate _ _)
  obtain ⟨t, ht, htl, _⟩ := encrypt_block_total keys zs.2 hlen hzl
  refine ⟨t, ?_, htl⟩
  unfold mgm_tag
  rw [hz0, Option.some_bind, hzs, Option.some_bind, ht]

theorem mgm_crypt_round_trip (keys : List Nat) (hlen : keys.length = 44) (pt nonce : List Nat)
    (hn : nonce.length = 16) :
    ∃ ct, mgm_crypt (encrypt_block keys) pt nonce = some ct ∧ ct.length = pt.length ∧
      mgm_crypt (encrypt_block keys) ct nonce = some pt := by
  obtain ⟨y0, hy0, _⟩ := encrypt_block_total keys (force_top_bit nonce 0) hlen
    (force_top_bit_length nonce 0 hn)
  obtain ⟨ct, hE, hcl, hD⟩ := ctr_round_trip keys hlen pt (le_nat y0)
  refine ⟨ct, ?_, hcl, ?_⟩
  · unfold mgm_crypt
    rw [hy0, Option.some_bind, hE]
  · unfold mgm_crypt
    rw [hy0, Option.some_bind, hcl, hD]

/-- Encryption followed by decryption in MGM, for inputs of valid lengths. -/
theorem mgm_valid_round_trip (keys : List Nat) (hlen : keys.length = 44)
    (ad pt nonce : List Nat) (L : Nat) (hn : nonce.length = 16) (hL : 1 ≤ L ∧ L ≤ 16)
    (had : 8 * ad.length < 2 ^ 64) (hpt : 8 * pt.length < 2 ^ 64) :
    ∃ ct tag, ak_bckey_encrypt_mgm (encrypt_block keys) (encrypt_block keys) ad pt nonce L
        = .ok (ct, tag) ∧ ct.length = pt.length ∧ tag.length = L ∧
      ak_bckey_decrypt_mgm (encrypt_block keys) (encrypt_block keys) ad ct nonce tag
        = .ok pt := by
  obtain ⟨ct, hE, hcl, hD⟩ := mgm_crypt_round_trip keys hlen pt nonce hn
  obtain ⟨t, ht, htl⟩ := mgm_tag_total keys hlen ad ct nonce hn
  have hLc : ¬ (L = 0 ∨ L > 16) := by omega
  have htr : (truncate_tag t L).length = L := by
    unfold truncate_tag
    rw [List.length_drop]
    omega
  have hLt : ¬ ((truncate_tag t L).length = 0 ∨ (truncate_tag t L).length > 16) := by
    rw [htr]; exact hLc
  refine ⟨ct, truncate_tag t L, ?_, hcl, htr, ?_⟩
  · unfold ak_bckey_encrypt_mgm
    rw [if_neg (not_not.mpr hn), if_neg hLc, if_neg (by omega), if_neg (by omega)]
    simp only [hE, ht]
  · unfold ak_bckey_decrypt_mgm
    rw [if_neg (not_not.mpr hn), if_neg hLt, if_neg (by omega), if_neg (by rw [hcl]; omega)]
    simp only [ht, htr, ne_eq, not_true_eq_false, if_false, hD]

/-- A successful MGM encryption has inputs of valid lengths. -/
theorem mgm_encrypt_ok_valid (encE encA : List Nat → Option (List Nat))
    (ad pt nonce : List Nat) (L : Nat) (out : List Nat × List Nat)
    (h : ak_bckey_encrypt_mgm encE encA ad pt nonce L = .ok out) :
    nonce.length = 16 ∧ (1 ≤ L ∧ L ≤ 16) ∧ 8 * ad.length < 2 ^ 64 ∧ 8 * pt.length < 2 ^ 64 := by
  unfold ak_bckey_encrypt_mgm at h
  by_cases h1 : nonce.length ≠ 16
  · rw [if_pos h1] at h; cases h
  · rw [if_neg h1] at h
    by_cases h2 : L = 0 ∨ L > 16
    · rw [if_pos h2] at h; cases h
    · rw [if_neg h2] at h
      by_cases h3 : 2 ^ 64 ≤ 8 * ad.length
      · rw [if_pos h3] at h; cases h
      · rw [if_neg h3] at h
        by_cases h4 : 2 ^ 64 ≤ 8 * pt.length
        · rw [if_pos h4] at h; cases h
        · exact ⟨not_not.mp h1, by omega, by omega, by omega⟩

/-! ## The claim C14 -/

/-- C14: on a context holding 44 round words, used both for encryption and for
authentication: for every associated data, plaintext and nonce, whenever MGM encryption
produces a ciphertext and a tag, MGM decryption of that ciphertext under the same nonce,
associated data and tag verifies the tag and returns the plaintext; and MGM encryption does
produce them whenever the nonce has 16 bytes, the tag length lies between 1 and 16 and the bit
lengths of the data fit 64 bits. -/
theorem mgm_round_trip (skey : Skey) (keys ad pt nonce : List Nat) (L : Nat)
    (hdata : skey.data = some keys) (hlen : keys.length = 44) :
    (∀ ct tag, ak_bckey_encrypt_mgm (ak_rc6_encrypt skey) (ak_rc6_encrypt skey) ad pt nonce L
        = .ok (ct, tag) →
      ak_bckey_decrypt_mgm (ak_rc6_encrypt skey) (ak_rc6_encrypt skey) ad ct nonce tag
        = .ok pt) ∧
    (nonce.length = 16 → 1 ≤ L ∧ L ≤ 16 → 8 * ad.length < 2 ^ 64 → 8 * pt.length < 2 ^ 64 →
      ∃ ct tag, ak_bckey_encrypt_mgm (ak_rc6_encrypt skey) (ak_rc6_encrypt skey) ad pt nonce L
        = .ok (ct, tag) ∧ ct.length = pt.length ∧ tag.length = L) := by
  rw [encrypt_eq_of_data skey keys hdata]
  constructor
  · intro ct tag h
    obtain ⟨hn, hL, had, hpt⟩ := mgm_encrypt_ok_valid _ _ ad pt nonce L (ct, tag) h
    obtain ⟨ct1, tag1, h1, _, _, h2⟩ := mgm_valid_round_trip keys hlen ad pt nonce L hn hL had hpt
    rw [h1] at h
    have e := Except.ok.inj h
    rw [Prod.mk.injEq] at e
    rw [← e.1, ← e.2]
    exact h2
  · intro hn hL had hpt
    obtain ⟨ct, tag, h1, h2, h3, _⟩ := mgm_valid_round_trip keys hlen ad pt nonce L hn hL had hpt
    exact ⟨ct, tag, h1, h2, h3⟩

theorem kat_mgm :
    (ak_bckey_encrypt_mgm (ak_rc6_encrypt scheduled_skey) (ak_rc6_encrypt scheduled_skey)
      example_associated example_plain example_iv128 16).map Prod.snd
        = .ok example_icodeOne := by
  decide

/-- Witness of C14: the 41-byte associated data, the 67-byte plaintext and the 16-byte nonce
of the example under the scheduled test key; the tag is the `icodeOne` of the example,
`d5 95 ff 38 20 7e e3 9c 27 67 61 fd a0 d1 d4 f4`. -/
theorem mgm_round_trip_witness :
    ∃ ct, ak_bckey_encrypt_mgm (ak_rc6_encrypt scheduled_skey) (ak_rc6_encrypt scheduled_skey)
        example_associated example_plain example_iv128 16 = .ok (ct, example_icodeOne) ∧
      ak_bckey_decrypt_mgm (ak_rc6_encrypt scheduled_skey) (ak_rc6_encrypt scheduled_skey)
        example_associated ct example_iv128 example_icodeOne = .ok example_plain := by
  obtain ⟨keys, hdata, hlen⟩ := scheduled_skey_data
  have h := mgm_round_trip scheduled_skey keys example_associated example_plain example_iv128 16
    hdata hlen
  obtain ⟨ct, tag, he, _, _⟩ := h.2 (by decide) (by decide) (by decide) (by decide)
  have hk := kat_mgm
  rw [he] at hk
  have e : tag = example_icodeOne := Except.ok.inj hk
  subst e
  exact ⟨ct, he, h.1 ct _ he⟩

/-! ## Lemmas: the right rotation helper as a rotation -/

theorem rotl32_mod (v n : Nat) : rotl32 v (n % 32) = rotl32 v n := by
  unfold rotl32
  rw [Nat.mod_mod]

theorem rotr32_mod (v n : Nat) : rotr32 v (n % 32) = rotr32 v n := by
  unfold rotr32
  rw [Nat.mod_mod]

theorem right_shift_eq_left_shift (v n : Nat) (hv : v < 2 ^ 32) :
    ak_rc6_right_bit_cicl_shift v n = ak_rc6_left_bit_cicl_shift v (32 - n % 32) := by
  apply Nat.eq_of_testBit_eq
  intro i
  rw [testBit_right_shift v n i hv, testBit_left_shift v (32 - n % 32) i hv]
  have hk : n % 32 < 32 := Nat.mod_lt _ (by decide)
  have e : (i + (32 - (32 - n % 32) % 32)) % 32 = (i + n % 32) % 32 := by omega
  rw [e]

theorem rotl32_eq_rotr32 (v n : Nat) : rotl32 v (32 - n % 32) = rotr32 v n := by
  have hk : n % 32 < 32 := Nat.mod_lt _ (by decide)
  unfold rotl32 rotr32
  by_cases hk0 : n % 32 = 0
  · rw [hk0]
    have e1 : (32 - 0) % 32 = 0 := rfl
    have e2 : v * 2 ^ (32 - 0) % 2 ^ 32 = 0 := Nat.mul_mod_left _ _
    have e3 : v % 2 ^ 32 / 2 ^ (32 - 0) = 0 :=
      Nat.div_eq_of_lt (Nat.mod_lt _ (Nat.two_pow_pos _))
    rw [e1, e2, e3, Nat.pow_zero, Nat.mul_one, Nat.div_one, Nat.add_zero]
  · have e1 : (32 - n % 32) % 32 = 32 - n % 32 := Nat.mod_eq_of_lt (by omega)
    have e2 : 32 - (32 - n % 32) = n % 32 := by omega
    rw [e1, e2, Nat.add_comm]

theorem right_shift_eq_rotr32 (v n : Nat) (hv : v < 2 ^ 32) :
    ak_rc6_right_bit_cicl_shift v n = rotr32 v n := by
  rw [right_shift_eq_left_shift v n hv, left_shift_eq_rotl32 v _ hv, rotl32_eq_rotr32]

theorem left_shift_of_multiple (v n : Nat) (hv : v < 2 ^ 32) (hn : n % 32 = 0) :
    ak_rc6_left_bit_cicl_shift v n = v := by
  apply Nat.eq_of_testBit_eq
  intro i
  rw [testBit_left_shift v n i hv, hn]
  by_cases h32 : i < 32
  · have e : (i + (32 - 0)) % 32 = i := by omega
    rw [e, decide_eq_true h32, Bool.true_and]
  · rw [decide_eq_false h32, Bool.false_and, testBit_eq_false_of_word hv (by omega)]

theorem right_shift_of_multiple (v n : Nat) (hv : v < 2 ^ 32) (hn : n % 32 = 0) :
    ak_rc6_right_bit_cicl_shift v n = v := by
  apply Nat.eq_of_testBit_eq
  intro i
  rw [testBit_right_shift v n i hv, hn]
  by_cases h32 : i < 32
  · have e : (i + 0) % 32 = i := by omega
    rw [e, decide_eq_true h32, Bool.true_and]
  · rw [decide_eq_false h32, Bool.false_and, testBit_eq_false_of_word hv (by omega)]

/-! ## Lemmas: storage and traces of the key schedule -/

theorem expand_keys_zero_words :
    (expand_keys (List.replicate 44 0)).map (fun rl => decide (∀ w ∈ rl.1, w < 2 ^ 32))
      = some true := by
  decide

theorem expand_keys_zero_aux_length :
    (expand_keys (List.replicate 44 0)).map (fun rl => rl.2.length) = some 8 := by
  decide

theorem delete_keys_trace (env : Env) (st : State) (old : List Nat)
    (h : st.skey.data = some old) :
    ∃ pre freed, (ak_rc6_delete_keys env .valid st).2.trace
      = st.trace ++ pre ++ [Event.free freed] := by
  by_cases hw : (env.ak_ptr_wipe old sizeof_expanded_keys st.skey.generator).1 = .ak_error_ok
  · rw [delete_keys_wipe_ok env st old h hw]
    exact ⟨[Event.wipe old sizeof_expanded_keys
      (env.ak_ptr_wipe old sizeof_expanded_keys st.skey.generator).2.1], _, rfl⟩
  · rw [delete_keys_wipe_error env st old h hw]
    refine ⟨[Event.wipe old sizeof_expanded_keys
        (env.ak_ptr_wipe old sizeof_expanded_keys st.skey.generator).2.1,
      Event.message (env.ak_ptr_wipe old sizeof_expanded_keys st.skey.generator).1
        "ak_rc6_delete_keys" "incorrect wiping an internal data",
      Event.memset (env.ak_ptr_wipe old sizeof_expanded_keys st.skey.generator).2.1
        sizeof_expanded_keys
        (memset_zero (env.ak_ptr_wipe old sizeof_expanded_keys st.skey.generator).2.1
          sizeof_expanded_keys)],
      memset_zero (env.ak_ptr_wipe old sizeof_expanded_keys st.skey.generator).2.1
        sizeof_expanded_keys, ?_⟩
    simp only [release, zero_fill, ak_error_message, wipe_data, List.append_assoc,
      List.singleton_append, List.cons_append, List.nil_append, Option.getD_some]

/-- A successful run of the key schedule comes from a non-null context and leaves the trace of
the deletion of the previous storage, if there was one, followed by the allocation and the
wiping of `L`. -/
theorem schedule_keys_ok_trace (env : Env) (p : SkeyPtr) (st st1 : State)
    (h : ak_rc6_schedule_keys env p st = some (.ak_error_ok, st1)) :
    ∃ L after, st1.trace
      = (if st.skey.data ≠ none then (ak_rc6_delete_keys env .valid st).2 else st).trace ++
        [Event.malloc sizeof_expanded_keys true, Event.wipe L (8 * 4) after] := by
  unfold ak_rc6_schedule_keys at h
  cases p with
  | NULL =>
    simp only [ak_error_message, Option.some.injEq, Prod.mk.injEq] at h
    exact absurd h.1 (by decide)
  | valid =>
    simp only at h
    by_cases hsz : st.skey.key_size = 32
    · cases hic : env.check_icode st.skey with
      | true =>
        simp only [hsz, hic, ne_eq, not_true_eq_false, if_false] at h
        cases hm : ak_aligned_malloc env sizeof_expanded_keys with
        | none =>
          simp only [hm, ak_error_message, Option.some.injEq, Prod.mk.injEq] at h
          exact absurd h.1 (by decide)
        | some fresh =>
          have hlen := aligned_malloc_length env fresh hm
          simp only [hm, expand_keys_of_length fresh hlen] at h
          cases hx : expand_keys (List.replicate 44 0) with
          | none => simp only [hx, Option.none_bind] at h; cases h
          | some rl =>
            simp only [hx, Option.some_bind, Option.some.injEq, Prod.mk.injEq, true_and] at h
            exact ⟨rl.2, _, by rw [← h]⟩
      | false =>
        simp only [hsz, hic, ne_eq, not_true_eq_false, if_false, Bool.false_eq_true,
          not_false_eq_true, if_true, ak_error_message, Option.some.injEq, Prod.mk.injEq] at h
        exact absurd h.1 (by decide)
    · simp only [hsz, ne_eq, not_false_eq_true, if_true, ak_error_message, Option.some.injEq,
        Prod.mk.injEq] at h
      exact absurd h.1 (by decide)

theorem delete_keys_events (env : Env) (st : State) :
    ∃ D, (ak_rc6_delete_keys env .valid st).2.trace = st.trace ++ D ∧
      ∀ e ∈ D, ∀ sz ok, e ≠ Event.malloc sz ok := by
  cases hd : st.skey.data with
  | none =>
    rw [delete_keys_no_data env st hd]
    exact ⟨[], (List.append_nil _).symm, fun e he => absurd he (List.not_mem_nil e)⟩
  | some old =>
    by_cases hw : (env.ak_ptr_wipe old sizeof_expanded_keys st.skey.generator).1 = .ak_error_ok
    · rw [delete_keys_wipe_ok env st old hd hw]
      refine ⟨[Event.wipe old sizeof_expanded_keys
          (env.ak_ptr_wipe old sizeof_expanded_keys st.skey.generator).2.1,
        Event.free (env.ak_ptr_wipe old sizeof_expanded_keys st.skey.generator).2.1], ?_, ?_⟩
      · simp only [release, wipe_data, List.append_assoc, List.singleton_append,
          Option.getD_some]
      · intro e he sz ok
        simp only [List.mem_cons, List.mem_singleton, List.not_mem_nil, or_false] at he
        rcases he with he | he <;> (rw [he]; exact fun hc => Event.noConfusion hc)
    · rw [delete_keys_wipe_error env st old hd hw]
      refine ⟨[Event.wipe old sizeof_expanded_keys
          (env.ak_ptr_wipe old sizeof_expanded_keys st.skey.generator).2.1,
        Event.message (env.ak_ptr_wipe old sizeof_expanded_keys st.skey.generator).1
          "ak_rc6_delete_keys" "incorrect wiping an internal data",
        Event.memset (env.ak_ptr_wipe old sizeof_expanded_keys st.skey.generator).2.1
          sizeof_expanded_keys
          (memset_zero (env.ak_ptr_wipe old sizeof_expanded_keys st.skey.generator).2.1
            sizeof_expanded_keys),
        Event.free (memset_zero (env.ak_ptr_wipe old sizeof_expanded_keys st.skey.generator).2.1
          sizeof_expanded_keys)], ?_, ?_⟩
      · simp only [release, zero_fill, ak_error_message, wipe_data, List.append_assoc,
          List.singleton_append, List.cons_append, List.nil_append, Option.getD_some]
      · intro e he sz ok
        simp only [List.mem_cons, List.mem_singleton, List.not_mem_nil, or_false] at he
        rcases he with he | he | he | he <;> (rw [he]; exact fun hc => Event.noConfusion hc)

theorem previous_storage_events (env : Env) (st : State) :
    ∃ D, (if st.skey.data ≠ none then (ak_rc6_delete_keys env .valid st).2 else st).trace
        = st.trace ++ D ∧
      ∀ e ∈ D, ∀ sz ok, e ≠ Event.malloc sz ok := by
  by_cases hd : st.skey.data ≠ none
  · rw [if_pos hd]
    exact delete_keys_events env st
  · rw [if_neg hd]
    exact ⟨[], (List.append_nil _).symm, fun e he => absurd he (List.not_mem_nil e)⟩

/-- A call of the key schedule whose events include a failed allocation returns
`ak_error_out_of_memory`, leaves no storage, and reports the error right after the failed
allocation. -/
theorem failed_allocation_result (env : Env) (p : SkeyPtr) (st st1 : State) (code : ErrorCode)
    (evs : List Event) (h : ak_rc6_schedule_keys env p st = some (code, st1))
    (he : st1.trace = st.trace ++ evs) (hf : Event.malloc sizeof_expanded_keys false ∈ evs) :
    code = .ak_error_out_of_memory ∧ st1.skey.data = none ∧
    ∃ pre, evs = pre ++ [Event.malloc sizeof_expanded_keys false,
      Event.message .ak_error_out_of_memory "ak_rc6_schedule_keys"
        "wrong allocation of internal data"] := by
  have single : ∀ (c : ErrorCode) (f t : String),
      { st with trace := st.trace ++ [Event.message c f t] } = st1 → False := by
    intro c f t hst
    rw [← hst] at he
    have e := List.append_cancel_left he
    rw [← e] at hf
    simp only [List.mem_singleton] at hf
    exact Event.noConfusion hf
  unfold ak_rc6_schedule_keys at h
  cases p with
  | NULL =>
    simp only [ak_error_message, Option.some.injEq, Prod.mk.injEq] at h
    exact (single _ _ _ h.2).elim
  | valid =>
    simp only at h
    by_cases hsz : st.skey.key_size = 32
    · cases hic : env.check_icode st.skey with
      | true =>
        simp only [hsz, hic, ne_eq, not_true_eq_false, if_false] at h
        obtain ⟨D, hD, hDm⟩ := previous_storage_events env st
        simp only [ne_eq] at hD
        cases hm : ak_aligned_malloc env sizeof_expanded_keys with
        | none =>
          simp only [hm, ak_error_message, Option.some.injEq, Prod.mk.injEq] at h
          obtain ⟨hcode, hst⟩ := h
          refine ⟨hcode.symm, by rw [← hst], D, ?_⟩
          rw [← hst] at he
          simp only [hD, List.append_assoc, List.singleton_append] at he
          exact (List.append_cancel_left he).symm
        | some fresh =>
          have hlen := aligned_malloc_length env fresh hm
          simp only [hm, expand_keys_of_length fresh hlen] at h
          cases hx : expand_keys (List.replicate 44 0) with
          | none => simp only [hx, Option.none_bind] at h; cases h
          | some rl =>
            simp only [hx, Option.some_bind, Option.some.injEq, Prod.mk.injEq] at h
            obtain ⟨_, hst⟩ := h
            rw [← hst] at he
            simp only [hD, List.append_assoc] at he
            have e := List.append_cancel_left he
            rw [← e] at hf
            simp only [List.mem_append, List.mem_cons, List.mem_singleton, List.not_mem_nil,
              or_false] at hf
            rcases hf with hf | hf | hf
            · exact absurd rfl (hDm _ hf _ _)
            · simp only [Event.malloc.injEq, Bool.false_eq_true, and_false] at hf
            · exact Event.noConfusion hf
      | false =>
        simp only [hsz, hic, ne_eq, not_true_eq_false, if_false, Bool.false_eq_true,
          not_false_eq_true, if_true, ak_error_message, Option.some.injEq, Prod.mk.injEq] at h
        exact (single _ _ _ h.2).elim
    · simp only [hsz, ne_eq, not_false_eq_true, if_true, ak_error_message, Option.some.injEq,
        Prod.mk.injEq] at h
      exact (single _ _ _ h.2).elim

/-! ## The claims: initial words, rotations and shift counts -/

/-- C21: on any 44-word array, the statement `result[0] = ak_rc6_p32` followed by the
initialisation loop of `ak_rc6_schedule_keys` completes and leaves, for every `i` in `0..43`,
the word `(0xB7E15163 + i * 0x9E3779B9) mod 2^32` at index `i`; the mixing loop of the
expansion starts from exactly these words. -/
theorem init_loop_words (buf : List Nat) (h : buf.length = 44) :
    ∃ result,
      (write buf 0 ak_rc6_p32).bind (init_loop (List.range' 1 (2 * ak_rc6_rounds + 4 - 1)))
        = some result ∧
      result.length = 44 ∧
      (∀ i, i < 44 → result[i]? = some ((0xB7E15163 + i * 0x9E3779B9) % 2 ^ 32)) ∧
      expand_keys buf
        = (mix_loop (3 * (2 * ak_rc6_rounds + 4)) ⟨result, List.replicate 8 0, 0, 0, 0, 0⟩).bind
            fun s => some (s.result, s.L) := by
  refine ⟨(List.range 44).map init_word, init_phase buf h, ?_, ?_, expand_keys_eq buf h⟩
  · rw [List.length_map, List.length_range]
  · intro i hi
    rw [List.getElem?_map, List.getElem?_range hi]
    rfl

/-- Witness of C21: the array of 44 zero words. -/
theorem init_loop_words_witness :
    ∃ result,
      (write (List.replicate 44 0) 0 ak_rc6_p32).bind
        (init_loop (List.range' 1 (2 * ak_rc6_rounds + 4 - 1))) = some result ∧
      result.length = 44 ∧
      (∀ i, i < 44 → result[i]? = some ((0xB7E15163 + i * 0x9E3779B9) % 2 ^ 32)) ∧
      expand_keys (List.replicate 44 0)
        = (mix_loop (3 * (2 * ak_rc6_rounds + 4)) ⟨result, List.replicate 8 0, 0, 0, 0, 0⟩).bind
            fun s => some (s.result, s.L) :=
  init_loop_words (List.replicate 44 0) (by decide)

/-- C22: for every 32-bit `val` and every `bit_count`, 32-bit or not, with shift counts
taken modulo 32, `ak_rc6_left_bit_cicl_shift` gives `val` rotated left by `bit_count mod 32`
positions (bit `i` of `val` is bit `(i + bit_count mod 32) mod 32` of the result) and
`ak_rc6_right_bit_cicl_shift` gives `val` rotated right by `bit_count mod 32` positions
(bit `i` of the result is bit `(i + bit_count mod 32) mod 32` of `val`); both results are
32-bit words, and both are `val` when `bit_count` is 0 or another multiple of 32. -/
theorem rotation_helpers_rotate (val bit_count : Nat) (hv : val < 2 ^ 32) :
    ak_rc6_left_bit_cicl_shift val bit_count = rotl32 val (bit_count % 32) ∧
    ak_rc6_right_bit_cicl_shift val bit_count = rotr32 val (bit_count % 32) ∧
    (∀ i, i < 32 → (ak_rc6_left_bit_cicl_shift val bit_count).testBit ((i + bit_count % 32) % 32)
      = val.testBit i) ∧
    (∀ i, i < 32 → (ak_rc6_right_bit_cicl_shift val bit_count).testBit i
      = val.testBit ((i + bit_count % 32) % 32)) ∧
    ak_rc6_left_bit_cicl_shift val bit_count < 2 ^ 32 ∧
    ak_rc6_right_bit_cicl_shift val bit_count < 2 ^ 32 ∧
    (bit_count % 32 = 0 →
      ak_rc6_left_bit_cicl_shift val bit_count = val ∧
      ak_rc6_right_bit_cicl_shift val bit_count = val) := by
  have hk : bit_count % 32 < 32 := Nat.mod_lt _ (by decide)
  refine ⟨?_, ?_, ?_, ?_, left_shift_lt val bit_count hv, right_shift_lt val bit_count hv, ?_⟩
  · rw [rotl32_mod]
    exact left_shift_eq_rotl32 val bit_count hv
  · rw [rotr32_mod]
    exact right_shift_eq_rotr32 val bit_count hv
  · intro i hi
    rw [testBit_left_shift val bit_count _ hv]
    have e1 : ((i + bit_count % 32) % 32 + (32 - bit_count % 32)) % 32 = i := by omega
    have e2 : (i + bit_count % 32) % 32 < 32 := Nat.mod_lt _ (by decide)
    rw [decide_eq_true e2, e1, Bool.true_and]
  · intro i hi
    rw [testBit_right_shift val bit_count i hv, decide_eq_true hi, Bool.true_and]
  · intro h0
    exact ⟨left_shift_of_multiple val bit_count hv h0, right_shift_of_multiple val bit_count hv h0⟩

/-- Witness of C22: the count 64, a multiple of 32 that is not 0. -/
theorem rotation_helpers_rotate_witness :
    ak_rc6_left_bit_cicl_shift 0xB7E15163 64 = 0xB7E15163 ∧
    ak_rc6_right_bit_cicl_shift 0xB7E15163 64 = 0xB7E15163 ∧
    ak_rc6_left_bit_cicl_shift 0xB7E15163 64 = rotl32 0xB7E15163 (64 % 32) :=
  ⟨((rotation_helpers_rotate 0xB7E15163 64 (by decide)).2.2.2.2.2.2 rfl).1,
   ((rotation_helpers_rotate 0xB7E15163 64 (by decide)).2.2.2.2.2.2 rfl).2,
   (rotation_helpers_rotate 0xB7E15163 64 (by decide)).1⟩

/-- C23: for every 32-bit `val` and every count `n`, 32-bit or not, the right rotation helper undoes the
left one and the left one undoes the right one, at the same count. -/
theorem rotation_helpers_inverse (val n : Nat) (hv : val < 2 ^ 32) :
    ak_rc6_right_bit_cicl_shift (ak_rc6_left_bit_cicl_shift val n) n = val ∧
    ak_rc6_left_bit_cicl_shift (ak_rc6_right_bit_cicl_shift val n) n = val :=
  ⟨right_left_shift val n hv, left_right_shift val n hv⟩

/-- Witness of C23: a word rotated by a count above 31. -/
theorem rotation_helpers_inverse_witness :
    ak_rc6_right_bit_cicl_shift (ak_rc6_left_bit_cicl_shift 0xB7E15163 0xBF0A8B1D) 0xBF0A8B1D
      = 0xB7E15163 ∧
    ak_rc6_left_bit_cicl_shift (ak_rc6_right_bit_cicl_shift 0xB7E15163 0xBF0A8B1D) 0xBF0A8B1D
      = 0xB7E15163 :=
  rotation_helpers_inverse 0xB7E15163 0xBF0A8B1D (by decide)

/-- C24: the shift counts inside the rotation helpers are not confined to `0..31`.  The
mixing loop of every key schedule starts from the words `init_word i`, and in its first pass
the second call of the helper has `bit_count = A + B = 0xBF0A8B1D`, so that the helper shifts
by `0xBF0A8B1D` and by the `ak_uint32` value `0x40F57503` of `32 - bit_count`.  In the first
round of the encryption of the first test block under the scheduled words the counts `u` and
`t` are `0xB3121F5C` and `0xAAF7393F`, and in the first round of the decryption of the first
block of `outecb` the counts `t` and `u` are `0x7AEB7845` and `0x60A63F80`.  A count of 0 makes
the helper shift by 32. -/
theorem shift_counts_exceed_31 :
    mix_step_bit_counts ⟨(List.range 44).map init_word, List.replicate 8 0, 0, 0, 0, 0⟩
      = some [3, 0xBF0A8B1D] ∧
    shift_counts 0xBF0A8B1D = [0xBF0A8B1D, 0x40F57503] ∧
    ((expand_keys (List.replicate 44 0)).bind fun rl =>
      (loadRegs (block_at test_in 0)).map fun r =>
        encrypt_round_bit_counts
          ⟨r.A, add32 r.B (rl.1.getD 0 0), r.C, add32 r.D (rl.1.getD 1 0)⟩)
      = some [5, 5, 0xB3121F5C, 0xAAF7393F] ∧
    ((expand_keys (List.replicate 44 0)).bind fun rl =>
      (loadRegs (block_at test_outecb 0)).map fun r =>
        decrypt_round_bit_counts
          ⟨sub32 r.A (rl.1.getD 42 0), r.B, sub32 r.C (rl.1.getD 43 0), r.D⟩)
      = some [5, 5, 0x7AEB7845, 0x60A63F80] ∧
    shift_counts 0 = [0, 32] ∧
    ¬ (∀ bit_count ∈ [3, 0xBF0A8B1D], ∀ c ∈ shift_counts bit_count, c < 32) := by
  refine ⟨by decide, by decide, by decide, by decide, by decide, by decide⟩

/-! ## The claims: array indices and frames -/

/-- C25: every index at which `ak_rc6_encrypt`, `ak_rc6_decrypt` and the two loops of
`ak_rc6_schedule_keys` access the round-key array lies in `0..43`, and every index into `L`
lies in `0..7`; on a 44-word array and a 16-byte block the two block transforms and the
expansion therefore run to their end, no access falling outside an array. -/
theorem array_indices_in_bounds (skey : Skey) (keys inp buf : List Nat)
    (hdata : skey.data = some keys) (hlen : keys.length = 44) (hb : inp.length = 16)
    (hbuf : buf.length = 44) :
    (∀ i ∈ encrypt_key_reads, i < 44) ∧
    (∀ i ∈ decrypt_key_reads, i < 44) ∧
    (∀ i ∈ init_key_accesses, i < 44) ∧
    (∃ w, mix_writes mix_iterations ⟨(List.range 44).map init_word, List.replicate 8 0, 0, 0, 0, 0⟩
        = some w ∧ w.length = 3 * 44 ∧ ∀ ij ∈ w, ij.1 < 44 ∧ ij.2 < 8) ∧
    (∃ out, ak_rc6_encrypt skey inp = some out) ∧
    (∃ out, ak_rc6_decrypt skey inp = some out) ∧
    (∃ rl, expand_keys buf = some rl ∧ rl.1.length = 44 ∧ rl.2.length = 8) := by
  obtain ⟨c, hc, _⟩ := encrypt_block_total keys inp hlen hb
  obtain ⟨d, hd, _⟩ := decrypt_block_total keys inp hlen hb
  obtain ⟨rl, hrl⟩ := Option.isSome_iff_exists.mp expand_keys_zero_isSome
  have hl1 := expand_keys_zero_length
  have hl2 := expand_keys_zero_aux_length
  rw [hrl, Option.map_some', Option.some.injEq] at hl1 hl2
  refine ⟨by decide, by decide, by decide, ?_, ⟨c, ?_⟩, ⟨d, ?_⟩, ⟨rl, ?_, hl1, hl2⟩⟩
  · refine ⟨_, mix_writes_spec mix_iterations
      ⟨(List.range 44).map init_word, List.replicate 8 0, 0, 0, 0, 0⟩
      (by rw [List.length_map, List.length_range]) (List.length_replicate _ _)
      (by decide) (by decide), ?_, ?_⟩
    · rw [List.length_map, List.length_range]
      rfl
    · intro ij hij
      obtain ⟨k, _, hk⟩ := List.mem_map.mp hij
      rw [← hk]
      exact ⟨Nat.mod_lt _ (by decide), Nat.mod_lt _ (by decide)⟩
  · rw [encrypt_eq_of_data skey keys hdata, hc]
  · rw [decrypt_eq_of_data skey keys hdata, hd]
  · rw [expand_keys_of_length buf hbuf, hrl]

/-- Witness of C25: the first block of the test input on a context that owns round words, and
the expansion on the array of 44 zero words. -/
theorem array_indices_in_bounds_witness :
    (∃ out, ak_rc6_encrypt keyed_state.skey (block_at test_in 0) = some out) ∧
    (∃ out, ak_rc6_decrypt keyed_state.skey (block_at test_in 0) = some out) ∧
    (∃ rl, expand_keys (List.replicate 44 0) = some rl ∧ rl.1.length = 44 ∧ rl.2.length = 8) :=
  (array_indices_in_bounds keyed_state.skey ((List.range 44).map init_word)
    (block_at test_in 0) (List.replicate 44 0) rfl (by decide) (by decide) (by decide)).2.2.2.2

/-- C26: a call of `ak_rc6_encrypt` or `ak_rc6_decrypt` that completes leaves the memory,
the context with its round words and every other field, exactly as it was, and what it writes
is an output block of 16 bytes; on a context that holds 44 round words both calls complete
for every 16-byte input. -/
theorem block_calls_frame (st : State) (inp : List Nat) :
    (∀ st1 out, ak_rc6_encrypt_call st inp = some (st1, out) → st1 = st ∧ out.length = 16) ∧
    (∀ st1 out, ak_rc6_decrypt_call st inp = some (st1, out) → st1 = st ∧ out.length = 16) ∧
    (∀ keys, st.skey.data = some keys → keys.length = 44 → inp.length = 16 →
      (ak_rc6_encrypt_call st inp).isSome = true ∧
      (ak_rc6_decrypt_call st inp).isSome = true) := by
  refine ⟨?_, ?_, ?_⟩
  · intro st1 out h
    unfold ak_rc6_encrypt_call at h
    cases hd : st.skey.data with
    | none =>
      unfold ak_rc6_encrypt at h
      rw [hd] at h
      cases h
    | some keys =>
      rw [encrypt_eq_of_data st.skey keys hd] at h
      cases hc : encrypt_block keys inp with
      | none => rw [hc] at h; cases h
      | some c =>
        rw [hc, Option.map_some'] at h
        cases h
        exact ⟨rfl, encrypt_block_output keys inp _ hc⟩
  · intro st1 out h
    unfold ak_rc6_decrypt_call at h
    cases hd : st.skey.data with
    | none =>
      unfold ak_rc6_decrypt at h
      rw [hd] at h
      cases h
    | some keys =>
      rw [decrypt_eq_of_data st.skey keys hd] at h
      cases hc : decrypt_block keys inp with
      | none => rw [hc] at h; cases h
      | some c =>
        rw [hc, Option.map_some'] at h
        cases h
        exact ⟨rfl, (decrypt_block_output keys inp _ hc).1⟩
  · intro keys hd hlen hb
    obtain ⟨c, hc, _⟩ := encrypt_block_total keys inp hlen hb
    obtain ⟨d, hdec, _⟩ := decrypt_block_total keys inp hlen hb
    unfold ak_rc6_encrypt_call ak_rc6_decrypt_call
    rw [encrypt_eq_of_data st.skey keys hd, decrypt_eq_of_data st.skey keys hd, hc, hdec]
    exact ⟨rfl, rfl⟩

/-- Witness of C26: the first block of the test input on a context that owns round words. -/
theorem block_calls_frame_witness :
    (ak_rc6_encrypt_call keyed_state (block_at test_in 0)).isSome = true ∧
    (ak_rc6_decrypt_call keyed_state (block_at test_in 0)).isSome = true ∧
    (∀ st1 out, ak_rc6_encrypt_call keyed_state (block_at test_in 0) = some (st1, out) →
      st1 = keyed_state ∧ out.length = 16) :=
  ⟨((block_calls_frame keyed_state (block_at test_in 0)).2.2 ((List.range 44).map init_word)
      rfl (by decide) (by decide)).1,
   ((block_calls_frame keyed_state (block_at test_in 0)).2.2 ((List.range 44).map init_word)
      rfl (by decide) (by decide)).2,
   (block_calls_frame keyed_state (block_at test_in 0)).1⟩

/-! ## The claims: storage, allocation failure and null contexts -/

/-- C27: whenever `ak_rc6_schedule_keys` returns `ak_error_ok`, the context holds round-key
storage of exactly 44 words, each of 32 bits; storage held before the call was released,
by the events of `ak_rc6_delete_keys`, before the new storage was allocated; and after
`ak_rc6_delete_keys` on a non-null context the `data` pointer is `NULL`, whatever the
environment, the wipe routine included, does. -/
theorem round_key_storage_tracks_key (env : Env) (p : SkeyPtr) (st st1 : State)
    (h : ak_rc6_schedule_keys env p st = some (.ak_error_ok, st1)) :
    (∃ keys, st1.skey.data = some keys ∧ keys.length = 44 ∧ ∀ w ∈ keys, w < 2 ^ 32) ∧
    (∀ old, st.skey.data = some old →
      ∃ pre freed L after, st1.trace = st.trace ++ pre ++ [Event.free freed] ++
        [Event.malloc sizeof_expanded_keys true, Event.wipe L (8 * 4) after]) ∧
    (st.skey.data = none →
      ∃ L after, st1.trace = st.trace ++
        [Event.malloc sizeof_expanded_keys true, Event.wipe L (8 * 4) after]) ∧
    (∀ (env2 : Env) (st2 : State), (ak_rc6_delete_keys env2 .valid st2).2.skey.data = none) := by
  obtain ⟨rl, hrl, hdata⟩ := schedule_keys_ok_data env p st st1 h
  obtain ⟨L, after, htr⟩ := schedule_keys_ok_trace env p st st1 h
  have hlen := expand_keys_zero_length
  have hwords := expand_keys_zero_words
  rw [hrl, Option.map_some', Option.some.injEq] at hlen hwords
  refine ⟨⟨rl.1, hdata, hlen, of_decide_eq_true hwords⟩, ?_, ?_,
    fun env2 st2 => (delete_keys_key env2 st2).2⟩
  · intro old hold
    obtain ⟨pre, freed, hdel⟩ := delete_keys_trace env st old hold
    have hne : st.skey.data ≠ none := by rw [hold]; exact Option.some_ne_none _
    rw [if_pos hne, hdel] at htr
    exact ⟨pre, freed, L, after, htr⟩
  · intro hnone
    have hne : ¬ st.skey.data ≠ none := fun hc => hc hnone
    rw [if_neg hne] at htr
    exact ⟨L, after, htr⟩

/-- Witness of C27: the key schedule on a context that already owns round-key storage. -/
theorem round_key_storage_tracks_key_witness :
    ∃ st1, ak_rc6_schedule_keys test_env .valid keyed_state = some (.ak_error_ok, st1) ∧
      (∃ keys, st1.skey.data = some keys ∧ keys.length = 44 ∧ ∀ w ∈ keys, w < 2 ^ 32) ∧
      (∀ old, keyed_state.skey.data = some old →
        ∃ pre freed L after, st1.trace = keyed_state.trace ++ pre ++ [Event.free freed] ++
          [Event.malloc sizeof_expanded_keys true, Event.wipe L (8 * 4) after]) :=
  (schedule_keys_ok test_env keyed_state rfl rfl rfl).elim fun st1 hx =>
    hx.elim fun _ hy =>
      ⟨st1, hy.1, (round_key_storage_tracks_key test_env .valid keyed_state st1 hy.1).1,
        (round_key_storage_tracks_key test_env .valid keyed_state st1 hy.1).2.1⟩

/-- C28: a call of `ak_rc6_schedule_keys` in which the aligned allocation fails returns
`ak_error_out_of_memory` and leaves the context without round-key storage, and after the
failed allocation the only event is the report of the error: no word is expanded and `L` is
not wiped.  The allocation is reached on a non-null context with a key size of 32 and a
passing integrity check; there, if `ak_aligned_malloc` fails, the call returns as described,
the other fields of the context being those left by the deletion of the previous storage. -/
theorem schedule_keys_out_of_memory (env : Env) (st : State) :
    (∀ p code st1 evs, ak_rc6_schedule_keys env p st = some (code, st1) →
      st1.trace = st.trace ++ evs → Event.malloc sizeof_expanded_keys false ∈ evs →
      code = .ak_error_out_of_memory ∧ st1.skey.data = none ∧
      ∃ pre, evs = pre ++ [Event.malloc sizeof_expanded_keys false,
        Event.message .ak_error_out_of_memory "ak_rc6_schedule_keys"
          "wrong allocation of internal data"]) ∧
    (st.skey.key_size = 32 → env.check_icode st.skey = true → env.malloc_ok = false →
      ak_rc6_schedule_keys env .valid st
        = some (.ak_error_out_of_memory,
            ⟨{ (if st.skey.data ≠ none then (ak_rc6_delete_keys env .valid st).2
                else st).skey with data := none },
             (if st.skey.data ≠ none then (ak_rc6_delete_keys env .valid st).2 else st).trace ++
               [Event.malloc sizeof_expanded_keys false,
                Event.message .ak_error_out_of_memory "ak_rc6_schedule_keys"
                  "wrong allocation of internal data"]⟩)) := by
  refine ⟨fun p code st1 evs h he hf => failed_allocation_result env p st st1 code evs h he hf,
    ?_⟩
  intro hsz hic hm
  have hmal : ak_aligned_malloc env sizeof_expanded_keys = none := by
    unfold ak_aligned_malloc
    rw [hm]
    rfl
  unfold ak_rc6_schedule_keys
  simp only [hsz, hic, ne_eq, not_true_eq_false, if_false, hmal, ak_error_message,
    List.append_assoc, List.singleton_append]

/-- Witness of C28: the test context in an environment whose allocation fails. -/
theorem schedule_keys_out_of_memory_witness :
    ak_rc6_schedule_keys no_memory_env .valid test_state
      = some (.ak_error_out_of_memory,
          ⟨test_state.skey, test_state.trace ++ [Event.malloc sizeof_expanded_keys false,
            Event.message .ak_error_out_of_memory "ak_rc6_schedule_keys"
              "wrong allocation of internal data"]⟩) ∧
    (∀ p code st1 evs, ak_rc6_schedule_keys no_memory_env p test_state = some (code, st1) →
      st1.trace = test_state.trace ++ evs → Event.malloc sizeof_expanded_keys false ∈ evs →
      code = .ak_error_out_of_memory ∧ st1.skey.data = none ∧
      ∃ pre, evs = pre ++ [Event.malloc sizeof_expanded_keys false,
        Event.message .ak_error_out_of_memory "ak_rc6_schedule_keys"
          "wrong allocation of internal data"]) :=
  ⟨(schedule_keys_out_of_memory no_memory_env test_state).2 rfl rfl rfl,
   (schedule_keys_out_of_memory no_memory_env test_state).1⟩

/-- C29: given a null context, `ak_rc6_schedule_keys`, `ak_rc6_delete_keys` and
`ak_bckey_create_rc6` each return `ak_error_null_pointer`, leave the memory as it was and do
nothing but report the error; on a non-null context `ak_rc6_delete_keys` returns
`ak_error_ok` when there is no round-key storage and when the wipe routine succeeds. -/
theorem null_context_errors (env : Env) (cenv : CreateEnv) (st : State) (bst : BState) :
    ak_rc6_schedule_keys env .NULL st
      = some (.ak_error_null_pointer,
          ⟨st.skey, st.trace ++ [Event.message .ak_error_null_pointer "ak_rc6_schedule_keys"
            "using a null pointer to secret key"]⟩) ∧
    ak_rc6_delete_keys env .NULL st
      = (.ak_error_null_pointer,
          ⟨st.skey, st.trace ++ [Event.message .ak_error_null_pointer "ak_rc6_delete_keys"
            "using a null pointer to secret key"]⟩) ∧
    ak_bckey_create_rc6 cenv .NULL bst
      = (.ak_error_null_pointer,
          ⟨bst.bkey, bst.trace ++ [Event.message .ak_error_null_pointer "ak_bckey_create_rc6"
            "using null pointer to block cipher key context"]⟩) ∧
    (st.skey.data = none → ak_rc6_delete_keys env .valid st = (.ak_error_ok, st)) ∧
    (∀ data, st.skey.data = some data →
      (env.ak_ptr_wipe data sizeof_expanded_keys st.skey.generator).1 = .ak_error_ok →
      (ak_rc6_delete_keys env .valid st).1 = .ak_error_ok) := by
  refine ⟨rfl, rfl, rfl, delete_keys_no_data env st, ?_⟩
  intro data hd hw
  rw [delete_keys_wipe_ok env st data hd hw]

/-- Witness of C29: the deletion of existing storage with a wipe routine that succeeds, and
the three calls on a null context. -/
theorem null_context_errors_witness :
    (ak_rc6_delete_keys test_env .valid keyed_state).1 = .ak_error_ok ∧
    (ak_rc6_delete_keys test_env .valid test_state) = (.ak_error_ok, test_state) ∧
    (ak_rc6_schedule_keys test_env .NULL keyed_state).map (fun r => r.1)
      = some .ak_error_null_pointer :=
  ⟨(null_context_errors test_env (create_env 0) keyed_state blank_bstate).2.2.2.2
      ((List.range 44).map init_word) rfl rfl,
   (null_context_errors test_env (create_env 0) test_state blank_bstate).2.2.2.1 rfl,
   by rw [(null_context_errors test_env (create_env 0) keyed_state blank_bstate).1]; rfl⟩

/-- C30: on a non-null context, an option value below 0 or above 1 makes
`ak_bckey_create_rc6` return `ak_error_wrong_option`; the context is left as it was, with no
size, identifier or handler set, and the only effect is the report of the error. -/
theorem create_rc6_wrong_option (cenv : CreateEnv) (st : BState)
    (h : cenv.openssl_compability < 0 ∨ cenv.openssl_compability > 1) :
    ak_bckey_create_rc6 cenv .valid st
      = (.ak_error_wrong_option,
          ⟨st.bkey, st.trace ++ [Event.message .ak_error_wrong_option "ak_bckey_create_rc6"
            "wrong value for \"openssl_compability\" option"]⟩) := by
  unfold ak_bckey_create_rc6
  simp only [h, if_true]

/-- Witness of C30: the option values 2 and -1 on the blank context. -/
theorem create_rc6_wrong_option_witness :
    ak_bckey_create_rc6 (create_env 2) .valid blank_bstate
      = (.ak_error_wrong_option,
          ⟨blank_bstate.bkey, blank_bstate.trace ++
            [Event.message .ak_error_wrong_option "ak_bckey_create_rc6"
              "wrong value for \"openssl_compability\" option"]⟩) ∧
    (ak_bckey_create_rc6 (create_env (-1)) .valid blank_bstate).1 = .ak_error_wrong_option ∧
    (ak_bckey_create_rc6 (create_env (-1)) .valid blank_bstate).2.bkey.encrypt.isNone = true :=
  ⟨create_rc6_wrong_option (create_env 2) blank_bstate (Or.inr (by decide)),
   by rw [create_rc6_wrong_option (create_env (-1)) blank_bstate (Or.inl (by decide))],
   by rw [create_rc6_wrong_option (create_env (-1)) blank_bstate (Or.inl (by decide))]; rfl⟩

/-! ## Lemmas: nearest odd integers -/

theorem nearest_odd_of_abs_lt_one (x : ℝ) (n : ℤ) (hodd : n % 2 = 1) (h : |x - n| < 1) :
    nearest_odd x n := by
  refine ⟨hodd, ?_⟩
  intro m hm hne
  have h2 : (2 : ℝ) ≤ |(m : ℝ) - n| := by
    have hz : 2 ≤ |m - n| := by
      rcases lt_or_gt_of_ne hne with hlt | hgt
      · rw [abs_of_neg (by omega)]
        omega
      · rw [abs_of_pos (by omega)]
        omega
    have hc : ((2 : ℤ) : ℝ) ≤ ((|m - n| : ℤ) : ℝ) := Int.cast_le.mpr hz
    rw [Int.cast_abs, Int.cast_sub] at hc
    exact_mod_cast hc
  have h3 : |(m : ℝ) - n| ≤ |x - n| + |x - m| := by
    have e : (m : ℝ) - n = (x - n) - (x - m) := by ring
    rw [e]
    exact abs_sub _ _
  linarith

theorem p32_near : |(Real.exp 1 - 2) * 2 ^ 32 - ((ak_rc6_p32 : ℤ) : ℝ)| < 1 := by
  have h := abs_le.mp Real.exp_one_near_20
  have e : ((ak_rc6_p32 : ℤ) : ℝ) = 3084996963 := by
    simp only [ak_rc6_p32]
    norm_num
  rw [e, abs_lt]
  obtain ⟨h1, h2⟩ := h
  constructor
  · norm_num at h1 ⊢
    linarith
  · norm_num at h2 ⊢
    linarith

theorem sqrt_five_gt : (4801919416 : ℝ) / 2147483648 < √5 := by
  rw [Real.lt_sqrt (by norm_num)]
  norm_num

theorem sqrt_five_lt : √5 < (4801919418 : ℝ) / 2147483648 := by
  rw [Real.sqrt_lt' (by norm_num)]
  norm_num

theorem q32_near : |(goldenRatio - 1) * 2 ^ 32 - ((ak_rc6_q32 : ℤ) : ℝ)| < 1 := by
  have h1 := sqrt_five_gt
  have h2 := sqrt_five_lt
  have e : ((ak_rc6_q32 : ℤ) : ℝ) = 2654435769 := by
    simp only [ak_rc6_q32]
    norm_num
  rw [e, abs_lt]
  unfold goldenRatio
  constructor
  · norm_num at h1 ⊢
    linarith
  · norm_num at h2 ⊢
    linarith

/-! ## Lemmas: the quadratic map -/

theorem quadratic_eq (x : Nat) : quadratic x = (x * (2 * x + 1)) % 2 ^ 32 :=
  mul32_quadratic x

theorem quadratic_lt (x : Nat) : quadratic x < 2 ^ 32 := by
  rw [quadratic_eq]
  exact Nat.mod_lt _ (Nat.two_pow_pos _)

theorem quadratic_injective_of_le (a b : Nat) (hab : b ≤ a) (ha : a < 2 ^ 32)
    (h : quadratic a = quadratic b) : a = b := by
  rw [quadratic_eq, quadratic_eq] at h
  have hle : b * (2 * b + 1) ≤ a * (2 * a + 1) := Nat.mul_le_mul hab (by omega)
  have hd : 2 ^ 32 ∣ a * (2 * a + 1) - b * (2 * b + 1) :=
    (Nat.modEq_iff_dvd' hle).mp h.symm
  have e : a * (2 * a + 1) - b * (2 * b + 1) = (a - b) * (2 * a + 2 * b + 1) := by
    obtain ⟨d, rfl⟩ := Nat.exists_eq_add_of_le hab
    rw [Nat.add_sub_cancel_left]
    apply Nat.sub_eq_of_eq_add
    ring
  rw [e] at hd
  have hodd : Odd (2 * a + 2 * b + 1) := ⟨a + b, by ring⟩
  have hc : Nat.Coprime (2 ^ 32) (2 * a + 2 * b + 1) :=
    (Nat.Coprime.pow_left 32 (Nat.coprime_two_left.mpr hodd))
  have hdvd : 2 ^ 32 ∣ a - b := hc.dvd_of_dvd_mul_right hd
  have hzero : a - b = 0 := Nat.eq_zero_of_dvd_of_lt hdvd (by omega)
  omega

theorem quadratic_injective (a b : Nat) (ha : a < 2 ^ 32) (hb : b < 2 ^ 32)
    (h : quadratic a = quadratic b) : a = b := by
  rcases Nat.le_total b a with hab | hab
  · exact quadratic_injective_of_le a b hab ha h
  · exact (quadratic_injective_of_le b a hab hb h.symm).symm

theorem quadratic_surjective (z : Nat) (hz : z < 2 ^ 32) :
    ∃ x, x < 2 ^ 32 ∧ quadratic x = z := by
  have hinj : Function.Injective
      (fun x : Fin (2 ^ 32) => (⟨quadratic x.1, quadratic_lt x.1⟩ : Fin (2 ^ 32))) := by
    intro x y hxy
    have h := congrArg Fin.val hxy
    exact Fin.ext (quadratic_injective x.1 y.1 x.2 y.2 h)
  obtain ⟨x, hx⟩ := Finite.surjective_of_injective hinj ⟨z, hz⟩
  exact ⟨x.1, x.2, congrArg Fin.val hx⟩

/-! ## The claims: constants and the quadratic map -/

/-- C31: `ak_rc6_p32` is `0xB7E15163`, the odd integer nearest to `(e - 2) * 2^32`, and
`ak_rc6_q32` is `0x9E3779B9`, the odd integer nearest to `(phi - 1) * 2^32`, where `e` is
the base of the natural logarithm and `phi` the golden ratio: each constant is odd and lies
at a distance below 1 from the real number, so that every other odd integer lies farther. -/
theorem magic_constants :
    ak_rc6_p32 = 0xB7E15163 ∧ ak_rc6_q32 = 0x9E3779B9 ∧
    nearest_odd ((Real.exp 1 - 2) * 2 ^ 32) ak_rc6_p32 ∧
    nearest_odd ((goldenRatio - 1) * 2 ^ 32) ak_rc6_q32 ∧
    |(Real.exp 1 - 2) * 2 ^ 32 - ((ak_rc6_p32 : ℤ) : ℝ)| < 1 ∧
    |(goldenRatio - 1) * 2 ^ 32 - ((ak_rc6_q32 : ℤ) : ℝ)| < 1 :=
  ⟨rfl, rfl, nearest_odd_of_abs_lt_one _ _ (by decide) p32_near,
    nearest_odd_of_abs_lt_one _ _ (by decide) q32_near, p32_near, q32_near⟩

/-- C32: the map `x -> x * (2 * x + 1) mod 2^32`, from which every round of
`ak_rc6_encrypt` and `ak_rc6_decrypt` derives `t` and `u`, sends 32-bit words to 32-bit
words, takes distinct words to distinct words and reaches every word: it is a bijection on
the 32-bit words. -/
theorem quadratic_bijective :
    (∀ x, quadratic x = (x * (2 * x + 1)) % 2 ^ 32) ∧
    (∀ r, encrypt_round_bit_counts r =
      [ak_rc6_lg_w, ak_rc6_lg_w, ak_rc6_left_bit_cicl_shift (quadratic r.D) ak_rc6_lg_w,
        ak_rc6_left_bit_cicl_shift (quadratic r.B) ak_rc6_lg_w]) ∧
    (∀ r, decrypt_round_bit_counts r =
      [ak_rc6_lg_w, ak_rc6_lg_w, ak_rc6_left_bit_cicl_shift (quadratic r.A) ak_rc6_lg_w,
        ak_rc6_left_bit_cicl_shift (quadratic r.C) ak_rc6_lg_w]) ∧
    (∀ x, x < 2 ^ 32 → quadratic x < 2 ^ 32) ∧
    (∀ x y, x < 2 ^ 32 → y < 2 ^ 32 → quadratic x = quadratic y → x = y) ∧
    (∀ z, z < 2 ^ 32 → ∃ x, x < 2 ^ 32 ∧ quadratic x = z) :=
  ⟨quadratic_eq, fun _ => rfl, fun _ => rfl, fun x _ => quadratic_lt x, quadratic_injective,
    quadratic_surjective⟩

/-- Witness of C32: the word `0xB7E15163` is reached, and the words 3 and 5 have distinct
images. -/
theorem quadratic_bijective_witness :
    (∃ x, x < 2 ^ 32 ∧ quadratic x = 0xB7E15163) ∧ quadratic 3 < 2 ^ 32 ∧
    (quadratic 3 = quadratic 5 → 3 = 5) :=
  ⟨quadratic_bijective.2.2.2.2.2 0xB7E15163 (by decide),
   quadratic_bijective.2.2.2.1 3 (by decide),
   quadratic_bijective.2.2.2.2.1 3 5 (by decide) (by decide)⟩

end RC6
